import Mathlib

/-!
Verification development for the `stream-file` repository: a shallow
embedding of the segmented byte cache (`CachePool` in
`src/cache-pool.js`, with the option-style `CacheItem`) and of the
synchronous parts of the stream coordinator (`StreamFile` in
`src/stream-file.js`), together with theorems settling the
specification claims about them.

Conventions of the embedding:
* byte buffers are `List Nat` (one entry per byte; string inputs carry
  their char codes, which `readBytes` copies the same way);
* JavaScript `null` cursors become `none`;
* a thrown exception is an explicit error constructor, and an operation
  that can throw after mutating carries the state as it was at the
  point of the throw;
* `Date.now()` is modelled by a monotone `clock` field bumped by the
  operations that in the source read the wall clock.
-/

namespace StreamFileSpec

/-- One cache segment.  In the source this is a `CacheItem` with flags
`empty`/`eof` plus optional `buffer`/`string` payload; the reachable
shapes are: a plain empty range, a filled range whose `end` is
`start + payload length`, and the EOF terminator with `end = start`.
`filled` keeps the LRU `timestamp`.  A `filled` with `[]` payload is the
(`empty=false`, zero-length) item the source builds from a zero-length
`ArrayBuffer`. -/
inductive Seg where
  | emp (s e : Nat)
  | filled (s : Nat) (bs : List Nat) (ts : Nat)
  | eofSeg (s : Nat)
deriving Repr, DecidableEq

namespace Seg

/-- `item.start`. -/
def start : Seg → Nat
  | emp s _ => s
  | filled s _ _ => s
  | eofSeg s => s

/-- `item.end` (a Lean keyword, hence `stop`); for a filled item the
source always sets `end = start + byteLength`. -/
def stop : Seg → Nat
  | emp _ e => e
  | filled s bs _ => s + bs.length
  | eofSeg s => s

/-- The `empty` flag: true for empty ranges and the EOF item. -/
def empty : Seg → Bool
  | filled _ _ _ => false
  | _ => true

/-- The `eof` flag. -/
def eof : Seg → Bool
  | eofSeg _ => true
  | _ => false

/-- `item.length`. -/
def len (g : Seg) : Nat := g.stop - g.start

/-- The stored payload (bytes or char codes) of a filled item. -/
def bytes : Seg → List Nat
  | filled _ bs _ => bs
  | _ => []

/-- The LRU timestamp of a filled item. -/
def ts : Seg → Nat
  | filled _ _ t => t
  | _ => 0

/-- Overwrite the timestamp of a filled item (a `readBytes` touch). -/
def setTs : Seg → Nat → Seg
  | filled s bs _, t => filled s bs t
  | g, _ => g

/-- `contains(offset)`: `offset >= start && (offset < end || eof)`. -/
def contains (g : Seg) (o : Nat) : Bool :=
  decide (g.start ≤ o) && (decide (o < g.stop) || g.eof)

/-- The right half produced by `split(offset)`: `[offset,end)`, keeping
the `eof` flag (for EOF the right half is the EOF moved to `offset`). -/
def splitRight (g : Seg) (off : Nat) : Seg :=
  match g with
  | eofSeg _ => eofSeg off
  | _ => emp off g.stop

/-- `split(offset)`: valid only on an `empty` item containing `offset`;
yields `[start,offset)` (plain empty) and the right half. -/
def split (g : Seg) (off : Nat) : Option (Seg × Seg) :=
  if g.empty && g.contains off then
    some (emp g.start off, splitRight g off)
  else none

/-- The byte copy done by `readBytes(dest, start, end)` on a filled
item: bytes `[a - start, b - start)` of the payload. -/
def readSlice (g : Seg) (a b : Nat) : List Nat :=
  (g.bytes.drop (a - g.start)).take (b - a)

end Seg

/-- The cache pool state: the ordered segment list (the doubly linked
chain from `head` to `tail`), the two offsets, the two cursors as
indices into `segs` (`none` = JavaScript `null`), the soft cache cap,
and the modelling clock.  `head`/`tail` of the source are the first and
last list entries. -/
structure Pool where
  segs : List Seg
  readOffset : Nat
  readCursor : Option Nat
  writeOffset : Nat
  writeCursor : Option Nat
  cacheSize : Nat
  clock : Nat
deriving Repr, DecidableEq

namespace Pool

/-- The fresh pool built by the constructor: a single EOF item at 0;
`cacheSize` defaults to 0. -/
def fresh (cacheSize : Nat := 0) : Pool :=
  { segs := [Seg.eofSeg 0], readOffset := 0, readCursor := some 0,
    writeOffset := 0, writeCursor := some 0, cacheSize := cacheSize,
    clock := 0 }

end Pool

/-- `head.first(item => item.contains(offset))`, starting at index `i`:
index of the first segment at or after `i` containing `o`. -/
def firstIdxFrom (segs : List Seg) (i : Nat) (o : Nat) : Option Nat :=
  ((segs.drop i).findIdx? (fun g => g.contains o)).map (· + i)

/-- `head.first(item => item.contains(offset))` from the list head. -/
def firstIdx (segs : List Seg) (o : Nat) : Option Nat :=
  firstIdxFrom segs 0 o

namespace Pool

/-- `splice(oldHead, oldTail, newHead, newTail)` where the old chain is
`segs[i..j]` and the replacement chain is `repl`.  `none` models the
`invalid splice` throws, which in the source happen before any
relinking.  After relinking both cursors are recomputed from the head
(`this.readCursor = this.head.first(...)` etc.). -/
def splice (p : Pool) (i j : Nat) (repl : List Seg) : Option Pool :=
  match p.segs[i]?, p.segs[j]?, repl.head?, repl.getLast? with
  | some oldHead, some oldTail, some newHead, some newTail =>
    if oldHead.start ≠ newHead.start then none
    else if oldTail.stop ≠ newTail.stop ∧ ¬(oldTail.eof ∧ newTail.eof) then none
    else
      let segs' := p.segs.take i ++ repl ++ p.segs.drop (j + 1)
      some { p with segs := segs',
                    readCursor := firstIdx segs' p.readOffset,
                    writeCursor := firstIdx segs' p.writeOffset }
  | _, _, _, _ => none

/-- `split(oldItem, offset)`: split the item at index `i` and splice the
two halves in its place. -/
def split (p : Pool) (i : Nat) (off : Nat) : Option Pool :=
  match p.segs[i]? with
  | none => none
  | some g =>
    match g.split off with
    | none => none
    | some (a, b) => p.splice i i [a, b]

/-- `seekRead(offset)`: find the containing segment from the head; on
success set `readOffset`/`readCursor`, otherwise throw (state
unchanged). -/
def seekRead (p : Pool) (off : Nat) : Option Pool :=
  (firstIdx p.segs off).map fun iTgt =>
    { p with readOffset := off, readCursor := some iTgt }

/-- `seekWrite(offset)`: same for the write side. -/
def seekWrite (p : Pool) (off : Nat) : Option Pool :=
  (firstIdx p.segs off).map fun iTgt =>
    { p with writeOffset := off, writeCursor := some iTgt }

/-- `bytesReadable(max)`: walk the run of non-empty items from the read
cursor whose `start` is within `offset + max`, returning
`min(max, last.end - offset)` (`max = none` models `Infinity`).  `none`
result models the crash on a `null` cursor. -/
def bytesReadable (p : Pool) (max : Option Int) : Option Int :=
  match p.readCursor with
  | none => none
  | some ci =>
    let off : Int := (p.readOffset : Int)
    let pred : Seg → Bool := fun g =>
      !g.empty && (match max with
                   | none => true
                   | some m => decide ((g.start : Int) ≤ off + m))
    let run := (p.segs.drop ci).takeWhile pred
    match run.getLast? with
    | none => some 0
    | some lastg =>
      let avail : Int := (lastg.stop : Int) - off
      some (match max with
            | none => avail
            | some m => min m avail)

end Pool

/-- The copying loop of `readBytes`: starting at segment index `i`,
copy until an empty segment, a segment starting at/after `endPos`, or
the end of the list; each touched filled segment gets its timestamp
refreshed.  Returns the copied bytes (the loop writes them to
consecutive positions of `dest`), the final `readHead`, and the
timestamp-updated list. -/
def readLoop (segs : List Seg) (i : Nat) (endPos readHead clk : Nat) :
    List Nat × Nat × List Seg :=
  match hseg : segs[i]? with
  | none => ([], readHead, segs)
  | some g =>
    if g.empty then ([], readHead, segs)
    else if endPos ≤ g.start then ([], readHead, segs)
    else
      let readTail := min endPos g.stop
      let chunk := g.readSlice readHead readTail
      let segs' := segs.set i (g.setTs clk)
      let rest := readLoop segs' (i + 1) endPos readTail clk
      (chunk ++ rest.1, rest.2.1, rest.2.2)
  termination_by segs.length - i
  decreasing_by
    simp only [List.length_set]
    have : i < segs.length := by
      by_contra hge
      simp [List.getElem?_eq_none (Nat.le_of_not_lt hge)] at hseg
    omega

namespace Pool

/-- `readBytes(dest)` with `dest.byteLength = destLen`: compute
`len = bytesReadable(destLen)`, copy that many bytes advancing the read
head, relocate the read cursor from its old position, and return
`(len, dest, pool)`.  `dest` is the `Uint8Array`: the copied bytes
followed by the untouched zero fill.  `none` models the crash on a
`null` read cursor. -/
def readBytes (p : Pool) (destLen : Nat) : Option (Nat × List Nat × Pool) :=
  match p.readCursor with
  | none => none
  | some ci =>
    match p.bytesReadable (some (destLen : Int)) with
    | none => none
    | some lenI =>
      let len := lenI.toNat
      let start := p.readOffset
      let endPos := start + len
      let res := readLoop p.segs ci endPos start p.clock
      let copied := res.1
      let readHead := res.2.1
      let segs' := res.2.2
      let dest := copied ++ List.replicate (destLen - copied.length) 0
      some (len, dest,
        { p with segs := segs', readOffset := readHead,
                 readCursor := firstIdxFrom segs' ci readHead,
                 clock := p.clock + 1 })

end Pool

/-- The inputs `write` accepts: an `ArrayBuffer` of bytes, a string of
char codes, or anything else (`invalid input to write`). -/
inductive WInput where
  | bytes (bs : List Nat)
  | strIn (cs : List Nat)
  | invalid
deriving Repr, DecidableEq

/-- The throw sites of `write` and its callees. -/
inductive WErr where
  | badInput       -- `invalid input to write`
  | cursorNull     -- TypeError: reading a property of a null cursor
  | notEmptyCursor -- `write cursor not empty`
  | tooSmall       -- `write cursor too small`
  | splitFail      -- `invalid split`
  | spliceFail     -- `invalid splice head` / `invalid splice tail`
deriving Repr, DecidableEq

/-- Result of `write`: success, or a throw carrying the pool state as it
was at the moment of the throw. -/
inductive WriteResult where
  | ok (p : Pool)
  | err (e : WErr) (st : Pool)
deriving Repr, DecidableEq

namespace Pool

/-- `bufferItem(buffer)`: build the incoming item at the write head.  A
zero-length `ArrayBuffer` still has `empty=false`; an empty string is
falsy, so its item gets `empty=true` (a plain empty range). -/
def bufferItem (p : Pool) (inp : WInput) : Option Seg :=
  match inp with
  | .bytes bs => some (.filled p.writeOffset bs p.clock)
  | .strIn cs =>
    some (if cs.isEmpty then .emp p.writeOffset p.writeOffset
          else .filled p.writeOffset cs p.clock)
  | .invalid => none

/-- `consolidate(first)` where `first` is `segs[i]`: merge the run of
adjacent non-EOF empty items starting there into a single empty item.
Returns the new pool (the replacement sits at index `i`); `none` models
the crash when the run is empty (`last` returned `null`). -/
def consolidate (p : Pool) (i : Nat) : Option Pool :=
  match p.segs[i]? with
  | none => none
  | some firstg =>
    let run := (p.segs.drop i).takeWhile (fun g => g.empty && !g.eof)
    match run.getLast? with
    | none => none
    | some lastg =>
      p.splice i (i + run.length - 1) [.emp firstg.start lastg.stop]

/-- `remove(item)`: replace the filled item with an empty item of the
same range, then consolidate with an empty predecessor and/or an empty
non-EOF successor.  The item is identified by value (in a well-formed
pool segment starts are unique, so this matches the source's object
identity).  The final `head` fix-up is implicit: the head is the first
list entry. -/
def remove (p : Pool) (c : Seg) : Option Pool :=
  match p.segs.findIdx? (fun g => g == c) with
  | none => none
  | some i =>
    match p.splice i i [.emp c.start c.stop] with
    | none => none
    | some p1 =>
      let prevEmpty : Bool :=
        decide (i ≠ 0) && (match p1.segs[i - 1]? with
                           | some g => g.empty
                           | none => false)
      let afterPrev : Option (Pool × Nat) :=
        if prevEmpty then (p1.consolidate (i - 1)).map (·, i - 1)
        else some (p1, i)
      match afterPrev with
      | none => none
      | some (p2, k) =>
        match p2.segs[k + 1]? with
        | some nxt =>
          if nxt.empty && !nxt.eof then p2.consolidate k else some p2
        | none => some p2

/-- Stable insertion by ascending timestamp (models the stable
`Array.prototype.sort` on `a.timestamp - b.timestamp`). -/
def insertTs (c : Seg) : List Seg → List Seg
  | [] => [c]
  | d :: ds => if c.ts ≤ d.ts then c :: d :: ds else d :: insertTs c ds

/-- Sort candidates by ascending timestamp (stable). -/
def sortTs : List Seg → List Seg
  | [] => []
  | c :: cs => insertTs c (sortTs cs)

/-- The eviction loop of `gc`: walk the sorted candidates, stopping once
the running total is within the cap, removing each otherwise.  `none`
models a crash inside `remove` (unreachable from well-formed pools). -/
def gcLoop (p : Pool) (cs : List Seg) (bytes : Nat) : Option Pool :=
  match cs with
  | [] => some p
  | c :: rest =>
    if bytes ≤ p.cacheSize then some p
    else
      match p.remove c with
      | none => none
      | some p' => gcLoop p' rest (bytes - c.len)

/-- `gc()`: sum the filled bytes; collect as candidates the filled items
entirely before the read head (`item.end < readOffset`; the other test,
`item.start > readOffset + this.chunkSize`, compares against an
undefined `chunkSize` — `NaN` — and is never true, so the hot window is
unbounded above); if the total exceeds `cacheSize`, evict oldest first
until the total fits. -/
def gc (p : Pool) : Option Pool :=
  let cachedBytes := (p.segs.filter (fun g => !g.empty)).foldr
    (fun g acc => g.len + acc) 0
  let candidates := p.segs.filter
    (fun g => !g.empty && decide (g.stop < p.readOffset))
  if p.cacheSize < cachedBytes then
    gcLoop p (sortTs candidates) cachedBytes
  else some p

/-- Total byte count of a segment list (as summed by `gc`). -/
def sumLen (L : List Seg) : Nat := L.foldr (fun g acc => g.len + acc) 0

/-- The tail of `write` after both splits: splice the filled item over
the (now exactly sized) empty cursor segment, set
`writeOffset = item.end`, `writeCursor = item.next`, and run `gc`. -/
def writeInstall (p2 : Pool) (item : Seg) : WriteResult :=
  match p2.writeCursor with
  | none => .err .cursorNull p2
  | some ci2 =>
    match p2.splice ci2 ci2 [item] with
    | none => .err .spliceFail p2
    | some p3 =>
      let wc : Option Nat :=
        if ci2 + 1 < p3.segs.length then some (ci2 + 1) else none
      let p4 := { p3 with writeOffset := item.stop, writeCursor := wc,
                          clock := p3.clock + 1 }
      match p4.gc with
      | none => .err .spliceFail p4
      | some p5 => .ok p5

/-- The middle of `write`: the second conditional split
(`if (item.end < cursor.end || cursor.eof) split(cursor, item.end)`),
then the install. -/
def writeSnd (p1 : Pool) (item : Seg) : WriteResult :=
  match p1.writeCursor with
  | none => .err .cursorNull p1
  | some ci1 =>
    match p1.segs[ci1]? with
    | none => .err .cursorNull p1
    | some c1 =>
      if item.stop < c1.stop || c1.eof then
        match p1.split ci1 item.stop with
        | none => .err .splitFail p1
        | some q => q.writeInstall item
      else p1.writeInstall item

/-- `write(buffer)`: validate the cursor and the span, split the cursor
segment so an empty item of the exact span remains (the two conditional
splits), splice the filled item over it, advance the write head, and
run `gc`.  Errors carry the pool as it was at the throw. -/
def write (p : Pool) (inp : WInput) : WriteResult :=
  match p.bufferItem inp with
  | none => .err .badInput p
  | some item =>
    match p.writeCursor with
    | none => .err .cursorNull p
    | some ci0 =>
      match p.segs[ci0]? with
      | none => .err .cursorNull p
      | some c0 =>
        if !c0.empty then .err .notEmptyCursor p
        else if !c0.contains item.stop && c0.stop ≠ item.stop then
          .err .tooSmall p
        else if c0.start < item.start then
          match p.split ci0 item.start with
          | none => .err .splitFail p
          | some p1 => p1.writeSnd item
        else p.writeSnd item

end Pool

/-- The scan of `ranges()`: skip empties; for each run of consecutive
filled items emit `[first.start, last.end)` and resume after the run. -/
def rangesGo : List Seg → List (Nat × Nat)
  | [] => []
  | g :: rest =>
    if g.empty then rangesGo rest
    else
      let run := rest.takeWhile (fun t => !t.empty)
      let after := rest.dropWhile (fun t => !t.empty)
      have hlen : (rest.dropWhile (fun t => !t.empty)).length ≤ rest.length :=
        (List.dropWhile_sublist _).length_le
      (g.start, ((g :: run).getLast (by simp)).stop) :: rangesGo after
  termination_by l => l.length
  decreasing_by
    · simp only [List.length_cons]; omega
    · simp only [List.length_cons]; omega

namespace Pool

/-- `ranges()`. -/
def ranges (p : Pool) : List (Nat × Nat) := rangesGo p.segs

end Pool

/-- The coordinator (`StreamFile`) state visible to the claims: the
public flags, the known length (`-1` = unknown), the cache, and the
at-most-one backend (opaque here: the claims only ask whether one
exists). -/
structure SF where
  length : Int
  loaded : Bool
  loading : Bool
  seekable : Bool
  buffering : Bool
  seeking : Bool
  cache : Pool
  backend : Option Unit
deriving Repr, DecidableEq

namespace SF

/-- The `offset` getter: `this._cache.readOffset`. -/
def offset (sf : SF) : Nat := sf.cache.readOffset

/-- The `eof` getter: `this.length === this._cache.readOffset`. -/
def eof (sf : SF) : Bool := sf.length == (sf.offset : Int)

/-- `abort()`: if a backend exists, abort it (backend-internal) and drop
it.  Nothing else is touched. -/
def abort (sf : SF) : SF :=
  if sf.backend.isSome then { sf with backend := none } else sf

/-- `bytesAvailable(max)`: delegate to the cache. -/
def bytesAvailable (sf : SF) (max : Option Int) : Option Int :=
  sf.cache.bytesReadable max

/-- `_clampToLength(offset)`. -/
def clampToLength (sf : SF) (off : Int) : Int :=
  if sf.length < 0 then off else min sf.length off

end SF

/-- JavaScript `x | 0` on an integral number: wrap into signed 32
bits. -/
def toInt32 (x : Int) : Int :=
  (x + 2147483648) % 4294967296 - 2147483648

/-- The synchronous throws of `seek`/`buffer`.  The source throws plain
`Error`s; the constructors follow its messages.  `seekPastEnd`
(`seek past end of file`) is an invalid-input rejection.  `cacheRange`
stands for the cache cursor exceptions (`read seek out of range` and the
null-cursor crash), which cannot happen for a well-formed cache. -/
inductive SErr where
  | invalidState
  | invalidInput
  | seekPastEnd
  | notSeekable
  | cacheRange
deriving Repr, DecidableEq

/-- How a `buffer()` call settles synchronously: immediately resolved
(carrying the value the promise resolves with), or entering the
asynchronous download path after setting `buffering`. -/
inductive BufOutcome where
  | resolved (v : Option Nat)
  | pending
deriving Repr, DecidableEq

namespace SF

/-- `seek(offset)` up to its synchronous completion: the validations, the
abort of a live backend, the two cache seeks; the final `_readAhead` is
summarised by the returned flag — `true` iff it would open a backend
(no live backend and not at EOF), in which case the promise resolution
additionally waits on the network. -/
def seek (sf : SF) (off : Int) : Except SErr (SF × Bool) :=
  if !sf.loaded || sf.buffering || sf.seeking then .error .invalidState
  else if off ≠ toInt32 off ∨ off < 0 then .error .invalidInput
  else if 0 ≤ sf.length && sf.length < off then .error .seekPastEnd
  else if !sf.seekable then .error .notSeekable
  else
    let sf1 := sf.abort
    match sf1.cache.seekRead off.toNat with
    | none => .error .cacheRange
    | some c1 =>
      match c1.seekWrite off.toNat with
      | none => .error .cacheRange
      | some c2 =>
        let sf2 := { sf1 with cache := c2 }
        .ok (sf2, !(sf2.backend.isSome || sf2.eof))

/-- `buffer(nbytes)` up to its synchronous completion.  When the
clamped request is already readable it resolves at once — with no value
(`resolve()`).  Otherwise it sets `buffering` and goes asynchronous
(every later resolution site is also a bare `resolve()`). -/
def buffer (sf : SF) (nbytes : Int) : Except SErr (SF × BufOutcome) :=
  if !sf.loaded || sf.buffering || sf.seeking then .error .invalidState
  else if nbytes ≠ toInt32 nbytes ∨ nbytes < 0 then .error .invalidInput
  else
    let endP := sf.clampToLength ((sf.offset : Int) + nbytes)
    let readable := endP - (sf.offset : Int)
    match sf.bytesAvailable (some readable) with
    | none => .error .cacheRange
    | some avail =>
      if readable ≤ avail then .ok (sf, .resolved none)
      else .ok ({ sf with buffering := true }, .pending)

end SF

/-! ## Invariants and reachability -/

/-- Invariant I1: the list is nonempty, the head starts at 0, and
adjacent segments are contiguous. -/
def I1 (L : List Seg) : Prop :=
  L ≠ [] ∧ (∀ g ∈ L.head?, g.start = 0) ∧
    List.Chain' (fun a b => a.stop = b.start) L

/-- Invariant I2: the last segment is the EOF terminator. -/
def I2 (L : List Seg) : Prop := ∀ g ∈ L.getLast?, g.eof = true

/-- Invariant I3: no filled segment has zero length. -/
def I3 (L : List Seg) : Prop := ∀ g ∈ L, g.empty = false → g.start < g.stop

/-- Invariant I4 as claimed: no two `empty`-flagged segments (plain
empties or the EOF) are adjacent. -/
def I4 (L : List Seg) : Prop :=
  List.Chain' (fun a b => a.empty = false ∨ b.empty = false) L

/-- Invariant I5: an EOF segment contains every offset at or after its
start. -/
def I5 (L : List Seg) : Prop :=
  ∀ g ∈ L, g.eof = true → ∀ o, g.start ≤ o → g.contains o = true

/-- The internal adjacency used by the well-formedness predicate:
contiguity plus `eof` only in the last position. -/
def adjOk (a b : Seg) : Prop := a.stop = b.start ∧ a.eof = false

instance : DecidableRel adjOk := fun a b =>
  inferInstanceAs (Decidable (a.stop = b.start ∧ a.eof = false))

/-- An executable decision procedure for `List.Chain'` (the library one
is opaque to kernel reduction). -/
instance (priority := 1100) chainDecRel {α : Type} {R : α → α → Prop}
    [DecidableRel R] : (L : List α) → Decidable (List.Chain' R L)
  | [] => isTrue List.chain'_nil
  | [a] => isTrue (List.chain'_singleton a)
  | a :: b :: rest =>
    haveI : Decidable (List.Chain' R (b :: rest)) := chainDecRel (b :: rest)
    decidable_of_iff (R a b ∧ List.Chain' R (b :: rest))
      List.chain'_cons.symm

instance i4Rel :
    DecidableRel (fun a b : Seg => a.empty = false ∨ b.empty = false) :=
  fun a b => inferInstanceAs (Decidable (a.empty = false ∨ b.empty = false))

instance (L : List Seg) : Decidable (I4 L) :=
  inferInstanceAs (Decidable (List.Chain'
    (fun a b : Seg => a.empty = false ∨ b.empty = false) L))

instance optionBAllDec {α : Type} (p : α → Prop) [DecidablePred p]
    (o : Option α) : Decidable (∀ g ∈ o, p g) :=
  match o with
  | none => isTrue (by simp)
  | some a => decidable_of_iff (p a) (by simp)

/-- Well-formedness of the segment list: nonempty, head at 0,
contiguous with `eof` only last, last is EOF, and every non-EOF segment
has positive length.  (Note: adjacency of empty segments is *not*
excluded — GC eviction produces it.) -/
structure WFs (L : List Seg) : Prop where
  ne : L ≠ []
  h0 : ∀ g ∈ L.head?, g.start = 0
  chain : List.Chain' adjOk L
  last : ∀ g ∈ L.getLast?, g.eof = true
  pos : ∀ g ∈ L, g.eof = false → g.start < g.stop

instance (L : List Seg) : Decidable (WFs L) :=
  decidable_of_iff
    (L ≠ [] ∧ (∀ g ∈ L.head?, g.start = 0) ∧ List.Chain' adjOk L ∧
      (∀ g ∈ L.getLast?, g.eof = true) ∧
      (∀ g ∈ L, g.eof = false → g.start < g.stop))
    ⟨fun ⟨a, b, c, d, e⟩ => ⟨a, b, c, d, e⟩,
     fun ⟨a, b, c, d, e⟩ => ⟨a, b, c, d, e⟩⟩

/-- Well-formedness of a pool: well-formed segments and both cursors
pointing at the first segment containing their offset. -/
structure WF (p : Pool) : Prop where
  segs : WFs p.segs
  rc : p.readCursor = firstIdx p.segs p.readOffset
  wc : p.writeCursor = firstIdx p.segs p.writeOffset

instance (p : Pool) : Decidable (WF p) :=
  decidable_of_iff
    (WFs p.segs ∧ p.readCursor = firstIdx p.segs p.readOffset ∧
      p.writeCursor = firstIdx p.segs p.writeOffset)
    ⟨fun ⟨a, b, c⟩ => ⟨a, b, c⟩, fun ⟨a, b, c⟩ => ⟨a, b, c⟩⟩

/-- The public cache operations a consumer can drive directly (claim
C2's alphabet): read seeks, write seeks, and buffer writes. -/
inductive Op where
  | seekR (o : Nat)
  | seekW (o : Nat)
  | writeB (bs : List Nat)
deriving Repr, DecidableEq

/-- Apply one operation; `none` when the source would throw. -/
def applyOp (p : Pool) : Op → Option Pool
  | .seekR o => p.seekRead o
  | .seekW o => p.seekWrite o
  | .writeB bs =>
    match p.write (.bytes bs) with
    | .ok q => some q
    | .err _ _ => none

/-- Run a sequence of operations. -/
def runOps (p : Pool) : List Op → Option Pool
  | [] => some p
  | op :: rest => (applyOp p op).bind (fun q => runOps q rest)

/-- A write is *valid* (in the sense of claim C2) when its buffer is
non-empty; seeks are always valid. -/
def opValid : Op → Prop
  | .writeB bs => bs ≠ []
  | _ => True

instance : DecidablePred opValid := fun op =>
  match op with
  | .seekR _ => inferInstanceAs (Decidable True)
  | .seekW _ => inferInstanceAs (Decidable True)
  | .writeB bs => inferInstanceAs (Decidable (bs ≠ []))

/-- Pools reachable from a fresh cache by valid operations. -/
def Reach (p : Pool) : Prop :=
  ∃ cs ops, (∀ op ∈ ops, opValid op) ∧ runOps (Pool.fresh cs) ops = some p

/-- The set of offsets the claim C7 calls "the current Empty/Eof run
starting at `write_offset`": the union of the maximal run of
`empty`-flagged segments from the write cursor.  `none` means the run
reaches the EOF terminator, hence is unbounded above. -/
def emptyRunStop (segs : List Seg) (i : Nat) : Option Nat :=
  let run := (segs.drop i).takeWhile (fun g => g.empty)
  if run.any (fun g => g.eof) then none
  else (run.getLast?).map (fun g => g.stop)

/-- Claim C7's success condition: the span `[w, w+n)` lies entirely
within the empty run at the write cursor. -/
def spanFitsRun (p : Pool) (n : Nat) : Prop :=
  ∃ ci, p.writeCursor = some ci ∧
    match emptyRunStop p.segs ci with
    | none => True
    | some e => p.writeOffset + n ≤ e

/-- The filled segments of a list (carrying start, payload and
timestamp). -/
def filledOf (L : List Seg) : List Seg := L.filter (fun g => !g.empty)

/-- The claim C1 pipeline: from a fresh cache, `write(b1); write(b2);
seekRead(0); readBytes` into a buffer of `|b1| + |b2|` bytes, returning
the destination buffer and the final read offset (`none` when a step
throws). -/
def c1Run (b1 b2 : List Nat) : Option (List Nat × Nat) :=
  match (Pool.fresh 0).write (.bytes b1) with
  | .err _ _ => none
  | .ok p1 =>
    match p1.write (.bytes b2) with
    | .err _ _ => none
    | .ok p2 =>
      (p2.seekRead 0).bind fun p3 =>
        (p3.readBytes (b1.length + b2.length)).map fun r =>
          (r.2.1, r.2.2.readOffset)

/-! ## Basic segment lemmas -/

namespace Seg

@[simp] theorem start_emp : (emp s e).start = s := rfl
@[simp] theorem start_filled : (filled s bs t).start = s := rfl
@[simp] theorem start_eofSeg : (eofSeg s).start = s := rfl
@[simp] theorem stop_emp : (emp s e).stop = e := rfl
@[simp] theorem stop_filled : (filled s bs t).stop = s + bs.length := rfl
@[simp] theorem stop_eofSeg : (eofSeg s).stop = s := rfl
@[simp] theorem empty_emp : (emp s e).empty = true := rfl
@[simp] theorem empty_filled : (filled s bs t).empty = false := rfl
@[simp] theorem empty_eofSeg : (eofSeg s).empty = true := rfl
@[simp] theorem eof_emp : (emp s e).eof = false := rfl
@[simp] theorem eof_filled : (filled s bs t).eof = false := rfl
@[simp] theorem eof_eofSeg : (eofSeg s).eof = true := rfl

theorem contains_iff {g : Seg} {o : Nat} :
    g.contains o = true ↔ g.start ≤ o ∧ (o < g.stop ∨ g.eof = true) := by
  simp [contains]

theorem start_le_stop_of_eof {g : Seg} (h : g.eof = true) :
    g.start = g.stop := by
  cases g <;> simp_all [eof]

end Seg

theorem firstIdx_eq_findIdx? (L : List Seg) (o : Nat) :
    firstIdx L o = L.findIdx? (fun g => g.contains o) := by
  unfold firstIdx firstIdxFrom
  cases hx : L.findIdx? (fun g => g.contains o) <;> simp [hx]

/-! ## Well-formedness consequences -/

theorem WFs.start_le_stop {L : List Seg} (h : WFs L) {g : Seg}
    (hg : g ∈ L) : g.start ≤ g.stop := by
  by_cases he : g.eof = true
  · exact le_of_eq (Seg.start_le_stop_of_eof he)
  · exact le_of_lt (h.pos g hg (by simpa using he))

theorem WFs.adj {L : List Seg} (h : WFs L) {i : Nat}
    (hi : i + 1 < L.length) :
    (L.get ⟨i, by omega⟩).stop = (L.get ⟨i + 1, hi⟩).start ∧
      (L.get ⟨i, by omega⟩).eof = false := by
  have := List.chain'_iff_get.mp h.chain i (by omega)
  exact this

theorem WFs.eof_false_of_lt {L : List Seg} (h : WFs L) {i : Nat}
    (hi : i + 1 < L.length) : (L.get ⟨i, by omega⟩).eof = false :=
  (h.adj hi).2

theorem WFs.mono {L : List Seg} (h : WFs L) {i j : Nat}
    (hij : i < j) (hj : j < L.length) :
    (L.get ⟨i, by omega⟩).stop ≤ (L.get ⟨j, hj⟩).start := by
  induction j with
  | zero => omega
  | succ k ih =>
    rcases Nat.lt_succ_iff_lt_or_eq.mp hij with hlt | heq
    · have hk : k < L.length := by omega
      calc (L.get ⟨i, by omega⟩).stop
          ≤ (L.get ⟨k, hk⟩).start := ih hlt hk
        _ ≤ (L.get ⟨k, hk⟩).stop := h.start_le_stop (List.get_mem L k hk)
        _ = (L.get ⟨k + 1, hj⟩).start := (h.adj hj).1
    · subst heq
      exact le_of_eq (h.adj hj).1

theorem WFs.contains_unique {L : List Seg} (h : WFs L) {i j : Nat} {o : Nat}
    (hi : i < L.length) (hj : j < L.length)
    (hci : (L.get ⟨i, hi⟩).contains o = true)
    (hcj : (L.get ⟨j, hj⟩).contains o = true) : i = j := by
  rcases Nat.lt_trichotomy i j with hlt | heq | hgt
  · exfalso
    have hio := Seg.contains_iff.mp hci
    have hjo := Seg.contains_iff.mp hcj
    have heof : (L.get ⟨i, hi⟩).eof = false := h.eof_false_of_lt (by omega)
    have hlt2 : o < (L.get ⟨i, hi⟩).stop := by
      rcases hio.2 with h1 | h1
      · exact h1
      · rw [heof] at h1; exact absurd h1 (by simp)
    have := h.mono hlt hj
    omega
  · exact heq
  · exfalso
    have hio := Seg.contains_iff.mp hci
    have hjo := Seg.contains_iff.mp hcj
    have heof : (L.get ⟨j, hj⟩).eof = false := h.eof_false_of_lt (by omega)
    have hlt2 : o < (L.get ⟨j, hj⟩).stop := by
      rcases hjo.2 with h1 | h1
      · exact h1
      · rw [heof] at h1; exact absurd h1 (by simp)
    have := h.mono hgt hi
    omega

theorem coverAux : ∀ (L : List Seg) (o : Nat), L ≠ [] →
    List.Chain' adjOk L →
    (∀ g ∈ L.getLast?, g.eof = true) →
    (∀ g ∈ L.head?, g.start ≤ o) →
    ∃ i, ∃ hi : i < L.length, (L.get ⟨i, hi⟩).contains o = true := by
  intro L
  induction L with
  | nil =>
    intro o hne
    exact absurd rfl hne
  | cons g rest ih =>
    intro o _ hchain hlast hhead
    have ho : g.start ≤ o := hhead g (by simp)
    by_cases hco : g.contains o = true
    · exact ⟨0, by simp, hco⟩
    · cases rest with
      | nil =>
        exfalso
        have heof : g.eof = true := hlast g (by simp)
        have : g.contains o = true := by
          rw [Seg.contains_iff]; exact ⟨ho, Or.inr heof⟩
        exact hco this
      | cons g1 rest1 =>
        have hadj : adjOk g g1 := (List.chain'_cons.mp hchain).1
        have hostop : g.stop ≤ o := by
          by_contra hlt
          apply hco
          rw [Seg.contains_iff]
          exact ⟨ho, Or.inl (by omega)⟩
        have hrec := ih o (by simp) (List.chain'_cons.mp hchain).2
          (by intro gg hgg
              apply hlast
              simpa [List.getLast?_cons_cons] using hgg)
          (by intro gg hgg
              simp only [List.head?_cons, Option.mem_def, Option.some.injEq] at hgg
              subst hgg
              rw [← hadj.1]; exact hostop)
        obtain ⟨i, hi, hci⟩ := hrec
        exact ⟨i + 1, by simpa using Nat.succ_lt_succ hi, by simpa using hci⟩

theorem WFs.cover {L : List Seg} (h : WFs L) (o : Nat) :
    ∃ i, ∃ hi : i < L.length, (L.get ⟨i, hi⟩).contains o = true := by
  apply coverAux L o h.ne h.chain h.last
  intro g hg
  have := h.h0 g hg
  omega

theorem WFs.firstIdx_eq {L : List Seg} (h : WFs L) {i : Nat} {o : Nat}
    (hi : i < L.length) (hc : (L.get ⟨i, hi⟩).contains o = true) :
    firstIdx L o = some i := by
  rw [firstIdx_eq_findIdx?, List.findIdx?_eq_some_iff_getElem]
  refine ⟨hi, by simpa using hc, ?_⟩
  intro j hji hcj
  have hj : j < L.length := by omega
  have := h.contains_unique hj hi (by simpa using hcj) hc
  omega

theorem WFs.firstIdx_spec {L : List Seg} (h : WFs L) (o : Nat) :
    ∃ i, ∃ hi : i < L.length, firstIdx L o = some i ∧
      (L.get ⟨i, hi⟩).contains o = true := by
  obtain ⟨i, hi, hc⟩ := h.cover o
  exact ⟨i, hi, h.firstIdx_eq hi hc, hc⟩

theorem firstIdx_mem {L : List Seg} {o : Nat} {i : Nat}
    (h : firstIdx L o = some i) :
    ∃ hi : i < L.length, (L.get ⟨i, hi⟩).contains o = true := by
  rw [firstIdx_eq_findIdx?, List.findIdx?_eq_some_iff_getElem] at h
  obtain ⟨hi, hc, _⟩ := h
  exact ⟨hi, by simpa using hc⟩

/-! ## List surgery lemmas -/

theorem getElem?_append_cons {α : Type} (A : List α) (g : α) (B : List α) :
    (A ++ g :: B)[A.length]? = some g := by
  rw [List.getElem?_append_right (Nat.le_refl _)]
  simp

theorem Seg.split_spec {g : Seg} {off : Nat} {a b : Seg}
    (h : g.split off = some (a, b)) :
    g.empty = true ∧ g.contains off = true ∧ a = .emp g.start off ∧
      b = g.splitRight off := by
  unfold Seg.split at h
  by_cases hc : (g.empty && g.contains off) = true
  · rw [if_pos hc] at h
    simp only [Option.some.injEq, Prod.mk.injEq] at h
    simp only [Bool.and_eq_true] at hc
    exact ⟨hc.1, hc.2, h.1.symm, h.2.symm⟩
  · rw [if_neg hc] at h
    exact absurd h (by simp)

/-- Full characterisation of a successful `splice`: replacing the chain
`segs[i..j] = M` by `repl` (matching at both ends) concatenates and
recomputes both cursors. -/
theorem splice_eq {p : Pool} {A M B repl : List Seg} {mh ml rh rl : Seg}
    (hsegs : p.segs = A ++ M ++ B)
    (hM : M.head? = some mh) (hMl : M.getLast? = some ml)
    (hr : repl.head? = some rh) (hrl : repl.getLast? = some rl)
    (hhead : mh.start = rh.start)
    (htail : ml.stop = rl.stop ∨ (ml.eof = true ∧ rl.eof = true)) :
    p.splice A.length (A.length + M.length - 1) repl =
      some { p with segs := A ++ repl ++ B,
                    readCursor := firstIdx (A ++ repl ++ B) p.readOffset,
                    writeCursor := firstIdx (A ++ repl ++ B) p.writeOffset } := by
  have hMne : M ≠ [] := by
    intro h; rw [h] at hM; simp at hM
  have hMlen : 1 ≤ M.length := by
    cases M with
    | nil => exact absurd rfl hMne
    | cons _ _ => simp
  have hgi : p.segs[A.length]? = some mh := by
    rw [hsegs, List.append_assoc, List.getElem?_append_right (Nat.le_refl _)]
    simp only [Nat.sub_self]
    rw [List.getElem?_append_left (by omega)]
    rw [← List.head?_eq_getElem?]
    exact hM
  have hgj : p.segs[A.length + M.length - 1]? = some ml := by
    rw [hsegs, List.append_assoc,
      List.getElem?_append_right (by omega)]
    have harith : A.length + M.length - 1 - A.length = M.length - 1 := by omega
    rw [harith, List.getElem?_append_left (by omega)]
    rw [← List.getLast?_eq_getElem?]
    exact hMl
  unfold Pool.splice
  rw [hgi, hgj, hr, hrl]
  dsimp only
  rw [if_neg (by rw [hhead]; simp)]
  rw [if_neg (by
    intro hcon
    rcases htail with h1 | h1
    · exact hcon.1 h1
    · exact hcon.2 h1)]
  have htake : p.segs.take A.length = A := by
    rw [hsegs, List.append_assoc, List.take_left]
  have hdrop : p.segs.drop (A.length + M.length - 1 + 1) = B := by
    have : A.length + M.length - 1 + 1 = (A ++ M).length := by
      simp [List.length_append]; omega
    rw [hsegs, this, List.drop_left]
  rw [htake, hdrop]

theorem firstIdx_of_getElem? {L : List Seg} {k : Nat} {g : Seg} {o : Nat}
    (h : WFs L) (hk : L[k]? = some g) (hc : g.contains o = true) :
    firstIdx L o = some k := by
  have hkl : k < L.length := by
    by_contra hge
    rw [List.getElem?_eq_none (by omega)] at hk
    exact absurd hk (by simp)
  apply h.firstIdx_eq hkl
  have : L.get ⟨k, hkl⟩ = g := by
    rw [List.getElem?_eq_getElem hkl] at hk
    simpa using hk
  rw [this]
  exact hc

/-- Replacing the inner chain `M` of a well-formed list by a chain `X`
that starts at the same offset, is internally well-formed, and meets
the right context (`B`'s head, or EOF when `B` is empty) yields a
well-formed list. -/
theorem WFs_replace {A M B X : List Seg}
    (h : WFs (A ++ M ++ B)) (hM : M ≠ []) (hX : X ≠ [])
    (hchainX : List.Chain' adjOk X)
    (hposX : ∀ g ∈ X, g.eof = false → g.start < g.stop)
    (hstart : ∀ gX ∈ X.head?, ∀ gM ∈ M.head?, gX.start = gM.start)
    (hendB : ∀ gX ∈ X.getLast?, ∀ gB ∈ B.head?,
      gX.stop = gB.start ∧ gX.eof = false)
    (hendNil : B = [] → ∀ gX ∈ X.getLast?, gX.eof = true) :
    WFs (A ++ X ++ B) := by
  obtain ⟨mh, hmh⟩ : ∃ mh, M.head? = some mh := by
    cases M with
    | nil => exact absurd rfl hM
    | cons a l => exact ⟨a, rfl⟩
  obtain ⟨xh, hxh⟩ : ∃ xh, X.head? = some xh := by
    cases X with
    | nil => exact absurd rfl hX
    | cons a l => exact ⟨a, rfl⟩
  obtain ⟨xl, hxl⟩ : ∃ xl, X.getLast? = some xl := by
    cases X with
    | nil => exact absurd rfl hX
    | cons a l => exact ⟨(a :: l).getLast (by simp), List.getLast?_eq_getLast _ _⟩
  have hchain := h.chain
  rw [List.chain'_append] at hchain
  obtain ⟨hcAM, hcB, hlinkB⟩ := hchain
  rw [List.chain'_append] at hcAM
  obtain ⟨hcA, hcM, hlinkA⟩ := hcAM
  have hAMlast : (A ++ M).getLast? = M.getLast? := by
    rw [List.getLast?_append]
    cases hml : M.getLast? with
    | none => rw [List.getLast?_eq_none_iff] at hml; exact absurd hml hM
    | some v => simp
  have hAXlast : (A ++ X).getLast? = X.getLast? := by
    rw [List.getLast?_append]
    rw [hxl]; simp
  constructor
  · -- ne
    intro hcon
    have : X = [] := by
      rcases List.append_eq_nil.mp hcon with ⟨h1, _⟩
      exact (List.append_eq_nil.mp h1).2
    exact hX this
  · -- h0
    intro g hg
    rw [List.append_assoc, List.head?_append] at hg
    cases hA : A with
    | nil =>
      subst hA
      simp only [List.head?_nil, Option.none_or] at hg
      rw [List.head?_append, hxh] at hg
      simp only [Option.or_some, Option.mem_def, Option.some.injEq] at hg
      subst hg
      have h0M : mh.start = 0 := by
        apply h.h0
        simp only [List.nil_append, List.head?_append, hmh]
        simp
      rw [hstart xh hxh mh hmh, h0M]
    | cons a as =>
      subst hA
      simp only [List.head?_cons, Option.or_some, Option.mem_def,
        Option.some.injEq] at hg
      subst hg
      apply h.h0
      simp
  · -- chain
    rw [List.append_assoc, List.chain'_append]
    refine ⟨hcA, ?_, ?_⟩
    · rw [List.chain'_append]
      refine ⟨hchainX, hcB, ?_⟩
      intro x hx y hy
      exact hendB x hx y hy
    · intro x hx y hy
      rw [List.head?_append, hxh] at hy
      simp only [Option.or_some, Option.mem_def, Option.some.injEq] at hy
      subst hy
      have := hlinkA x hx mh hmh
      refine ⟨?_, this.2⟩
      rw [this.1, hstart xh hxh mh hmh]
  · -- last
    intro g hg
    cases hB : B with
    | nil =>
      subst hB
      rw [List.append_nil] at hg
      rw [hAXlast, hxl] at hg
      simp only [Option.mem_def, Option.some.injEq] at hg
      subst hg
      exact hendNil rfl xl hxl
    | cons b bs =>
      subst hB
      rw [List.getLast?_append] at hg
      have : (b :: bs).getLast? = some ((b :: bs).getLast (by simp)) :=
        List.getLast?_eq_getLast _ _
      rw [this] at hg
      simp only [Option.or_some, Option.mem_def, Option.some.injEq] at hg
      subst hg
      apply h.last
      rw [List.getLast?_append, this]
      simp
  · -- pos
    intro g hg
    simp only [List.append_assoc, List.mem_append] at hg
    rcases hg with hg | hg | hg
    · exact h.pos g (by simp [hg])
    · exact hposX g hg
    · exact h.pos g (by simp [hg])

theorem WFs_cons_adj {A B : List Seg} {g : Seg} (h : WFs (A ++ g :: B)) :
    ∀ b ∈ B.head?, g.stop = b.start ∧ g.eof = false := by
  intro b hb
  have hchain := h.chain
  rw [List.chain'_append] at hchain
  have hgB : List.Chain' adjOk (g :: B) := hchain.2.1
  rw [List.chain'_cons'] at hgB
  exact hgB.1 b hb

theorem WFs_cons_ne_nil_of_not_eof {A B : List Seg} {g : Seg}
    (h : WFs (A ++ g :: B)) (hg : g.eof = false) : B ≠ [] := by
  intro hB
  subst hB
  have := h.last g (by simp)
  rw [this] at hg
  exact absurd hg (by simp)

theorem WFs_eof_last {A B : List Seg} {g : Seg}
    (h : WFs (A ++ g :: B)) (hg : g.eof = true) : B = [] := by
  cases hB : B with
  | nil => rfl
  | cons b bs =>
    subst hB
    have := (WFs_cons_adj h b (by simp)).2
    rw [this] at hg
    exact absurd hg (by simp)

/-- Characterisation of a successful `split` of the segment at index
`|A|`. -/
theorem split_eq {p : Pool} {A B : List Seg} {g : Seg} {off : Nat}
    {a b : Seg} (hsegs : p.segs = A ++ g :: B)
    (hsp : g.split off = some (a, b)) :
    p.split A.length off =
      some { p with segs := A ++ a :: b :: B,
                    readCursor := firstIdx (A ++ a :: b :: B) p.readOffset,
                    writeCursor := firstIdx (A ++ a :: b :: B) p.writeOffset } := by
  obtain ⟨hemp, hcont, ha, hb⟩ := Seg.split_spec hsp
  have hgi : p.segs[A.length]? = some g := by
    rw [hsegs]; exact getElem?_append_cons A g B
  unfold Pool.split
  rw [hgi]
  dsimp only
  rw [hsp]
  dsimp only
  have hspl := @splice_eq p A [g] B [a, b] g g a b
    (by simpa using hsegs) (by simp) (by simp) (by simp) (by simp)
    (by rw [ha]; simp)
    (by subst hb
        cases g with
        | emp s e => simp [Seg.splitRight]
        | filled s bs t => simp [Seg.empty] at hemp
        | eofSeg s => simp [Seg.splitRight])
  simpa using hspl

/-! ## Characterising a successful `write` -/

/-- The install stage: with the write cursor on an empty segment of
exactly the span `[w, w + |bs|)`, the filled item is spliced in, the
write head moves to its end, the write cursor to the next segment, and
the result (before `gc`) is well-formed. -/
theorem writeInstall_eq {p2 : Pool} {A2 B2 : List Seg} {w : Nat}
    {bs : List Nat} {ts : Nat}
    (hWFs : WFs p2.segs)
    (hsegs : p2.segs = A2 ++ Seg.emp w (w + bs.length) :: B2)
    (hwc : p2.writeCursor = some A2.length)
    (hrc : p2.readCursor = firstIdx p2.segs p2.readOffset)
    (hbs : bs ≠ []) :
    ∃ p4, p2.writeInstall (Seg.filled w bs ts) =
        (match p4.gc with
         | none => .err .spliceFail p4
         | some p5 => .ok p5) ∧
      p4.segs = A2 ++ Seg.filled w bs ts :: B2 ∧
      p4.readOffset = p2.readOffset ∧
      p4.writeOffset = w + bs.length ∧
      p4.cacheSize = p2.cacheSize ∧
      p4.clock = p2.clock + 1 ∧
      p4.writeCursor = some (A2.length + 1) ∧
      WF p4 := by
  have hn : 0 < bs.length := by
    cases bs with
    | nil => exact absurd rfl hbs
    | cons _ _ => simp
  have hWFs2 : WFs (A2 ++ Seg.emp w (w + bs.length) :: B2) := hsegs ▸ hWFs
  have hB2 : B2 ≠ [] :=
    WFs_cons_ne_nil_of_not_eof hWFs2 (by simp)
  obtain ⟨b0, hb0⟩ : ∃ b0, B2.head? = some b0 := by
    cases B2 with
    | nil => exact absurd rfl hB2
    | cons x xs => exact ⟨x, rfl⟩
  have hadjb : (Seg.emp w (w + bs.length)).stop = b0.start ∧ _ :=
    WFs_cons_adj hWFs2 b0 hb0
  have hsp := @splice_eq p2 A2 [Seg.emp w (w + bs.length)] B2
    [Seg.filled w bs ts] (Seg.emp w (w + bs.length))
    (Seg.emp w (w + bs.length)) (Seg.filled w bs ts) (Seg.filled w bs ts)
    (by simpa using hsegs) (by simp) (by simp) (by simp) (by simp)
    (by simp) (by simp)
  simp only [List.length_singleton, Nat.add_sub_cancel] at hsp
  set segs4 := A2 ++ [Seg.filled w bs ts] ++ B2 with hsegs4
  have hsegs4' : segs4 = A2 ++ Seg.filled w bs ts :: B2 := by
    simp [hsegs4]
  have hWFs2' : WFs (A2 ++ [Seg.emp w (w + bs.length)] ++ B2) := by
    simpa using hWFs2
  have hWFs4 : WFs segs4 := by
    apply WFs_replace hWFs2' (by simp) (by simp) (by simp)
    · intro g hg heof
      simp only [List.mem_singleton] at hg
      subst hg
      simp
      omega
    · intro gX hgX gM hgM
      simp only [List.head?_cons, Option.mem_def, Option.some.injEq] at hgX hgM
      subst hgX; subst hgM
      simp
    · intro gX hgX gB hgB
      simp only [List.getLast?_singleton, Option.mem_def,
        Option.some.injEq] at hgX
      subst hgX
      rw [hb0] at hgB
      simp only [Option.mem_def, Option.some.injEq] at hgB
      subst hgB
      refine ⟨?_, by simp⟩
      simpa using hadjb.1
    · intro hB; exact absurd hB hB2
  have hlen4 : A2.length + 1 < segs4.length := by
    rw [hsegs4]
    simp only [List.length_append, List.length_cons, List.length_singleton]
    have : B2.length ≠ 0 := by
      intro h0
      exact hB2 (List.length_eq_zero.mp h0)
    omega
  have hb0get : segs4[A2.length + 1]? = some b0 := by
    rw [hsegs4]
    have : A2 ++ [Seg.filled w bs ts] ++ B2 =
        (A2 ++ [Seg.filled w bs ts]) ++ B2 := by simp
    rw [this, List.getElem?_append_right (by simp)]
    simp only [List.length_append, List.length_singleton]
    have : A2.length + 1 - (A2.length + 1) = 0 := by omega
    rw [this, ← List.head?_eq_getElem?]
    exact hb0
  have hb0mem : b0 ∈ segs4 := by
    have := List.getElem?_mem hb0get
    exact this
  have hb0c : b0.contains (w + bs.length) = true := by
    rw [Seg.contains_iff]
    have hstart : b0.start = w + bs.length := by
      have := hadjb.1
      simpa using this.symm
    constructor
    · omega
    · by_cases he : b0.eof = true
      · exact Or.inr he
      · left
        have := hWFs4.pos b0 hb0mem (by simpa using he)
        omega
  have hwcnew : firstIdx segs4 (w + bs.length) = some (A2.length + 1) :=
    firstIdx_of_getElem? hWFs4 hb0get hb0c
  -- now unfold writeInstall
  unfold Pool.writeInstall
  rw [hwc]
  dsimp only
  rw [hsp]
  dsimp only
  rw [if_pos hlen4]
  refine ⟨_, rfl, ?_, rfl, by simp, rfl, rfl, rfl, ?_⟩
  · simpa using hsegs4'
  · constructor
    · exact hWFs4
    · simp [hrc]
    · simpa using hwcnew.symm


/-- The second-split stage: with the write cursor on an empty segment
starting exactly at the write offset, `writeSnd` carves the span and
installs the filled item; the remaining right part is the split
remainder (the EOF moved to the span end, a shortened empty, or
nothing). -/
theorem writeSnd_eq {p1 : Pool} {A1 B1 : List Seg} {c1 : Seg} {w : Nat}
    {bs : List Nat} {ts : Nat}
    (hWFs : WFs p1.segs)
    (hsegs : p1.segs = A1 ++ c1 :: B1)
    (hwc : p1.writeCursor = some A1.length)
    (hrc : p1.readCursor = firstIdx p1.segs p1.readOffset)
    (hwoff : p1.writeOffset = w)
    (hbs : bs ≠ [])
    (hst : c1.start = w)
    (hemp : c1.empty = true)
    (hfit : w + bs.length ≤ c1.stop ∨ c1.eof = true) :
    ∃ p4, p1.writeSnd (Seg.filled w bs ts) =
        (match p4.gc with
         | none => WriteResult.err WErr.spliceFail p4
         | some p5 => WriteResult.ok p5) ∧
      p4.segs = A1 ++ Seg.filled w bs ts ::
        ((if c1.eof = true then [Seg.eofSeg (w + bs.length)]
          else if w + bs.length < c1.stop then
            [Seg.emp (w + bs.length) c1.stop]
          else []) ++ B1) ∧
      p4.readOffset = p1.readOffset ∧
      p4.writeOffset = w + bs.length ∧
      p4.cacheSize = p1.cacheSize ∧
      p4.clock = p1.clock + 1 ∧
      p4.writeCursor = some (A1.length + 1) ∧
      WF p4 := by
  have hn : 0 < bs.length := by
    cases bs with
    | nil => exact absurd rfl hbs
    | cons _ _ => simp
  have hc1get : p1.segs[A1.length]? = some c1 := by
    rw [hsegs]; exact getElem?_append_cons A1 c1 B1
  have hWFs' : WFs (A1 ++ c1 :: B1) := hsegs ▸ hWFs
  unfold Pool.writeSnd
  rw [hwc]
  dsimp only
  rw [hc1get]
  dsimp only
  by_cases heof : c1.eof = true
  · -- EOF cursor: always split, the right half is the EOF at the span end
    obtain ⟨s0, hs0⟩ : ∃ s0, c1 = Seg.eofSeg s0 := by
      cases c1 with
      | emp s e => simp [Seg.eof] at heof
      | filled s b t => simp [Seg.eof] at heof
      | eofSeg s => exact ⟨s, rfl⟩
    have hs0w : s0 = w := by rw [hs0] at hst; simpa using hst
    rw [hs0w] at hs0
    rw [if_pos (by simp [heof])]
    have hsplit : c1.split (w + bs.length) =
        some (Seg.emp w (w + bs.length), Seg.eofSeg (w + bs.length)) := by
      rw [hs0]
      unfold Seg.split Seg.splitRight
      rw [if_pos (by simp [Seg.contains_iff])]
      simp
    have hspq := split_eq (p := p1) (A := A1) (B := B1) hsegs hsplit
    simp only [Seg.stop_filled]
    rw [hspq]
    dsimp only
    have hB1nil : B1 = [] := WFs_eof_last hWFs' heof
    subst hB1nil
    set segsq := A1 ++ Seg.emp w (w + bs.length) ::
      Seg.eofSeg (w + bs.length) :: ([] : List Seg) with hsegsq
    have hWFsq : WFs segsq := by
      have h1 : WFs (A1 ++ [c1] ++ []) := by simpa using hWFs'
      have h2 := WFs_replace (X := [Seg.emp w (w + bs.length),
        Seg.eofSeg (w + bs.length)]) h1 (by simp) (by simp)
        (by constructor
            · exact ⟨rfl, rfl⟩
            · simp)
        (by intro g hg hge
            simp only [List.mem_cons, List.mem_singleton] at hg
            rcases hg with hg | hg | hg
            · subst hg; simp; omega
            · subst hg; simp [Seg.eof] at hge
            · simp at hg)
        (by intro gX hgX gM hgM
            simp only [List.head?_cons, Option.mem_def, Option.some.injEq]
              at hgX hgM
            subst hgX; subst hgM
            simp [hs0])
        (by intro gX hgX gB hgB
            simp at hgB)
        (by intro _ gX hgX
            simp only [List.getLast?_cons_cons, List.getLast?_singleton,
              Option.mem_def, Option.some.injEq] at hgX
            subst hgX
            simp)
      simpa [hsegsq] using h2
    have hwcq : firstIdx segsq p1.writeOffset = some A1.length := by
      rw [hwoff]
      apply firstIdx_of_getElem? hWFsq
      · rw [hsegsq]
        exact getElem?_append_cons A1 _ _
      · simp [Seg.contains_iff]
        omega
    obtain ⟨p4, heq, hsegs4, hro4, hwo4, hcs4, hck4, hwc4, hWF4⟩ :=
      @writeInstall_eq ⟨segsq, p1.readOffset, firstIdx segsq p1.readOffset,
          p1.writeOffset, firstIdx segsq p1.writeOffset, p1.cacheSize,
          p1.clock⟩
        A1 [Seg.eofSeg (w + bs.length)] w bs ts
        hWFsq (by simpa using hsegsq) (by simpa using hwcq) rfl hbs
    refine ⟨p4, ?_, ?_, hro4, hwo4, hcs4, hck4, hwc4, hWF4⟩
    · convert heq using 2
    · rw [hsegs4]
      simp [heof]
  · -- plain empty cursor
    obtain ⟨e, hc1e⟩ : ∃ e, c1 = Seg.emp w e := by
      cases c1 with
      | emp s e =>
        exact ⟨e, by rw [show s = w from by simpa using hst]⟩
      | filled s b t => simp [Seg.empty] at hemp
      | eofSeg s => simp [Seg.eof] at heof
    have hfite : w + bs.length ≤ e := by
      rcases hfit with h1 | h1
      · rw [hc1e] at h1; simpa using h1
      · exact absurd h1 heof
    have hB1ne : B1 ≠ [] := WFs_cons_ne_nil_of_not_eof hWFs' (by simpa using heof)
    obtain ⟨b0, hb0⟩ : ∃ b0, B1.head? = some b0 := by
      cases B1 with
      | nil => exact absurd rfl hB1ne
      | cons x xs => exact ⟨x, rfl⟩
    have hadjb : c1.stop = b0.start ∧ c1.eof = false :=
      WFs_cons_adj hWFs' b0 hb0
    by_cases hlt : w + bs.length < e
    · -- second split carves a shortened empty remainder
      rw [if_pos (by rw [hc1e]; simp [heof]; omega)]
      have hsplit : c1.split (w + bs.length) =
          some (Seg.emp w (w + bs.length), Seg.emp (w + bs.length) e) := by
        rw [hc1e]
        unfold Seg.split Seg.splitRight
        rw [if_pos (by simp [Seg.contains_iff]; omega)]
        simp
      have hspq := split_eq (p := p1) (A := A1) (B := B1) hsegs hsplit
      simp only [Seg.stop_filled]
      rw [hspq]
      dsimp only
      set segsq := A1 ++ Seg.emp w (w + bs.length) ::
        Seg.emp (w + bs.length) e :: B1 with hsegsq
      have hWFsq : WFs segsq := by
        have h1 : WFs (A1 ++ [c1] ++ B1) := by simpa using hWFs'
        have h2 := WFs_replace (X := [Seg.emp w (w + bs.length),
          Seg.emp (w + bs.length) e]) h1 (by simp) (by simp)
          (by constructor
              · exact ⟨rfl, rfl⟩
              · simp)
          (by intro g hg hge
              simp only [List.mem_cons, List.mem_singleton] at hg
              rcases hg with hg | hg | hg
              · subst hg; simp; omega
              · subst hg; simp; omega
              · simp at hg)
          (by intro gX hgX gM hgM
              simp only [List.head?_cons, Option.mem_def, Option.some.injEq]
                at hgX hgM
              subst hgX; subst hgM
              simp [hc1e])
          (by intro gX hgX gB hgB
              simp only [List.getLast?_cons_cons, List.getLast?_singleton,
                Option.mem_def, Option.some.injEq] at hgX
              rw [hb0] at hgB
              simp only [Option.mem_def, Option.some.injEq] at hgB
              subst hgX; subst hgB
              refine ⟨?_, by simp⟩
              have := hadjb.1
              rw [hc1e] at this
              simpa using this)
          (by intro hB; exact absurd hB hB1ne)
        simpa [hsegsq] using h2
      have hwcq : firstIdx segsq p1.writeOffset = some A1.length := by
        rw [hwoff]
        apply firstIdx_of_getElem? hWFsq
        · rw [hsegsq]
          exact getElem?_append_cons A1 _ _
        · simp [Seg.contains_iff]
          omega
      obtain ⟨p4, heq, hsegs4, hro4, hwo4, hcs4, hck4, hwc4, hWF4⟩ :=
        @writeInstall_eq ⟨segsq, p1.readOffset,
            firstIdx segsq p1.readOffset, p1.writeOffset,
            firstIdx segsq p1.writeOffset, p1.cacheSize, p1.clock⟩
          A1 (Seg.emp (w + bs.length) e :: B1) w bs ts
          hWFsq (by simpa using hsegsq) (by simpa using hwcq) rfl hbs
      refine ⟨p4, ?_, ?_, hro4, hwo4, hcs4, hck4, hwc4, hWF4⟩
      · convert heq using 2
      · rw [hsegs4, hc1e]
        simp [hlt]
    · -- exact fill: no second split
      have heq2 : e = w + bs.length := by omega
      rw [if_neg (by rw [hc1e]; simp [heof]; omega)]
      obtain ⟨p4, heq, hsegs4, hro4, hwo4, hcs4, hck4, hwc4, hWF4⟩ :=
        @writeInstall_eq p1 A1 B1 w bs ts
          hWFs (by rw [hsegs, hc1e, heq2]) hwc hrc hbs
      refine ⟨p4, ?_, ?_, hro4, hwo4, hcs4, hck4, hwc4, hWF4⟩
      · convert heq using 2
      · rw [hsegs4, hc1e]
        simp
        omega

/-! ## GC machinery: helper lemmas -/

theorem filledOf_append (L1 L2 : List Seg) :
    filledOf (L1 ++ L2) = filledOf L1 ++ filledOf L2 := by
  unfold filledOf
  rw [List.filter_append]

theorem filledOf_all_empty {L : List Seg} (h : ∀ g ∈ L, g.empty = true) :
    filledOf L = [] := by
  unfold filledOf
  rw [List.filter_eq_nil_iff]
  intro g hg
  simp [h g hg]

theorem WFs_nodup {L : List Seg} (h : WFs L) : L.Nodup := by
  rw [List.nodup_iff_injective_get]
  intro ⟨i, hi⟩ ⟨j, hj⟩ heq
  simp only [Fin.mk.injEq]
  by_contra hne
  rcases Nat.lt_or_ge i j with hlt | hge
  · have hmono : (L.get ⟨i, hi⟩).stop ≤ (L.get ⟨j, hj⟩).start := h.mono hlt hj
    have heof : (L.get ⟨i, hi⟩).eof = false := h.eof_false_of_lt (by omega)
    have hpos : (L.get ⟨i, hi⟩).start < (L.get ⟨i, hi⟩).stop :=
      h.pos _ (List.get_mem L i hi) heof
    have hstop : (L.get ⟨i, hi⟩).stop = (L.get ⟨j, hj⟩).stop := by rw [heq]
    rw [heq] at hpos
    omega
  · have hlt : j < i := by omega
    have hmono : (L.get ⟨j, hj⟩).stop ≤ (L.get ⟨i, hi⟩).start := h.mono hlt hi
    have heof : (L.get ⟨j, hj⟩).eof = false := h.eof_false_of_lt (by omega)
    have hpos : (L.get ⟨j, hj⟩).start < (L.get ⟨j, hj⟩).stop :=
      h.pos _ (List.get_mem L j hj) heof
    have hstop : (L.get ⟨j, hj⟩).stop = (L.get ⟨i, hi⟩).stop := by rw [heq]
    rw [← heq] at hpos
    omega

theorem WFs_not_mem_left {A B : List Seg} {c : Seg}
    (h : WFs (A ++ c :: B)) (hpos : c.start < c.stop) : c ∉ A := by
  intro hmem
  have hnd := WFs_nodup h
  rw [List.nodup_append] at hnd
  exact hnd.2.2 hmem (by simp)

theorem findIdx?_beq_cons {A B : List Seg} {c : Seg}
    (hnotA : c ∉ A) :
    ((A ++ c :: B).findIdx? (fun g => g == c)) = some A.length := by
  rw [List.findIdx?_append]
  have h1 : A.findIdx? (fun g => g == c) = none := by
    rw [List.findIdx?_eq_none_iff]
    intro x hx
    simp only [beq_eq_false_iff_ne, ne_eq]
    intro hxc
    exact hnotA (hxc ▸ hx)
  rw [h1]
  simp

/-- Characterisation of `consolidate` at index `|C|` when the list
decomposes as `C ++ R ++ D` with `R` the (nonempty) maximal run of
non-EOF empty items and `D` starting with something else. -/
theorem consolidate_eq {p : Pool} {C R D : List Seg} {r0 rl : Seg}
    (hsegs : p.segs = C ++ R ++ D)
    (hr0 : R.head? = some r0) (hrl : R.getLast? = some rl)
    (hR : ∀ g ∈ R, (g.empty && !g.eof) = true)
    (hD : ∀ g ∈ D.head?, (g.empty && !g.eof) = false) :
    p.consolidate C.length =
      some { p with segs := C ++ Seg.emp r0.start rl.stop :: D,
                    readCursor := firstIdx (C ++ Seg.emp r0.start rl.stop :: D)
                      p.readOffset,
                    writeCursor := firstIdx (C ++ Seg.emp r0.start rl.stop :: D)
                      p.writeOffset } := by
  have hRne : R ≠ [] := by
    intro h; rw [h] at hr0; simp at hr0
  have hr0get : p.segs[C.length]? = some r0 := by
    rw [hsegs, List.append_assoc, List.getElem?_append_right (Nat.le_refl _)]
    simp only [Nat.sub_self]
    rw [List.getElem?_append_left (by
      cases R with
      | nil => exact absurd rfl hRne
      | cons _ _ => simp)]
    rw [← List.head?_eq_getElem?]
    exact hr0
  have hdrop : p.segs.drop C.length = R ++ D := by
    rw [hsegs, List.append_assoc, List.drop_left]
  have htw : (p.segs.drop C.length).takeWhile (fun g => g.empty && !g.eof)
      = R := by
    rw [hdrop, List.takeWhile_append_of_pos hR]
    cases hDh : D with
    | nil => simp
    | cons d ds =>
      have := hD d (by rw [hDh]; simp)
      rw [List.takeWhile_cons_of_neg (by simp [this])]
      simp
  unfold Pool.consolidate
  rw [hr0get]
  dsimp only
  rw [htw, hrl]
  dsimp only
  have hsp := @splice_eq p C R D [Seg.emp r0.start rl.stop] r0 rl
    (Seg.emp r0.start rl.stop) (Seg.emp r0.start rl.stop)
    hsegs hr0 hrl (by simp) (by simp) (by simp) (by
      left
      have : rl ∈ R := by
        cases R with
        | nil => exact absurd rfl hRne
        | cons x xs =>
          rw [List.getLast?_eq_getLast _ (by simp)] at hrl
          simp only [Option.some.injEq] at hrl
          rw [← hrl]
          exact List.getLast_mem _
      simp)
  simpa using hsp


theorem Seg.eof_false_of_filled {g : Seg} (h : g.empty = false) :
    g.eof = false := by
  cases g <;> simp_all [Seg.empty, Seg.eof]

theorem head?_dropWhile_false {pr : Seg → Bool} {l : List Seg} :
    ∀ g ∈ (l.dropWhile pr).head?, pr g = false := by
  intro g hg
  have := List.head?_dropWhile_not pr l
  cases hh : (l.dropWhile pr).head? with
  | none => rw [hh] at hg; simp at hg
  | some x =>
    rw [hh] at hg this
    simp only [Option.mem_def, Option.some.injEq] at hg
    subst hg
    exact this

theorem dropWhile_ne_nil_of_mem_false {pr : Seg → Bool} {l : List Seg}
    {x : Seg} (hx : x ∈ l) (hpx : pr x = false) : l.dropWhile pr ≠ [] := by
  intro hnil
  have : ∀ g ∈ l, pr g = true := by
    have := List.dropWhile_eq_nil_iff.mp hnil
    simpa using this
  have := this x hx
  rw [hpx] at this
  exact absurd this (by simp)

theorem WFs_mid_adj {C R D : List Seg} (h : WFs (C ++ R ++ D)) :
    ∀ r ∈ R.getLast?, ∀ d ∈ D.head?, adjOk r d := by
  intro r hr d hd
  have hRne : R ≠ [] := by
    intro hnil; rw [hnil] at hr; simp at hr
  have hchain := h.chain
  rw [List.chain'_append] at hchain
  apply hchain.2.2
  · rw [List.getLast?_append, hr]
    simp
  · exact hd

/-- A run of non-EOF segments inside a well-formed list spans a
positive range. -/
theorem WFs_run_pos {C R D : List Seg} {r0 rl : Seg}
    (h : WFs (C ++ R ++ D))
    (hr0 : R.head? = some r0) (hrl : R.getLast? = some rl)
    (heof : ∀ g ∈ R, g.eof = false) : r0.start < rl.stop := by
  have hRne : R ≠ [] := by
    intro hnil; rw [hnil] at hr0; simp at hr0
  have hr0get : (C ++ R ++ D)[C.length]? = some r0 := by
    rw [List.append_assoc, List.getElem?_append_right (Nat.le_refl _)]
    simp only [Nat.sub_self]
    rw [List.getElem?_append_left (by
      cases R with
      | nil => exact absurd rfl hRne
      | cons _ _ => simp)]
    rw [← List.head?_eq_getElem?]; exact hr0
  have hrlget : (C ++ R ++ D)[C.length + R.length - 1]? = some rl := by
    rw [List.append_assoc, List.getElem?_append_right (by
      have : 1 ≤ R.length := by
        cases R with
        | nil => exact absurd rfl hRne
        | cons _ _ => simp
      omega)]
    have h1 : 1 ≤ R.length := by
      cases R with
      | nil => exact absurd rfl hRne
      | cons _ _ => simp
    have harith : C.length + R.length - 1 - C.length = R.length - 1 := by omega
    rw [harith, List.getElem?_append_left (by omega)]
    rw [← List.getLast?_eq_getElem?]; exact hrl
  have hr0mem : r0 ∈ C ++ R ++ D := List.getElem?_mem hr0get
  have hrlmem : rl ∈ C ++ R ++ D := List.getElem?_mem hrlget
  have hr0R : r0 ∈ R := List.mem_of_mem_head? hr0
  have hrlR : rl ∈ R := by
    rw [List.getLast?_eq_getElem?] at hrl
    exact List.mem_of_mem_getLast? (by rw [List.getLast?_eq_getElem?]; exact hrl)
  have hr0pos : r0.start < r0.stop := h.pos r0 hr0mem (heof r0 hr0R)
  have hrlpos : rl.start < rl.stop := h.pos rl hrlmem (heof rl hrlR)
  rcases Nat.lt_or_ge 1 R.length with hlen | hlen
  · -- at least two elements: use monotonicity between the endpoints
    have hi : C.length < C.length + R.length - 1 := by omega
    have hj : C.length + R.length - 1 < (C ++ R ++ D).length := by
      simp only [List.length_append]
      omega
    have hmono := h.mono hi hj
    have hget0 : (C ++ R ++ D).get ⟨C.length, by omega⟩ = r0 := by
      have := List.getElem?_eq_getElem (l := C ++ R ++ D)
        (n := C.length) (by simp only [List.length_append]; omega)
      rw [this] at hr0get
      simpa using hr0get
    have hgetl : (C ++ R ++ D).get ⟨C.length + R.length - 1, hj⟩ = rl := by
      have := List.getElem?_eq_getElem (l := C ++ R ++ D)
        (n := C.length + R.length - 1) hj
      rw [this] at hrlget
      simpa using hrlget
    rw [hget0, hgetl] at hmono
    omega
  · -- singleton run
    have hlen1 : R.length = 1 := by
      cases R with
      | nil => exact absurd rfl hRne
      | cons x xs =>
        simp only [List.length_cons] at hlen ⊢
        omega
    have : r0 = rl := by
      cases R with
      | nil => exact absurd rfl hRne
      | cons x xs =>
        have hxs : xs = [] := by
          have := hlen1
          simp only [List.length_cons] at this
          exact List.length_eq_zero.mp (by omega)
        subst hxs
        simp only [List.head?_cons, Option.some.injEq] at hr0
        simp only [List.getLast?_singleton, Option.some.injEq] at hrl
        rw [← hr0, ← hrl]
    rw [this]
    exact hrlpos

/-- Full account of a `consolidate` call on the maximal run
`R = segs[|C| ..]` of non-EOF empties: the run is merged into one empty
segment, well-formedness is preserved, and the filled segments are
untouched. -/
theorem consolidate_run {p : Pool} {C R D : List Seg} {r0 rl : Seg}
    (hWFs : WFs p.segs)
    (hsegs : p.segs = C ++ R ++ D)
    (hr0 : R.head? = some r0) (hrl : R.getLast? = some rl)
    (hR : ∀ g ∈ R, g.empty = true ∧ g.eof = false)
    (hD : ∀ g ∈ D.head?, (g.empty && !g.eof) = false) :
    ∃ q, p.consolidate C.length = some q ∧
      q.segs = C ++ Seg.emp r0.start rl.stop :: D ∧
      WFs q.segs ∧
      q.readCursor = firstIdx q.segs p.readOffset ∧
      q.writeCursor = firstIdx q.segs p.writeOffset ∧
      q.readOffset = p.readOffset ∧ q.writeOffset = p.writeOffset ∧
      q.cacheSize = p.cacheSize ∧ q.clock = p.clock ∧
      filledOf q.segs = filledOf C ++ filledOf D := by
  have hRne : R ≠ [] := by
    intro hnil; rw [hnil] at hr0; simp at hr0
  have hWFs0 : WFs (C ++ R ++ D) := hsegs ▸ hWFs
  have hDne : D ≠ [] := by
    intro hnil
    rw [hnil] at hWFs0
    have hlast : (C ++ R ++ []).getLast? = some rl := by
      rw [List.append_nil, List.getLast?_append, hrl]
      simp
    have heofrl := hWFs0.last rl hlast
    have := (hR rl (by
      cases R with
      | nil => exact absurd rfl hRne
      | cons x xs =>
        rw [List.getLast?_eq_getLast _ (by simp)] at hrl
        simp only [Option.some.injEq] at hrl
        rw [← hrl]
        exact List.getLast_mem _)).2
    rw [heofrl] at this
    exact absurd this (by simp)
  obtain ⟨d0, hd0⟩ : ∃ d0, D.head? = some d0 := by
    cases D with
    | nil => exact absurd rfl hDne
    | cons x xs => exact ⟨x, rfl⟩
  have hcons := consolidate_eq (p := p) (C := C) (R := R) (D := D)
    hsegs hr0 hrl
    (by intro g hg
        have := hR g hg
        simp [this.1, this.2])
    hD
  refine ⟨_, hcons, rfl, ?_, rfl, rfl, rfl, rfl, rfl, rfl, ?_⟩
  · -- well-formedness
    have h2 : WFs (C ++ [Seg.emp r0.start rl.stop] ++ D) := by
      refine WFs_replace (M := R) hWFs0 hRne (by simp) (by simp) ?_ ?_ ?_ ?_
      · intro g hg hge
        simp only [List.mem_singleton] at hg
        subst hg
        simp only [Seg.start_emp, Seg.stop_emp]
        exact WFs_run_pos hWFs0 hr0 hrl (fun g hg => (hR g hg).2)
      · intro gX hgX gM hgM
        simp only [List.head?_singleton, Option.mem_def, Option.some.injEq]
          at hgX
        rw [hr0] at hgM
        simp only [Option.mem_def, Option.some.injEq] at hgM
        subst hgX; subst hgM
        simp
      · intro gX hgX gB hgB
        simp only [List.getLast?_singleton, Option.mem_def, Option.some.injEq]
          at hgX
        subst hgX
        have := WFs_mid_adj hWFs0 rl hrl gB hgB
        exact ⟨by simpa using this.1, by simp⟩
      · intro hnil
        exact absurd hnil hDne
    simpa using h2
  · -- filled segments untouched
    show filledOf (C ++ Seg.emp r0.start rl.stop :: D) =
      filledOf C ++ filledOf D
    rw [show C ++ Seg.emp r0.start rl.stop :: D =
      C ++ [Seg.emp r0.start rl.stop] ++ D by simp]
    rw [filledOf_append, filledOf_append]
    have hone : filledOf [Seg.emp r0.start rl.stop] = [] :=
      filledOf_all_empty (by simp)
    rw [hone]
    simp

/-- Full account of `remove(item)` on a well-formed pool: the filled
item is blanked and merged with its empty neighbours; everything else
(the other filled segments, the offsets, the cap, the clock) is
untouched and the pool stays well-formed. -/
theorem remove_eq {p : Pool} {A B : List Seg} {c : Seg}
    (hWFs : WFs p.segs)
    (hsegs : p.segs = A ++ c :: B)
    (hfill : c.empty = false) :
    ∃ p', p.remove c = some p' ∧ WFs p'.segs ∧
      p'.readCursor = firstIdx p'.segs p'.readOffset ∧
      p'.writeCursor = firstIdx p'.segs p'.writeOffset ∧
      p'.readOffset = p.readOffset ∧ p'.writeOffset = p.writeOffset ∧
      p'.cacheSize = p.cacheSize ∧ p'.clock = p.clock ∧
      filledOf p'.segs = filledOf A ++ filledOf B := by
  have hWFs' : WFs (A ++ c :: B) := hsegs ▸ hWFs
  have heofc : c.eof = false := Seg.eof_false_of_filled hfill
  have hposc : c.start < c.stop := hWFs'.pos c (by simp) heofc
  have hBne : B ≠ [] := WFs_cons_ne_nil_of_not_eof hWFs' heofc
  have hfind : p.segs.findIdx? (fun g => g == c) = some A.length := by
    rw [hsegs]
    exact findIdx?_beq_cons (WFs_not_mem_left hWFs' hposc)
  -- the eraser splice
  have hsp := @splice_eq p A [c] B [Seg.emp c.start c.stop] c c
    (Seg.emp c.start c.stop) (Seg.emp c.start c.stop)
    (by simpa using hsegs) (by simp) (by simp) (by simp) (by simp)
    (by simp) (by simp)
  simp only [List.length_singleton, Nat.add_sub_cancel] at hsp
  set segs1 := A ++ [Seg.emp c.start c.stop] ++ B with hsegs1
  have hsegs1' : segs1 = A ++ Seg.emp c.start c.stop :: B := by simp [hsegs1]
  have hWFs1 : WFs segs1 := by
    refine WFs_replace (M := [c]) (by simpa using hWFs') (by simp) (by simp)
      (by simp) ?_ ?_ ?_ ?_
    · intro g hg hge
      simp only [List.mem_singleton] at hg
      subst hg
      simpa using hposc
    · intro gX hgX gM hgM
      simp only [List.head?_singleton, Option.mem_def, Option.some.injEq]
        at hgX hgM
      subst hgX; subst hgM; simp
    · intro gX hgX gB hgB
      simp only [List.getLast?_singleton, Option.mem_def, Option.some.injEq]
        at hgX
      subst hgX
      have := WFs_cons_adj hWFs' gB hgB
      exact ⟨by simpa using this.1, by simp⟩
    · intro hnil
      exact absurd hnil hBne
  -- decomposition of B into its empty prefix and the rest
  set pr : Seg → Bool := fun g => g.empty && !g.eof with hpr
  have hsplitB : B.takeWhile pr ++ B.dropWhile pr = B :=
    List.takeWhile_append_dropWhile pr B
  have hRBall : ∀ g ∈ B.takeWhile pr, pr g = true :=
    fun g hg => List.mem_takeWhile_imp hg
  have hRBemp : ∀ g ∈ B.takeWhile pr, g.empty = true ∧ g.eof = false := by
    intro g hg
    have := hRBall g hg
    rw [hpr] at this
    simp only [Bool.and_eq_true, Bool.not_eq_true'] at this
    exact this
  have hB'head : ∀ g ∈ (B.dropWhile pr).head?, pr g = false :=
    head?_dropWhile_false
  obtain ⟨bl, hbl⟩ : ∃ bl, B.getLast? = some bl := by
    cases B with
    | nil => exact absurd rfl hBne
    | cons x xs => exact ⟨(x :: xs).getLast (by simp), List.getLast?_eq_getLast _ _⟩
  have hbleof : bl.eof = true := by
    apply hWFs'.last
    rw [List.getLast?_append]
    have h2 : (c :: B).getLast? = some bl := by
      cases B with
      | nil => exact absurd rfl hBne
      | cons x xs => rw [List.getLast?_cons_cons]; exact hbl
    rw [h2]
    simp
  have hblpr : pr bl = false := by
    rw [hpr]; simp [hbleof]
  have hblmem : bl ∈ B := by
    cases B with
    | nil => exact absurd rfl hBne
    | cons x xs =>
      rw [List.getLast?_eq_getLast _ (by simp)] at hbl
      simp only [Option.some.injEq] at hbl
      rw [← hbl]
      exact List.getLast_mem _
  have hB'ne : B.dropWhile pr ≠ [] :=
    dropWhile_ne_nil_of_mem_false hblmem hblpr
  obtain ⟨d0, hd0⟩ : ∃ d0, (B.dropWhile pr).head? = some d0 := by
    cases hd : B.dropWhile pr with
    | nil => exact absurd hd hB'ne
    | cons x xs => exact ⟨x, rfl⟩
  have hd0pr : pr d0 = false := hB'head d0 hd0
  have hfB : filledOf B = filledOf (B.dropWhile pr) := by
    conv_lhs => rw [← hsplitB]
    rw [filledOf_append, filledOf_all_empty (fun g hg => (hRBemp g hg).1)]
    simp
  -- unfold remove
  unfold Pool.remove
  rw [hfind]
  dsimp only
  rw [hsp]
  dsimp only
  have hpr' : ∀ g : Seg, (g.empty && !g.eof) = pr g := by
    intro g; rw [hpr]
  by_cases hprev : (decide (A.length ≠ 0) &&
      match segs1[A.length - 1]? with
      | some g => g.empty
      | none => false) = true
  · -- the previous item exists and is empty: consolidate from it
    rw [if_pos hprev]
    rw [Bool.and_eq_true] at hprev
    have hAne : A ≠ [] := by
      intro hnil
      rw [hnil] at hprev
      simp at hprev
    obtain ⟨A', aL, hA⟩ : ∃ A' aL, A = A' ++ [aL] := by
      rcases List.eq_nil_or_concat A with h | ⟨A', aL, h⟩
      · exact absurd h hAne
      · exact ⟨A', aL, by simpa [List.concat_eq_append] using h⟩
    have haLget : segs1[A.length - 1]? = some aL := by
      rw [hsegs1, hA]
      have hre : A' ++ [aL] ++ [Seg.emp c.start c.stop] ++ B =
          A' ++ aL :: (Seg.emp c.start c.stop :: B) := by simp
      rw [hre]
      have hlen : (A' ++ [aL]).length - 1 = A'.length := by simp
      rw [hlen]
      exact getElem?_append_cons A' aL _
    have haLemp : aL.empty = true := by
      have := hprev.2
      rw [haLget] at this
      exact this
    have horig : A' ++ aL :: (c :: B) = A ++ c :: B := by rw [hA]; simp
    have haLeof : aL.eof = false :=
      (WFs_cons_adj (B := c :: B) (horig ▸ hWFs') c (by simp)).2
    -- the run to consolidate: aL, the fresh empty, and B's empty prefix
    set R : List Seg := aL :: Seg.emp c.start c.stop :: B.takeWhile pr
      with hR
    obtain ⟨rl, hrl⟩ : ∃ rl, R.getLast? = some rl := by
      exact ⟨R.getLast (by rw [hR]; simp), List.getLast?_eq_getLast _ _⟩
    have hp1segs : segs1 = A' ++ R ++ B.dropWhile pr := by
      rw [hsegs1', hA, hR]
      conv_lhs => rw [← hsplitB]
      simp
    have hcr := @consolidate_run
      { segs := segs1, readOffset := p.readOffset,
        readCursor := firstIdx segs1 p.readOffset,
        writeOffset := p.writeOffset,
        writeCursor := firstIdx segs1 p.writeOffset,
        cacheSize := p.cacheSize, clock := p.clock }
      A' R (B.dropWhile pr) aL rl
      hWFs1 hp1segs (by rw [hR]; simp) hrl
      (by intro g hg
          rw [hR] at hg
          simp only [List.mem_cons] at hg
          rcases hg with hg | hg | hg
          · subst hg; exact ⟨haLemp, haLeof⟩
          · subst hg; simp
          · exact hRBemp g hg)
      (by intro g hg
          rw [hpr' g]
          exact hB'head g hg)
    obtain ⟨q, hq, hqsegs, hWFq, hrcq, hwcq, hroq, hwoq, hcsq, hckq, hfq⟩ :=
      hcr
    have hkk : A.length - 1 = A'.length := by rw [hA]; simp
    rw [hkk, hq]
    dsimp only [Option.map_some']
    have hnext : q.segs[A'.length + 1]? = some d0 := by
      rw [hqsegs]
      have hre : A' ++ Seg.emp aL.start rl.stop :: B.dropWhile pr =
          (A' ++ [Seg.emp aL.start rl.stop]) ++ B.dropWhile pr := by simp
      rw [hre, List.getElem?_append_right (by simp)]
      simp only [List.length_append, List.length_singleton]
      have : A'.length + 1 - (A'.length + 1) = 0 := by omega
      rw [this, ← List.head?_eq_getElem?]
      exact hd0
    rw [hnext]
    dsimp only
    rw [if_neg (by rw [hpr' d0, hd0pr]; simp)]
    refine ⟨q, rfl, hWFq, ?_, ?_, hroq, hwoq, hcsq, hckq, ?_⟩
    · rw [hroq]; exact hrcq
    · rw [hwoq]; exact hwcq
    · rw [hfq, ← hfB, hA]
      rw [filledOf_append]
      have : filledOf [aL] = [] := filledOf_all_empty (by simpa using haLemp)
      rw [this]
      simp
  · -- no empty predecessor: maybe consolidate with the successor
    rw [if_neg hprev]
    dsimp only
    have hnext : segs1[A.length + 1]? = some (B.head (by
        cases B with
        | nil => exact absurd rfl hBne
        | cons _ _ => simp)) := by
      rw [hsegs1]
      have hre : A ++ [Seg.emp c.start c.stop] ++ B =
          (A ++ [Seg.emp c.start c.stop]) ++ B := by simp
      rw [hre, List.getElem?_append_right (by simp)]
      simp only [List.length_append, List.length_singleton]
      have h0 : A.length + 1 - (A.length + 1) = 0 := by omega
      rw [h0, ← List.head?_eq_getElem?]
      exact (List.head?_eq_head _).symm ▸ rfl
    set b0 : Seg := B.head (by
      cases B with
      | nil => exact absurd rfl hBne
      | cons _ _ => simp) with hb0def
    have hb0head : B.head? = some b0 := by
      rw [hb0def]
      exact List.head?_eq_head _
    rw [hnext]
    dsimp only
    by_cases hb0pr : pr b0 = true
    · -- successor is a non-EOF empty: consolidate from the fresh empty
      rw [if_pos (by rw [hpr' b0]; exact hb0pr)]
      set R : List Seg := Seg.emp c.start c.stop :: B.takeWhile pr with hR
      obtain ⟨rl, hrl⟩ : ∃ rl, R.getLast? = some rl := by
        exact ⟨R.getLast (by rw [hR]; simp), List.getLast?_eq_getLast _ _⟩
      have hp1segs : segs1 = A ++ R ++ B.dropWhile pr := by
        rw [hsegs1', hR]
        conv_lhs => rw [← hsplitB]
        simp
      have hcr := @consolidate_run
        { segs := segs1, readOffset := p.readOffset,
          readCursor := firstIdx segs1 p.readOffset,
          writeOffset := p.writeOffset,
          writeCursor := firstIdx segs1 p.writeOffset,
          cacheSize := p.cacheSize, clock := p.clock }
        A R (B.dropWhile pr) (Seg.emp c.start c.stop) rl
        hWFs1 hp1segs (by rw [hR]; simp) hrl
        (by intro g hg
            rw [hR] at hg
            simp only [List.mem_cons] at hg
            rcases hg with hg | hg
            · subst hg; simp
            · exact hRBemp g hg)
        (by intro g hg
            rw [hpr' g]
            exact hB'head g hg)
      obtain ⟨q, hq, hqsegs, hWFq, hrcq, hwcq, hroq, hwoq, hcsq, hckq, hfq⟩ :=
        hcr
      rw [hq]
      refine ⟨q, rfl, hWFq, ?_, ?_, hroq, hwoq, hcsq, hckq, ?_⟩
      · rw [hroq]; exact hrcq
      · rw [hwoq]; exact hwcq
      · rw [hfq, ← hfB]
    · -- successor is filled or the EOF: keep the single fresh empty
      rw [if_neg (by rw [hpr' b0]; simpa using hb0pr)]
      refine ⟨_, rfl, hWFs1, rfl, rfl, rfl, rfl, rfl, rfl, ?_⟩
      show filledOf segs1 = filledOf A ++ filledOf B
      rw [hsegs1, filledOf_append, filledOf_append]
      have : filledOf [Seg.emp c.start c.stop] = [] :=
        filledOf_all_empty (by simp)
      rw [this]
      simp

/-! ## GC loop lemmas -/

theorem insertTs_perm (c : Seg) (l : List Seg) :
    (Pool.insertTs c l).Perm (c :: l) := by
  induction l with
  | nil => simp [Pool.insertTs]
  | cons d ds ih =>
    unfold Pool.insertTs
    by_cases h : c.ts ≤ d.ts
    · rw [if_pos h]
    · rw [if_neg h]
      exact (List.Perm.cons d ih).trans (List.Perm.swap c d ds)

theorem sortTs_perm (l : List Seg) : (Pool.sortTs l).Perm l := by
  induction l with
  | nil => simp [Pool.sortTs]
  | cons c cs ih =>
    unfold Pool.sortTs
    exact (insertTs_perm c _).trans (List.Perm.cons c ih)

theorem sumLen_append (L1 L2 : List Seg) :
    Pool.sumLen (L1 ++ L2) = Pool.sumLen L1 + Pool.sumLen L2 := by
  unfold Pool.sumLen
  induction L1 with
  | nil => simp
  | cons g gs ih => simp [List.foldr_cons, ih]; omega

theorem sumLen_cons (g : Seg) (L : List Seg) :
    Pool.sumLen (g :: L) = g.len + Pool.sumLen L := rfl

theorem mem_of_mem_filledOf {g : Seg} {L : List Seg}
    (h : g ∈ filledOf L) : g ∈ L :=
  List.mem_of_mem_filter h

theorem filled_of_mem_filledOf {g : Seg} {L : List Seg}
    (h : g ∈ filledOf L) : g.empty = false := by
  have := List.of_mem_filter h
  simpa using this

theorem mem_filledOf {g : Seg} {L : List Seg} (hg : g ∈ L)
    (hf : g.empty = false) : g ∈ filledOf L := by
  unfold filledOf
  rw [List.mem_filter]
  exact ⟨hg, by simp [hf]⟩

/-- The eviction loop never throws on a well-formed pool whose
candidates are distinct filled members, and preserves well-formedness
and all non-list fields. -/
theorem gcLoop_wf : ∀ (cs : List Seg) (p : Pool) (bytes : Nat),
    WF p →
    (∀ c' ∈ cs, c' ∈ p.segs ∧ c'.empty = false) →
    cs.Pairwise (· ≠ ·) →
    ∃ p', Pool.gcLoop p cs bytes = some p' ∧ WF p' ∧
      p'.readOffset = p.readOffset ∧ p'.writeOffset = p.writeOffset ∧
      p'.cacheSize = p.cacheSize ∧ p'.clock = p.clock := by
  intro cs
  induction cs with
  | nil =>
    intro p bytes hWF _ _
    exact ⟨p, rfl, hWF, rfl, rfl, rfl, rfl⟩
  | cons c rest ih =>
    intro p bytes hWF hcs hnd
    unfold Pool.gcLoop
    by_cases hb : bytes ≤ p.cacheSize
    · rw [if_pos hb]
      exact ⟨p, rfl, hWF, rfl, rfl, rfl, rfl⟩
    · rw [if_neg hb]
      obtain ⟨hcmem, hcfill⟩ := hcs c (by simp)
      obtain ⟨A, B, hAB⟩ := List.append_of_mem hcmem
      obtain ⟨p1, hrm, hWFs1, hrc1, hwc1, hro1, hwo1, hcs1, hck1, hf1⟩ :=
        remove_eq hWF.segs hAB hcfill
      rw [hrm]
      have hWF1 : WF p1 := ⟨hWFs1, hrc1, hwc1⟩
      have hCnotmem : c ∉ A ∧ c ∉ B := by
        have hnd0 := WFs_nodup (hAB ▸ hWF.segs)
        rw [List.nodup_append] at hnd0
        constructor
        · intro hmem
          exact hnd0.2.2 hmem (by simp)
        · intro hmem
          have := List.nodup_cons.mp hnd0.2.1
          exact this.1 hmem
      have hrest : ∀ c' ∈ rest, c' ∈ p1.segs ∧ c'.empty = false := by
        intro c' hc'
        obtain ⟨hc'mem, hc'fill⟩ := hcs c' (by simp [hc'])
        have hne : c' ≠ c := by
          have := (List.pairwise_cons.mp hnd).1 c' hc'
          exact fun h => this h.symm
        refine ⟨?_, hc'fill⟩
        have hc'f : c' ∈ filledOf p.segs := mem_filledOf hc'mem hc'fill
        rw [hAB] at hc'f
        have : c' ∈ filledOf A ++ filledOf B := by
          have hsplit : filledOf (A ++ c :: B) =
              filledOf A ++ c :: filledOf B := by
            rw [show A ++ c :: B = A ++ [c] ++ B by simp,
              filledOf_append, filledOf_append]
            have : filledOf [c] = [c] := by
              unfold filledOf
              simp [hcfill]
            rw [this]
            simp
          rw [hsplit] at hc'f
          rcases List.mem_append.mp hc'f with h | h
          · exact List.mem_append.mpr (Or.inl h)
          · rcases List.mem_cons.mp h with h | h
            · exact absurd h hne
            · exact List.mem_append.mpr (Or.inr h)
        rw [← hf1] at this
        exact mem_of_mem_filledOf this
      obtain ⟨p', hloop, hWF', hro', hwo', hcs', hck'⟩ :=
        ih p1 (bytes - c.len) hWF1 hrest (List.pairwise_cons.mp hnd).2
      refine ⟨p', hloop, hWF', ?_, ?_, ?_, ?_⟩
      · rw [hro', hro1]
      · rw [hwo', hwo1]
      · rw [hcs', hcs1]
      · rw [hck', hck1]

theorem sumLen_le_of_mem {g : Seg} {L : List Seg} (h : g ∈ L) :
    g.len ≤ Pool.sumLen L := by
  induction L with
  | nil => simp at h
  | cons x xs ih =>
    rw [sumLen_cons]
    rcases List.mem_cons.mp h with h | h
    · subst h; omega
    · have := ih h; omega

theorem filled_len_pos {g : Seg} {L : List Seg} (hWFs : WFs L)
    (h : g ∈ filledOf L) : 0 < g.len := by
  have hfill := filled_of_mem_filledOf h
  have hmem := mem_of_mem_filledOf h
  have heof := Seg.eof_false_of_filled hfill
  have := hWFs.pos g hmem heof
  unfold Seg.len
  omega

theorem filledOf_mid {A B : List Seg} {c : Seg} (hc : c.empty = false) :
    filledOf (A ++ c :: B) = filledOf A ++ c :: filledOf B := by
  rw [show A ++ c :: B = A ++ [c] ++ B by simp,
    filledOf_append, filledOf_append]
  have : filledOf [c] = [c] := by
    unfold filledOf
    simp [hc]
  rw [this]
  simp

/-- The eviction loop with a zero cap removes every candidate: the
final filled segments are exactly the non-candidates. -/
theorem gcLoop_zero : ∀ (cs : List Seg) (p : Pool) (bytes : Nat),
    WF p →
    (∀ c' ∈ cs, c' ∈ p.segs ∧ c'.empty = false) →
    cs.Pairwise (· ≠ ·) →
    p.cacheSize = 0 →
    bytes = Pool.sumLen (filledOf p.segs) →
    ∃ p', Pool.gcLoop p cs bytes = some p' ∧ WF p' ∧
      p'.readOffset = p.readOffset ∧ p'.writeOffset = p.writeOffset ∧
      p'.cacheSize = p.cacheSize ∧ p'.clock = p.clock ∧
      filledOf p'.segs =
        (filledOf p.segs).filter (fun g => decide (g ∉ cs)) := by
  intro cs
  induction cs with
  | nil =>
    intro p bytes hWF _ _ _ _
    refine ⟨p, rfl, hWF, rfl, rfl, rfl, rfl, ?_⟩
    rw [List.filter_eq_self.mpr]
    intro g _
    simp
  | cons c rest ih =>
    intro p bytes hWF hcs hnd hcz hbytes
    unfold Pool.gcLoop
    obtain ⟨hcmem, hcfill⟩ := hcs c (by simp)
    have hcf : c ∈ filledOf p.segs := mem_filledOf hcmem hcfill
    have hclen : 0 < c.len := filled_len_pos hWF.segs hcf
    have hbpos : 0 < bytes := by
      have := sumLen_le_of_mem hcf
      omega
    rw [if_neg (by omega)]
    obtain ⟨A, B, hAB⟩ := List.append_of_mem hcmem
    obtain ⟨p1, hrm, hWFs1, hrc1, hwc1, hro1, hwo1, hcs1, hck1, hf1⟩ :=
      remove_eq hWF.segs hAB hcfill
    rw [hrm]
    have hWF1 : WF p1 := ⟨hWFs1, hrc1, hwc1⟩
    have hCnotmem : c ∉ A ∧ c ∉ B := by
      have hnd0 := WFs_nodup (hAB ▸ hWF.segs)
      rw [List.nodup_append] at hnd0
      constructor
      · intro hmem
        exact hnd0.2.2 hmem (by simp)
      · intro hmem
        have := List.nodup_cons.mp hnd0.2.1
        exact this.1 hmem
    have hmid : filledOf p.segs = filledOf A ++ c :: filledOf B := by
      rw [hAB]; exact filledOf_mid hcfill
    have hf1' : filledOf p1.segs =
        (filledOf p.segs).filter (fun g => decide (g ≠ c)) := by
      rw [hf1, hmid, List.filter_append]
      congr 1
      · rw [List.filter_eq_self.mpr]
        intro g hg
        have : g ≠ c := by
          intro he
          exact hCnotmem.1 (he ▸ mem_of_mem_filledOf hg)
        simp [this]
      · rw [List.filter_cons]
        rw [if_neg (by simp)]
        rw [List.filter_eq_self.mpr]
        intro g hg
        have : g ≠ c := by
          intro he
          exact hCnotmem.2 (he ▸ mem_of_mem_filledOf hg)
        simp [this]
    have hsumrec : bytes - c.len = Pool.sumLen (filledOf p1.segs) := by
      rw [hf1]
      rw [hmid] at hbytes
      rw [sumLen_append, sumLen_cons] at hbytes
      rw [sumLen_append]
      omega
    have hrest : ∀ c' ∈ rest, c' ∈ p1.segs ∧ c'.empty = false := by
      intro c' hc'
      obtain ⟨hc'mem, hc'fill⟩ := hcs c' (by simp [hc'])
      have hne : c' ≠ c := by
        have := (List.pairwise_cons.mp hnd).1 c' hc'
        exact fun h => this h.symm
      refine ⟨?_, hc'fill⟩
      have hc'f : c' ∈ filledOf p.segs := mem_filledOf hc'mem hc'fill
      have : c' ∈ filledOf p1.segs := by
        rw [hf1']
        rw [List.mem_filter]
        exact ⟨hc'f, by simp [hne]⟩
      exact mem_of_mem_filledOf this
    obtain ⟨p', hloop, hWF', hro', hwo', hcs', hck', hfilt'⟩ :=
      ih p1 (bytes - c.len) hWF1 hrest (List.pairwise_cons.mp hnd).2
        (by rw [hcs1, hcz]) hsumrec
    refine ⟨p', hloop, hWF', by rw [hro', hro1], by rw [hwo', hwo1],
      by rw [hcs', hcs1], by rw [hck', hck1], ?_⟩
    rw [hfilt', hf1', List.filter_filter]
    apply List.filter_congr
    intro g _
    by_cases h1 : g = c <;> by_cases h2 : g ∈ rest <;> simp [h1, h2]

/-- `gc` never throws on a well-formed pool, and preserves
well-formedness, the offsets, the cap and the clock. -/
theorem gc_wf {p : Pool} (hWF : WF p) :
    ∃ p', p.gc = some p' ∧ WF p' ∧
      p'.readOffset = p.readOffset ∧ p'.writeOffset = p.writeOffset ∧
      p'.cacheSize = p.cacheSize ∧ p'.clock = p.clock := by
  unfold Pool.gc
  by_cases hif : p.cacheSize <
      (p.segs.filter (fun g => !g.empty)).foldr (fun g acc => g.len + acc) 0
  · rw [if_pos hif]
    set cands := p.segs.filter
      (fun g => !g.empty && decide (g.stop < p.readOffset)) with hcands
    have hperm := sortTs_perm cands
    apply gcLoop_wf
    · exact hWF
    · intro c' hc'
      have hc'c : c' ∈ cands := hperm.mem_iff.mp hc'
      rw [hcands, List.mem_filter] at hc'c
      refine ⟨hc'c.1, ?_⟩
      have := hc'c.2
      simp only [Bool.and_eq_true, Bool.not_eq_true'] at this
      exact this.1
    · have hnd : cands.Nodup := by
        rw [hcands]
        exact (WFs_nodup hWF.segs).filter _
      exact (hperm.nodup_iff.mpr hnd)
  · rw [if_neg hif]
    exact ⟨p, rfl, hWF, rfl, rfl, rfl, rfl⟩

/-- `gc` on a pool with no eviction candidates is the identity. -/
theorem gc_no_candidates {p : Pool}
    (h : p.segs.filter (fun g => !g.empty && decide (g.stop < p.readOffset))
      = []) : p.gc = some p := by
  unfold Pool.gc
  rw [h]
  by_cases hif : p.cacheSize <
      (p.segs.filter (fun g => !g.empty)).foldr (fun g acc => g.len + acc) 0
  · rw [if_pos hif]
    rfl
  · rw [if_neg hif]

/-- With `cacheSize = 0` `gc` evicts exactly the candidates: the
surviving filled segments are those not entirely before the read
head. -/
theorem gc_zero {p : Pool} (hWF : WF p) (hcz : p.cacheSize = 0) :
    ∃ p', p.gc = some p' ∧ WF p' ∧
      p'.readOffset = p.readOffset ∧ p'.writeOffset = p.writeOffset ∧
      p'.cacheSize = p.cacheSize ∧ p'.clock = p.clock ∧
      filledOf p'.segs = (filledOf p.segs).filter
        (fun g => !decide (g.stop < p.readOffset)) := by
  unfold Pool.gc
  by_cases hif : p.cacheSize <
      (p.segs.filter (fun g => !g.empty)).foldr (fun g acc => g.len + acc) 0
  · rw [if_pos hif]
    set cands := p.segs.filter
      (fun g => !g.empty && decide (g.stop < p.readOffset)) with hcands
    have hperm := sortTs_perm cands
    have hmem : ∀ c' ∈ Pool.sortTs cands, c' ∈ p.segs ∧ c'.empty = false := by
      intro c' hc'
      have hc'c : c' ∈ cands := hperm.mem_iff.mp hc'
      rw [hcands, List.mem_filter] at hc'c
      refine ⟨hc'c.1, ?_⟩
      have := hc'c.2
      simp only [Bool.and_eq_true, Bool.not_eq_true'] at this
      exact this.1
    have hnd : (Pool.sortTs cands).Pairwise (· ≠ ·) := by
      apply hperm.nodup_iff.mpr
      rw [hcands]
      exact (WFs_nodup hWF.segs).filter _
    obtain ⟨p', hloop, hWF', hro', hwo', hcs', hck', hfilt'⟩ :=
      gcLoop_zero (Pool.sortTs cands) p _ hWF hmem hnd hcz rfl
    refine ⟨p', hloop, hWF', hro', hwo', hcs', hck', ?_⟩
    rw [hfilt']
    apply List.filter_congr
    intro g hg
    have hgmem : g ∈ p.segs := mem_of_mem_filledOf hg
    have hgfill : g.empty = false := filled_of_mem_filledOf hg
    have hiff : g ∈ Pool.sortTs cands ↔ g.stop < p.readOffset := by
      rw [hperm.mem_iff, hcands, List.mem_filter]
      simp [hgmem, hgfill]
    by_cases hlt : g.stop < p.readOffset
    · simp [hiff, hlt]
    · simp [hiff, hlt]
  · rw [if_neg hif]
    refine ⟨p, rfl, hWF, rfl, rfl, rfl, rfl, ?_⟩
    have hzero : Pool.sumLen (filledOf p.segs) = 0 := by
      rw [hcz] at hif
      unfold Pool.sumLen filledOf
      omega
    have hnil : filledOf p.segs = [] := by
      cases hF : filledOf p.segs with
      | nil => rfl
      | cons x xs =>
        exfalso
        have hx : x ∈ filledOf p.segs := by rw [hF]; simp
        have := filled_len_pos hWF.segs hx
        have := sumLen_le_of_mem hx
        omega
    rw [hnil]
    rfl

theorem Seg.splitRight_start {g : Seg} {off : Nat} :
    (g.splitRight off).start = off := by
  cases g <;> simp [Seg.splitRight]

theorem Seg.splitRight_empty {g : Seg} {off : Nat} :
    (g.splitRight off).empty = true := by
  cases g <;> simp [Seg.splitRight, Seg.empty]

theorem Seg.splitRight_eof {g : Seg} {off : Nat} :
    (g.splitRight off).eof = g.eof := by
  cases g <;> simp [Seg.splitRight, Seg.eof]

theorem Seg.splitRight_stop {g : Seg} {off : Nat} (h : g.eof = false) :
    (g.splitRight off).stop = g.stop := by
  cases g <;> simp_all [Seg.splitRight, Seg.eof]

/-- The headline characterisation of a successful `write` of a byte
buffer: the cursor segment is carved into an optional left empty, the
new filled item, and an optional right remainder, the write head
advances to the span end, and the state before `gc` is well-formed. -/
theorem write_eq {p : Pool} {A B : List Seg} {c : Seg} {bs : List Nat}
    (hWF : WF p) (hsegs : p.segs = A ++ c :: B)
    (hwcA : p.writeCursor = some A.length) (hbs : bs ≠ [])
    (hemp : c.empty = true)
    (hfit : p.writeOffset + bs.length ≤ c.stop ∨ c.eof = true) :
    ∃ p4,
      p.write (.bytes bs) =
        (match p4.gc with
         | none => WriteResult.err WErr.spliceFail p4
         | some p5 => WriteResult.ok p5) ∧
      p4.segs = A ++
        ((if c.start < p.writeOffset then [Seg.emp c.start p.writeOffset]
          else []) ++
         Seg.filled p.writeOffset bs p.clock ::
         ((if c.eof = true then
             [Seg.eofSeg (p.writeOffset + bs.length)]
           else if p.writeOffset + bs.length < c.stop then
             [Seg.emp (p.writeOffset + bs.length) c.stop]
           else []) ++ B)) ∧
      p4.readOffset = p.readOffset ∧
      p4.writeOffset = p.writeOffset + bs.length ∧
      p4.cacheSize = p.cacheSize ∧
      p4.clock = p.clock + 1 ∧
      WF p4 := by
  set w := p.writeOffset with hw
  have hn : 0 < bs.length := by
    cases bs with
    | nil => exact absurd rfl hbs
    | cons _ _ => simp
  have hWFs' : WFs (A ++ c :: B) := hsegs ▸ hWF.segs
  have hc0get : p.segs[A.length]? = some c := by
    rw [hsegs]; exact getElem?_append_cons A c B
  have hcontw : c.contains w = true := by
    have hfi : firstIdx p.segs w = some A.length := by
      rw [← hWF.wc, hwcA]
    obtain ⟨hlt, hcon⟩ := firstIdx_mem hfi
    have : p.segs.get ⟨A.length, hlt⟩ = c := by
      have := List.getElem?_eq_getElem (l := p.segs) (n := A.length) hlt
      rw [this] at hc0get
      simpa using hc0get
    rw [← this]
    exact hcon
  have hcstart : c.start ≤ w := (Seg.contains_iff.mp hcontw).1
  have hcwlt : c.eof = false → w < c.stop := by
    intro heof
    rcases (Seg.contains_iff.mp hcontw).2 with h | h
    · exact h
    · rw [heof] at h; exact absurd h (by simp)
  have hcont2 : c.contains (w + bs.length) = true ∨ c.stop = w + bs.length := by
    rcases hfit with h | h
    · rcases Nat.lt_or_ge (w + bs.length) c.stop with hlt | hge
      · left; rw [Seg.contains_iff]; exact ⟨by omega, Or.inl hlt⟩
      · right; omega
    · left; rw [Seg.contains_iff]; exact ⟨by omega, Or.inr h⟩
  unfold Pool.write
  have hbuf : p.bufferItem (WInput.bytes bs) =
      some (Seg.filled w bs p.clock) := rfl
  rw [hbuf]
  dsimp only
  rw [hwcA]
  dsimp only
  rw [hc0get]
  dsimp only
  rw [if_neg (by simp [hemp])]
  rw [if_neg (by
    simp only [Seg.stop_filled]
    rcases hcont2 with h | h
    · simp [h]
    · simp [h])]
  simp only [Seg.start_filled]
  by_cases hs1 : c.start < w
  · -- first split carves the left empty
    rw [if_pos hs1]
    have hsplitc : c.split w = some (Seg.emp c.start w, c.splitRight w) := by
      unfold Seg.split
      rw [if_pos (by simp [hemp, hcontw])]
    have hspq := split_eq (p := p) (A := A) (B := B) hsegs hsplitc
    rw [hspq]
    dsimp only
    set segs1 := A ++ Seg.emp c.start w :: c.splitRight w :: B with hsegs1
    have hWFs1 : WFs segs1 := by
      have h1 : WFs (A ++ [c] ++ B) := by simpa using hWFs'
      have h2 : WFs (A ++ [Seg.emp c.start w, c.splitRight w] ++ B) := by
        refine WFs_replace (M := [c]) h1 (by simp) (by simp) ?_ ?_ ?_ ?_ ?_
        · constructor
          · exact ⟨by simp [Seg.splitRight_start], by simp⟩
          · simp
        · intro g hg hge
          simp only [List.mem_cons, List.mem_singleton] at hg
          rcases hg with hg | hg | hg
          · subst hg; simpa using hs1
          · subst hg
            rw [Seg.splitRight_eof] at hge
            rw [Seg.splitRight_start, Seg.splitRight_stop hge]
            exact hcwlt hge
          · simp at hg
        · intro gX hgX gM hgM
          simp only [List.head?_cons, Option.mem_def, Option.some.injEq]
            at hgX
          simp only [List.head?_singleton, Option.mem_def, Option.some.injEq]
            at hgM
          subst hgX; subst hgM
          simp
        · intro gX hgX gB hgB
          simp only [List.getLast?_cons_cons, List.getLast?_singleton,
            Option.mem_def, Option.some.injEq] at hgX
          subst hgX
          have hadj := WFs_cons_adj hWFs' gB hgB
          rw [Seg.splitRight_eof]
          rw [Seg.splitRight_stop hadj.2]
          exact hadj
        · intro hB gX hgX
          simp only [List.getLast?_cons_cons, List.getLast?_singleton,
            Option.mem_def, Option.some.injEq] at hgX
          subst hgX
          rw [Seg.splitRight_eof]
          subst hB
          exact hWFs'.last c (by simp)
      simpa [hsegs1] using h2
    have hwc1 : firstIdx segs1 p.writeOffset = some (A.length + 1) := by
      rw [← hw]
      apply firstIdx_of_getElem? hWFs1
      · rw [hsegs1]
        rw [show A ++ Seg.emp c.start w :: c.splitRight w :: B =
          (A ++ [Seg.emp c.start w]) ++ c.splitRight w :: B by simp]
        have := getElem?_append_cons (A ++ [Seg.emp c.start w])
          (c.splitRight w) B
        simpa using this
      · rw [Seg.contains_iff, Seg.splitRight_start]
        refine ⟨Nat.le_refl w, ?_⟩
        by_cases heof : c.eof = true
        · right; rw [Seg.splitRight_eof]; exact heof
        · left
          rw [Seg.splitRight_stop (by simpa using heof)]
          exact hcwlt (by simpa using heof)
    obtain ⟨p4, heq, hsegs4, hro4, hwo4, hcs4, hck4, hwc4, hWF4⟩ :=
      @writeSnd_eq
        { segs := segs1, readOffset := p.readOffset,
          readCursor := firstIdx segs1 p.readOffset,
          writeOffset := p.writeOffset,
          writeCursor := firstIdx segs1 p.writeOffset,
          cacheSize := p.cacheSize, clock := p.clock }
        (A ++ [Seg.emp c.start w]) B (c.splitRight w) w bs p.clock
        hWFs1 (by simp [hsegs1]) (by simpa using hwc1) rfl hw.symm hbs
        Seg.splitRight_start Seg.splitRight_empty
        (by by_cases heof : c.eof = true
            · right; rw [Seg.splitRight_eof]; exact heof
            · left
              rw [Seg.splitRight_stop (by simpa using heof)]
              rcases hfit with h | h
              · exact h
              · exact absurd h heof)
    refine ⟨p4, heq, ?_, by simpa using hro4, by simpa using hwo4,
      by simpa using hcs4, by simpa using hck4, hWF4⟩
    rw [hsegs4]
    rw [if_pos hs1]
    by_cases heof : c.eof = true
    · simp [Seg.splitRight_eof, heof]
    · have hsr := @Seg.splitRight_stop c w (by simpa using heof)
      simp [Seg.splitRight_eof, heof, hsr]
  · -- the cursor already starts at the write offset
    rw [if_neg hs1]
    have hst : c.start = w := by omega
    obtain ⟨p4, heq, hsegs4, hro4, hwo4, hcs4, hck4, hwc4, hWF4⟩ :=
      @writeSnd_eq p A B c w bs p.clock
        hWF.segs hsegs hwcA hWF.rc hw.symm hbs hst hemp hfit
    refine ⟨p4, heq, ?_, hro4, hwo4, hcs4, hck4, hWF4⟩
    rw [hsegs4, if_neg hs1]
    simp

/-! ## Write guards, error frames and preservation -/

/-- Decompose the segment list at the write cursor of a well-formed
pool. -/
theorem cursor_decomp {p : Pool} {ci : Nat} (hWF : WF p)
    (hwc : p.writeCursor = some ci) :
    ∃ A c B, p.segs = A ++ c :: B ∧ A.length = ci ∧
      c.contains p.writeOffset = true ∧ p.segs[ci]? = some c := by
  have hfi : firstIdx p.segs p.writeOffset = some ci := by
    rw [← hWF.wc, hwc]
  obtain ⟨hlt, hcon⟩ := firstIdx_mem hfi
  refine ⟨p.segs.take ci, p.segs.get ⟨ci, hlt⟩, p.segs.drop (ci + 1),
    ?_, by simp [List.length_take]; omega, hcon, ?_⟩
  · conv_lhs => rw [← List.take_append_drop ci p.segs]
    rw [List.drop_eq_getElem_cons hlt]
    simp
  · rw [List.getElem?_eq_getElem hlt]
    simp

/-- `write` of a byte buffer throws `write cursor not empty` when the
cursor segment is filled; the state is untouched. -/
theorem write_err_of_not_empty {p : Pool} {bs : List Nat} {ci : Nat}
    {c : Seg} (hwc : p.writeCursor = some ci) (hc : p.segs[ci]? = some c)
    (hemp : c.empty = false) :
    p.write (.bytes bs) = .err .notEmptyCursor p := by
  unfold Pool.write
  rw [show p.bufferItem (.bytes bs) =
    some (.filled p.writeOffset bs p.clock) from rfl]
  dsimp only
  rw [hwc]
  dsimp only
  rw [hc]
  dsimp only
  rw [if_pos (by simp [hemp])]

/-- `write` of a byte buffer throws `write cursor too small` when the
span overruns the (non-EOF) cursor segment; the state is untouched. -/
theorem write_err_of_not_fit {p : Pool} {bs : List Nat} {ci : Nat}
    {c : Seg} (hwc : p.writeCursor = some ci) (hc : p.segs[ci]? = some c)
    (hemp : c.empty = true) (heof : c.eof = false)
    (hlt : c.stop < p.writeOffset + bs.length) :
    p.write (.bytes bs) = .err .tooSmall p := by
  have hcf : c.contains (p.writeOffset + bs.length) = false := by
    rw [Bool.eq_false_iff]
    intro hcon
    rcases (Seg.contains_iff.mp hcon).2 with h | h
    · omega
    · rw [heof] at h
      exact absurd h (by simp)
  unfold Pool.write
  rw [show p.bufferItem (.bytes bs) =
    some (.filled p.writeOffset bs p.clock) from rfl]
  dsimp only
  rw [hwc]
  dsimp only
  rw [hc]
  dsimp only
  rw [if_neg (by simp [hemp])]
  rw [if_pos (by
    simp only [Seg.stop_filled, Bool.and_eq_true, Bool.not_eq_true',
      decide_eq_true_eq]
    exact ⟨hcf, by omega⟩)]

/-- The throws reachable from `writeInstall`. -/
theorem writeInstall_err_kinds {p2 : Pool} {item : Seg} {e : WErr}
    {q : Pool} (h : p2.writeInstall item = .err e q) :
    e = .cursorNull ∨ e = .spliceFail := by
  unfold Pool.writeInstall at h
  repeat' first
    | split at h
    | dsimp only at h
  all_goals first
    | (simp only [WriteResult.err.injEq] at h
       first
        | exact Or.inl h.1.symm
        | exact Or.inr h.1.symm)
    | exact absurd h (by simp)

/-- The throws reachable from `writeSnd`. -/
theorem writeSnd_err_kinds {p1 : Pool} {item : Seg} {e : WErr} {q : Pool}
    (h : p1.writeSnd item = .err e q) :
    e = .cursorNull ∨ e = .splitFail ∨ e = .spliceFail := by
  unfold Pool.writeSnd at h
  repeat' first
    | split at h
    | dsimp only at h
  all_goals first
    | (simp only [WriteResult.err.injEq] at h
       first
        | exact Or.inl h.1.symm
        | exact Or.inr (Or.inl h.1.symm))
    | (rcases writeInstall_err_kinds h with rfl | rfl <;> simp)

/-- The three guards of `write` (`invalid input to write`,
`write cursor not empty`, `write cursor too small`) throw before any
mutation: the state at the throw is the initial pool. -/
theorem write_guard_frame {p : Pool} {inp : WInput} {e : WErr} {q : Pool}
    (h : p.write inp = .err e q)
    (he : e = .badInput ∨ e = .notEmptyCursor ∨ e = .tooSmall) : q = p := by
  unfold Pool.write at h
  repeat' first
    | split at h
    | dsimp only at h
  all_goals first
    | (simp only [WriteResult.err.injEq] at h
       exact h.2.symm)
    | (rcases writeSnd_err_kinds h with rfl | rfl | rfl <;>
        rcases he with h' | h' | h' <;> cases h')

/-- A successful byte-buffer `write` preserves well-formedness and the
read side. -/
theorem write_ok_wf {p q : Pool} {bs : List Nat} (hWF : WF p)
    (hbs : bs ≠ []) (hok : p.write (.bytes bs) = .ok q) :
    WF q ∧ q.readOffset = p.readOffset ∧ q.cacheSize = p.cacheSize := by
  obtain ⟨i, hi, hfi, hconi⟩ := hWF.segs.firstIdx_spec p.writeOffset
  have hwc : p.writeCursor = some i := by rw [hWF.wc, hfi]
  obtain ⟨A, c, B, hsegs, hAlen, hcon, hget⟩ := cursor_decomp hWF hwc
  by_cases hemp : c.empty = true
  · by_cases hfit : p.writeOffset + bs.length ≤ c.stop ∨ c.eof = true
    · obtain ⟨p4, heq, hsegs4, hro4, hwo4, hcs4, hck4, hWF4⟩ :=
        write_eq hWF hsegs (by rw [hwc, hAlen]) hbs hemp hfit
      obtain ⟨p5, hgc, hWF5, hro5, hwo5, hcs5, hck5⟩ := gc_wf hWF4
      rw [hgc] at heq
      rw [heq] at hok
      dsimp only at hok
      cases hok
      exact ⟨hWF5, by rw [hro5, hro4], by rw [hcs5, hcs4]⟩
    · push_neg at hfit
      rw [write_err_of_not_fit hwc hget hemp
        (by simpa using hfit.2) (by omega)] at hok
      cases hok
  · rw [write_err_of_not_empty hwc hget (by simpa using hemp)] at hok
    cases hok

/-- `seekRead` on a well-formed pool succeeds, preserves everything but
the read side, and stays well-formed. -/
theorem seekRead_wf {p : Pool} (hWF : WF p) (o : Nat) :
    ∃ q, p.seekRead o = some q ∧ WF q ∧ q.segs = p.segs ∧
      q.readOffset = o ∧ q.writeOffset = p.writeOffset ∧
      q.writeCursor = p.writeCursor ∧ q.cacheSize = p.cacheSize ∧
      q.clock = p.clock := by
  obtain ⟨i, hi, hfi, hcon⟩ := hWF.segs.firstIdx_spec o
  refine ⟨{ p with readOffset := o, readCursor := some i },
    ?_, ⟨hWF.segs, by simpa using hfi.symm, hWF.wc⟩,
    rfl, rfl, rfl, rfl, rfl, rfl⟩
  unfold Pool.seekRead
  rw [hfi]
  rfl

/-- `seekWrite` on a well-formed pool succeeds, preserves everything but
the write side, and stays well-formed. -/
theorem seekWrite_wf {p : Pool} (hWF : WF p) (o : Nat) :
    ∃ q, p.seekWrite o = some q ∧ WF q ∧ q.segs = p.segs ∧
      q.writeOffset = o ∧ q.readOffset = p.readOffset ∧
      q.readCursor = p.readCursor ∧ q.cacheSize = p.cacheSize ∧
      q.clock = p.clock := by
  obtain ⟨i, hi, hfi, hcon⟩ := hWF.segs.firstIdx_spec o
  refine ⟨{ p with writeOffset := o, writeCursor := some i },
    ?_, ⟨hWF.segs, hWF.rc, by simpa using hfi.symm⟩,
    rfl, rfl, rfl, rfl, rfl, rfl⟩
  unfold Pool.seekWrite
  rw [hfi]
  rfl

/-- Every valid operation preserves well-formedness. -/
theorem applyOp_wf {p q : Pool} {op : Op} (hWF : WF p) (hv : opValid op)
    (h : applyOp p op = some q) : WF q := by
  cases op with
  | seekR o =>
    obtain ⟨q', hq', hWF', _⟩ := seekRead_wf hWF o
    rw [show applyOp p (.seekR o) = p.seekRead o from rfl, hq'] at h
    cases h
    exact hWF'
  | seekW o =>
    obtain ⟨q', hq', hWF', _⟩ := seekWrite_wf hWF o
    rw [show applyOp p (.seekW o) = p.seekWrite o from rfl, hq'] at h
    cases h
    exact hWF'
  | writeB bs =>
    have hbs : bs ≠ [] := hv
    unfold applyOp at h
    dsimp only at h
    cases hw : p.write (.bytes bs) with
    | ok q2 =>
      rw [hw] at h
      dsimp only at h
      cases h
      exact (write_ok_wf hWF hbs hw).1
    | err e st =>
      rw [hw] at h
      exact absurd h (by simp)

/-- Valid operation sequences preserve well-formedness. -/
theorem runOps_wf : ∀ (ops : List Op) (p q : Pool), WF p →
    (∀ op ∈ ops, opValid op) → runOps p ops = some q → WF q := by
  intro ops
  induction ops with
  | nil =>
    intro p q hWF _ h
    unfold runOps at h
    cases h
    exact hWF
  | cons op rest ih =>
    intro p q hWF hv h
    unfold runOps at h
    cases ha : applyOp p op with
    | none =>
      rw [ha] at h
      exact absurd h (by simp)
    | some r =>
      rw [ha] at h
      simp only [Option.some_bind] at h
      exact ih r q (applyOp_wf hWF (hv op (by simp)) ha)
        (fun o ho => hv o (by simp [ho])) h

/-- Every reachable pool is well-formed. -/
theorem Reach_wf {p : Pool} (h : Reach p) : WF p := by
  obtain ⟨cs, ops, hv, hrun⟩ := h
  have hWF0 : WF (Pool.fresh cs) := by
    refine ⟨⟨by simp [Pool.fresh], ?_, ?_, ?_, ?_⟩, rfl, rfl⟩
    · intro g hg
      simp only [Pool.fresh, List.head?_cons, Option.mem_def,
        Option.some.injEq] at hg
      subst hg
      rfl
    · simp [Pool.fresh]
    · intro g hg
      simp only [Pool.fresh, List.getLast?_singleton, Option.mem_def,
        Option.some.injEq] at hg
      subst hg
      rfl
    · intro g hg hge
      simp only [Pool.fresh, List.mem_singleton] at hg
      subst hg
      exact absurd hge (by simp)
  exact runOps_wf ops (Pool.fresh cs) p hWF0 hv hrun

/-- Writing a byte buffer at the EOF terminator of a well-formed pool
whose read head is at 0 appends a filled segment and moves the EOF. -/
theorem write_append {p : Pool} {F : List Seg} {e : Nat} {bs : List Nat}
    (hWF : WF p) (hsegs : p.segs = F ++ [Seg.eofSeg e])
    (hwo : p.writeOffset = e) (hro : p.readOffset = 0) (hbs : bs ≠ []) :
    ∃ q, p.write (.bytes bs) = .ok q ∧
      q.segs = F ++ [Seg.filled e bs p.clock, Seg.eofSeg (e + bs.length)] ∧
      q.readOffset = 0 ∧ q.writeOffset = e + bs.length ∧
      q.readCursor = firstIdx q.segs 0 ∧
      q.writeCursor = firstIdx q.segs (e + bs.length) ∧
      q.cacheSize = p.cacheSize ∧ q.clock = p.clock + 1 ∧ WF q := by
  have hsegs' : p.segs = F ++ Seg.eofSeg e :: [] := by simpa using hsegs
  have hget : p.segs[F.length]? = some (Seg.eofSeg e) := by
    rw [hsegs']
    exact getElem?_append_cons F (Seg.eofSeg e) []
  have hwcF : p.writeCursor = some F.length := by
    rw [hWF.wc, hwo]
    exact firstIdx_of_getElem? hWF.segs hget (by simp [Seg.contains])
  obtain ⟨p4, heq, hsegs4, hro4, hwo4, hcs4, hck4, hWF4⟩ :=
    write_eq (c := Seg.eofSeg e) hWF hsegs' hwcF hbs rfl (Or.inr rfl)
  have hsegs4' :
      p4.segs = F ++ [Seg.filled e bs p.clock,
        Seg.eofSeg (e + bs.length)] := by
    rw [hsegs4, hwo]
    simp
  have hgc : p4.gc = some p4 := by
    apply gc_no_candidates
    rw [List.filter_eq_nil_iff]
    intro g hg
    rw [hro4, hro]
    simp
  rw [hgc] at heq
  dsimp only at heq
  refine ⟨p4, heq, hsegs4', by rw [hro4, hro], by rw [hwo4, hwo],
    ?_, ?_, hcs4, hck4, hWF4⟩
  · rw [hWF4.rc, hro4, hro]
  · rw [hWF4.wc, hwo4, hwo]

/-- Non-dependent unfolding of the `readBytes` copy loop. -/
theorem readLoop_eq (segs : List Seg) (i endPos readHead clk : Nat) :
    readLoop segs i endPos readHead clk =
      match segs[i]? with
      | none => ([], readHead, segs)
      | some g =>
        if g.empty then ([], readHead, segs)
        else if endPos ≤ g.start then ([], readHead, segs)
        else
          ((g.readSlice readHead (min endPos g.stop)) ++
            (readLoop (segs.set i (g.setTs clk)) (i + 1) endPos
              (min endPos g.stop) clk).1,
           (readLoop (segs.set i (g.setTs clk)) (i + 1) endPos
              (min endPos g.stop) clk).2.1,
           (readLoop (segs.set i (g.setTs clk)) (i + 1) endPos
              (min endPos g.stop) clk).2.2) := by
  rw [readLoop]
  split
  next hseg =>
    rw [hseg]
  next g hseg =>
    rw [hseg]

/-- The copy loop over two filled segments followed by EOF reads the
two payloads back to back. -/
theorem readLoop_two (b1 b2 : List Nat) (t1 t2 clk : Nat)
    (h1 : b1 ≠ []) (h2 : b2 ≠ []) :
    readLoop [Seg.filled 0 b1 t1, Seg.filled b1.length b2 t2,
              Seg.eofSeg (b1.length + b2.length)] 0
      (b1.length + b2.length) 0 clk =
    (b1 ++ b2, b1.length + b2.length,
     [Seg.filled 0 b1 clk, Seg.filled b1.length b2 clk,
      Seg.eofSeg (b1.length + b2.length)]) := by
  have hn1 : 0 < b1.length := List.length_pos.mpr h1
  have hn2 : 0 < b2.length := List.length_pos.mpr h2
  have hstep3 : ∀ rh, readLoop [Seg.filled 0 b1 clk,
      Seg.filled b1.length b2 clk,
      Seg.eofSeg (b1.length + b2.length)] 2 (b1.length + b2.length) rh clk =
      ([], rh, [Seg.filled 0 b1 clk, Seg.filled b1.length b2 clk,
        Seg.eofSeg (b1.length + b2.length)]) := by
    intro rh
    rw [readLoop_eq]
    simp
  have hstep2 : readLoop [Seg.filled 0 b1 clk, Seg.filled b1.length b2 t2,
      Seg.eofSeg (b1.length + b2.length)] 1 (b1.length + b2.length)
      b1.length clk =
      (b2, b1.length + b2.length, [Seg.filled 0 b1 clk,
        Seg.filled b1.length b2 clk,
        Seg.eofSeg (b1.length + b2.length)]) := by
    rw [readLoop_eq]
    simp only [List.getElem?_cons_succ, List.getElem?_cons_zero]
    rw [if_neg (by simp)]
    rw [if_neg (by simp only [Seg.start_filled]; omega)]
    rw [show min (b1.length + b2.length) (Seg.filled b1.length b2 t2).stop =
      b1.length + b2.length from by simp]
    rw [show ([Seg.filled 0 b1 clk, Seg.filled b1.length b2 t2,
      Seg.eofSeg (b1.length + b2.length)].set 1
        ((Seg.filled b1.length b2 t2).setTs clk)) =
      [Seg.filled 0 b1 clk, Seg.filled b1.length b2 clk,
        Seg.eofSeg (b1.length + b2.length)] from by simp [Seg.setTs]]
    rw [hstep3]
    simp [Seg.readSlice, Seg.bytes]
  rw [readLoop_eq]
  simp only [List.getElem?_cons_zero]
  rw [if_neg (by simp)]
  rw [if_neg (by simp only [Seg.start_filled]; omega)]
  rw [show min (b1.length + b2.length) (Seg.filled 0 b1 t1).stop =
    b1.length from by simp]
  rw [show ([Seg.filled 0 b1 t1, Seg.filled b1.length b2 t2,
    Seg.eofSeg (b1.length + b2.length)].set 0
      ((Seg.filled 0 b1 t1).setTs clk)) =
    [Seg.filled 0 b1 clk, Seg.filled b1.length b2 t2,
      Seg.eofSeg (b1.length + b2.length)] from by simp [Seg.setTs]]
  rw [hstep2]
  simp [Seg.readSlice, Seg.bytes]

/-- The copy loop over one filled segment whose successor is empty
stops after the first payload. -/
theorem readLoop_one (b1 : List Nat) (t1 : Nat) (g2 : Seg) (L : List Seg)
    (clk : Nat) (h1 : b1 ≠ []) (hemp : g2.empty = true) :
    readLoop (Seg.filled 0 b1 t1 :: g2 :: L) 0 b1.length 0 clk =
    (b1, b1.length, Seg.filled 0 b1 clk :: g2 :: L) := by
  have hn1 : 0 < b1.length := List.length_pos.mpr h1
  have hstep2 : readLoop (Seg.filled 0 b1 clk :: g2 :: L) 1 b1.length
      b1.length clk = ([], b1.length, Seg.filled 0 b1 clk :: g2 :: L) := by
    rw [readLoop_eq]
    simp [hemp]
  rw [readLoop_eq]
  simp only [List.getElem?_cons_zero]
  rw [if_neg (by simp)]
  rw [if_neg (by simp only [Seg.start_filled]; omega)]
  rw [show min b1.length (Seg.filled 0 b1 t1).stop = b1.length from by simp]
  rw [show ((Seg.filled 0 b1 t1 :: g2 :: L).set 0
      ((Seg.filled 0 b1 t1).setTs clk)) =
    Seg.filled 0 b1 clk :: g2 :: L from by simp [Seg.setTs]]
  rw [hstep2]
  simp [Seg.readSlice, Seg.bytes]

/-- Characterisation of `bytesReadable` with a finite bound and a
non-null cursor. -/
theorem bytesReadable_eq {p : Pool} {ci : Nat} (hrc : p.readCursor = some ci)
    (m : Int) :
    p.bytesReadable (some m) =
      match (List.takeWhile
          (fun g => !g.empty &&
            decide ((g.start : Int) ≤ (p.readOffset : Int) + m))
          (p.segs.drop ci)).getLast? with
      | none => some 0
      | some lastg =>
        some (min m ((lastg.stop : Int) - (p.readOffset : Int))) := by
  unfold Pool.bytesReadable
  rw [hrc]

/-- `bytesReadable` over two filled segments followed by EOF, from
offset 0, with the request equal to the total payload. -/
theorem bytesReadable_two (b1 b2 : List Nat) (t1 t2 : Nat) {p : Pool}
    (hsegs : p.segs = [Seg.filled 0 b1 t1, Seg.filled b1.length b2 t2,
      Seg.eofSeg (b1.length + b2.length)])
    (hro : p.readOffset = 0) (hrc : p.readCursor = some 0) :
    p.bytesReadable (some ((b1.length + b2.length : Nat) : Int)) =
      some ((b1.length + b2.length : Nat) : Int) := by
  rw [bytesReadable_eq hrc]
  rw [hsegs, hro, List.drop_zero]
  rw [List.takeWhile_cons, if_pos (by
    simp only [Seg.empty_filled, Seg.start_filled, Bool.not_false,
      Bool.true_and, decide_eq_true_eq]
    push_cast
    omega)]
  rw [List.takeWhile_cons, if_pos (by
    simp only [Seg.empty_filled, Seg.start_filled, Bool.not_false,
      Bool.true_and, decide_eq_true_eq]
    push_cast
    omega)]
  rw [List.takeWhile_cons, if_neg (by simp)]
  rw [List.getLast?_cons_cons, List.getLast?_singleton]
  show some (min ((b1.length + b2.length : Nat) : Int)
      (((Seg.filled b1.length b2 t2).stop : Int) - ((0 : Nat) : Int))) =
    some ((b1.length + b2.length : Nat) : Int)
  rw [Seg.stop_filled]
  congr 1
  push_cast
  omega

/-- `bytesReadable` over one filled segment followed by an empty one,
from offset 0, with the request equal to the payload length. -/
theorem bytesReadable_one (b1 : List Nat) (t1 : Nat) (g2 : Seg)
    (L : List Seg) {p : Pool}
    (hsegs : p.segs = Seg.filled 0 b1 t1 :: g2 :: L)
    (hemp : g2.empty = true)
    (hro : p.readOffset = 0) (hrc : p.readCursor = some 0) :
    p.bytesReadable (some ((b1.length : Nat) : Int)) =
      some ((b1.length : Nat) : Int) := by
  rw [bytesReadable_eq hrc]
  rw [hsegs, hro, List.drop_zero]
  rw [List.takeWhile_cons, if_pos (by
    simp only [Seg.empty_filled, Seg.start_filled, Bool.not_false,
      Bool.true_and, decide_eq_true_eq]
    push_cast
    omega)]
  rw [List.takeWhile_cons, if_neg (by simp [hemp])]
  rw [List.getLast?_singleton]
  show some (min ((b1.length : Nat) : Int)
      (((Seg.filled 0 b1 t1).stop : Int) - ((0 : Nat) : Int))) =
    some ((b1.length : Nat) : Int)
  rw [Seg.stop_filled]
  congr 1
  push_cast
  omega

/-- `readBytes` in terms of the copy loop, once `bytesReadable` is
known. -/
theorem readBytes_compute {p : Pool} {ci : Nat} {destLen : Nat} {lenI : Int}
    (hrc : p.readCursor = some ci)
    (hbr : p.bytesReadable (some (destLen : Int)) = some lenI) :
    p.readBytes destLen =
      some (lenI.toNat,
        (readLoop p.segs ci (p.readOffset + lenI.toNat) p.readOffset
          p.clock).1 ++
          List.replicate (destLen -
            (readLoop p.segs ci (p.readOffset + lenI.toNat) p.readOffset
              p.clock).1.length) 0,
        { p with
            segs := (readLoop p.segs ci (p.readOffset + lenI.toNat)
              p.readOffset p.clock).2.2,
            readOffset := (readLoop p.segs ci (p.readOffset + lenI.toNat)
              p.readOffset p.clock).2.1,
            readCursor := firstIdxFrom
              ((readLoop p.segs ci (p.readOffset + lenI.toNat) p.readOffset
                p.clock).2.2) ci
              ((readLoop p.segs ci (p.readOffset + lenI.toNat) p.readOffset
                p.clock).2.1),
            clock := p.clock + 1 }) := by
  unfold Pool.readBytes
  rw [hrc, hbr]

/-- The C1 pipeline on nonempty buffers: the two writes append, the
seek returns to 0, and the read hands back the concatenation. -/
theorem c1_core (b1 b2 : List Nat) (h1 : b1 ≠ []) (h2 : b2 ≠ []) :
    c1Run b1 b2 = some (b1 ++ b2, b1.length + b2.length) := by
  have hWF0 : WF (Pool.fresh 0) := by decide
  obtain ⟨p1, hw1, hsegs1, hro1, hwo1, hrc1, hwc1, hcs1, hck1, hWF1⟩ :=
    @write_append (Pool.fresh 0) [] 0 b1 hWF0 rfl rfl rfl h1
  have hck1' : p1.clock = 1 := by simpa using hck1
  have hsegs1' : p1.segs = [Seg.filled 0 b1 0] ++ [Seg.eofSeg b1.length] := by
    simpa using hsegs1
  have hwo1' : p1.writeOffset = b1.length := by simpa using hwo1
  obtain ⟨p2, hw2, hsegs2, hro2, hwo2, hrc2, hwc2, hcs2, hck2, hWF2⟩ :=
    @write_append p1 [Seg.filled 0 b1 0] b1.length b2
      hWF1 hsegs1' hwo1' hro1 h2
  have hsegs2' : p2.segs = [Seg.filled 0 b1 0, Seg.filled b1.length b2 1,
      Seg.eofSeg (b1.length + b2.length)] := by
    rw [hsegs2, hck1']
    simp
  have hget0 : p2.segs[0]? = some (Seg.filled 0 b1 0) := by
    rw [hsegs2']
    rfl
  have hfi0 : firstIdx p2.segs 0 = some 0 :=
    firstIdx_of_getElem? hWF2.segs hget0 (by
      simp [Seg.contains, List.length_pos, h1])
  have hseek : p2.seekRead 0 =
      some { p2 with readOffset := 0, readCursor := some 0 } := by
    unfold Pool.seekRead
    rw [hfi0]
    rfl
  set p3 := { p2 with readOffset := 0, readCursor := some 0 } with hp3
  have hrc3 : p3.readCursor = some 0 := rfl
  have hsegs3 : p3.segs = [Seg.filled 0 b1 0, Seg.filled b1.length b2 1,
      Seg.eofSeg (b1.length + b2.length)] := hsegs2'
  have hbr := bytesReadable_two b1 b2 0 1 (p := p3) hsegs3 rfl rfl
  have hread := @readBytes_compute p3 0 (b1.length + b2.length) _ hrc3 hbr
  rw [Int.toNat_natCast] at hread
  rw [show p3.readOffset = 0 from rfl] at hread
  rw [Nat.zero_add, hsegs3] at hread
  rw [readLoop_two b1 b2 0 1 p3.clock h1 h2] at hread
  simp only [List.length_append, Nat.sub_self, List.replicate_zero,
    List.append_nil] at hread
  unfold c1Run
  rw [hw1]
  dsimp only
  rw [hw2]
  dsimp only
  rw [hseek]
  rw [Option.some_bind]
  rw [hread]
  simp

/-! ## ranges lemmas -/

/-- Inside a contiguous run of positive segments, every member sits
between the head start and the last stop. -/
theorem run_bounds : ∀ (g0 : Seg) (rest : List Seg),
    List.Chain' adjOk (g0 :: rest) →
    (∀ g ∈ g0 :: rest, g.start < g.stop) →
    ∀ g ∈ g0 :: rest, g0.start ≤ g.start ∧
      g.stop ≤ ((g0 :: rest).getLast (by simp)).stop := by
  intro g0 rest
  induction rest generalizing g0 with
  | nil =>
    intro _ hpos g hg
    simp only [List.mem_singleton] at hg
    subst hg
    simp [List.getLast_singleton]
  | cons r rs ih =>
    intro hch hpos g hg
    have hadj : adjOk g0 r := (List.chain'_cons.mp hch).1
    have hch' : List.Chain' adjOk (r :: rs) := (List.chain'_cons.mp hch).2
    have hpos' : ∀ g' ∈ r :: rs, g'.start < g'.stop := by
      intro g' hg'
      exact hpos g' (by simp [hg'])
    have hlast : ((g0 :: r :: rs).getLast (by simp)).stop =
        (((r :: rs).getLast (by simp)) : Seg).stop := by
      rw [List.getLast_cons (by simp)]
    rcases List.mem_cons.mp hg with rfl | hg'
    · refine ⟨Nat.le_refl _, ?_⟩
      have hr := ih r hch' hpos' r (by simp)
      have hstop : g.stop = r.start := hadj.1
      have hpr := hpos r (by simp)
      rw [hlast]
      omega
    · have hr := ih r hch' hpos' g hg'
      have hpg0 := hpos g0 (by simp)
      have hstop : g0.stop = r.start := hadj.1
      rw [hlast]
      exact ⟨by omega, hr.2⟩

/-- Inside a contiguous run of positive segments, every offset between
the head start and the last stop is contained in some member. -/
theorem run_cover : ∀ (g0 : Seg) (rest : List Seg),
    List.Chain' adjOk (g0 :: rest) →
    (∀ g ∈ g0 :: rest, g.start < g.stop) →
    ∀ o : Nat, g0.start ≤ o →
      o < ((g0 :: rest).getLast (by simp)).stop →
      ∃ s ∈ g0 :: rest, s.start ≤ o ∧ o < s.stop := by
  intro g0 rest
  induction rest generalizing g0 with
  | nil =>
    intro _ _ o hlo hhi
    refine ⟨g0, by simp, hlo, ?_⟩
    simpa [List.getLast_singleton] using hhi
  | cons r rs ih =>
    intro hch hpos o hlo hhi
    by_cases hos : o < g0.stop
    · exact ⟨g0, by simp, hlo, hos⟩
    · have hadj : adjOk g0 r := (List.chain'_cons.mp hch).1
      have hge : r.start ≤ o := by
        rw [← hadj.1]
        omega
      obtain ⟨s, hs, hs1, hs2⟩ := ih r (List.chain'_cons.mp hch).2
        (fun g' hg' => hpos g' (by simp [hg'])) o hge
        (by rw [← List.getLast_cons (l := r :: rs) (by simp)]; exact hhi)
      exact ⟨s, by simp [hs], hs1, hs2⟩

/-- Unfolding of the `ranges` scan: empty list. -/
theorem rangesGo_nil : rangesGo [] = [] := by
  rw [rangesGo]

/-- Unfolding of the `ranges` scan: one step. -/
theorem rangesGo_cons (g : Seg) (rest : List Seg) :
    rangesGo (g :: rest) =
      if g.empty then rangesGo rest
      else (g.start,
          ((g :: rest.takeWhile (fun t => !t.empty)).getLast
            (by simp)).stop) ::
        rangesGo (rest.dropWhile (fun t => !t.empty)) := by
  rw [rangesGo]

/-- Every pair emitted by the scan starts at or after the start of the
list head. -/
theorem rangesGo_head_lb : ∀ (n : Nat) (l : List Seg), l.length ≤ n →
    List.Chain' adjOk l →
    (∀ g ∈ l, g.eof = false → g.start < g.stop) →
    ∀ pr ∈ (rangesGo l).head?, ∀ g0 ∈ l.head?, g0.start ≤ pr.1 := by
  intro n
  induction n with
  | zero =>
    intro l hl _ _ pr hpr g0 hg0
    rw [List.length_eq_zero.mp (Nat.le_zero.mp hl)] at hpr
    rw [rangesGo_nil] at hpr
    simp at hpr
  | succ n ih =>
    intro l hl hch hpos pr hpr g0 hg0
    cases l with
    | nil =>
      rw [rangesGo_nil] at hpr
      simp at hpr
    | cons g rest =>
      simp only [List.head?_cons, Option.mem_def, Option.some.injEq] at hg0
      subst hg0
      rw [rangesGo_cons] at hpr
      by_cases hemp : g.empty = true
      · rw [if_pos hemp] at hpr
        cases rest with
        | nil =>
          rw [rangesGo_nil] at hpr
          simp at hpr
        | cons g1 rest' =>
          have hadj : adjOk g g1 := (List.chain'_cons.mp hch).1
          have h1 := ih (g1 :: rest') (by simpa using hl)
            (List.chain'_cons.mp hch).2
            (fun g' hg' he => hpos g' (by simp [hg']) he) pr hpr g1
            (by simp)
          have hpg := hpos g (by simp) hadj.2
          have hstop := hadj.1
          omega
      · rw [if_neg hemp] at hpr
        simp only [List.head?_cons, Option.mem_def, Option.some.injEq] at hpr
        subst hpr
        exact Nat.le_refl _

/-- Every pair emitted by the scan is a nonempty interval. -/
theorem rangesGo_pos : ∀ (n : Nat) (l : List Seg), l.length ≤ n →
    List.Chain' adjOk l →
    (∀ g ∈ l, g.eof = false → g.start < g.stop) →
    ∀ pr ∈ rangesGo l, pr.1 < pr.2 := by
  intro n
  induction n with
  | zero =>
    intro l hl _ _ pr hpr
    rw [List.length_eq_zero.mp (Nat.le_zero.mp hl), rangesGo_nil] at hpr
    simp at hpr
  | succ n ih =>
    intro l hl hch hpos pr hpr
    cases l with
    | nil =>
      rw [rangesGo_nil] at hpr
      simp at hpr
    | cons g rest =>
      have hlrest : rest.length ≤ n := by
        simp only [List.length_cons] at hl
        omega
      rw [rangesGo_cons] at hpr
      by_cases hemp : g.empty = true
      · rw [if_pos hemp] at hpr
        exact ih rest hlrest (List.chain'_cons'.mp hch).2
          (fun x hx => hpos x (by simp [hx])) pr hpr
      · rw [if_neg hemp] at hpr
        have hsplit : g :: rest =
            (g :: rest.takeWhile (fun t => !t.empty)) ++
              rest.dropWhile (fun t => !t.empty) := by
          rw [List.cons_append, List.takeWhile_append_dropWhile]
        have hch2 : List.Chain' adjOk
            ((g :: rest.takeWhile (fun t => !t.empty)) ++
              rest.dropWhile (fun t => !t.empty)) := by
          rw [← hsplit]
          exact hch
        obtain ⟨hchRun, hchAfter, hlink⟩ := List.chain'_append.mp hch2
        have hrunFilled : ∀ x ∈ g :: rest.takeWhile (fun t => !t.empty),
            x.empty = false := by
          intro x hx
          rcases List.mem_cons.mp hx with rfl | hx'
          · simpa using hemp
          · simpa using List.mem_takeWhile_imp hx'
        have hrunPos : ∀ x ∈ g :: rest.takeWhile (fun t => !t.empty),
            x.start < x.stop := by
          intro x hx
          refine hpos x ?_ (Seg.eof_false_of_filled (hrunFilled x hx))
          rw [hsplit]
          exact List.mem_append_left _ hx
        rcases List.mem_cons.mp hpr with rfl | hpr'
        · have hlastmem := List.getLast_mem
            (l := g :: rest.takeWhile (fun t => !t.empty)) (by simp)
          have hb := run_bounds g (rest.takeWhile (fun t => !t.empty))
            hchRun hrunPos _ hlastmem
          have hplast := hrunPos _ hlastmem
          dsimp only
          omega
        · refine ih (rest.dropWhile (fun t => !t.empty))
            (le_trans (List.dropWhile_sublist _).length_le hlrest)
            hchAfter ?_ pr hpr'
          intro x hx hxe
          refine hpos x ?_ hxe
          rw [hsplit]
          exact List.mem_append_right _ hx

/-- The pairs emitted by the scan are sorted with gaps between them. -/
theorem rangesGo_chain : ∀ (n : Nat) (l : List Seg), l.length ≤ n →
    List.Chain' adjOk l →
    (∀ g ∈ l, g.eof = false → g.start < g.stop) →
    List.Chain' (fun x y : Nat × Nat => x.2 < y.1) (rangesGo l) := by
  intro n
  induction n with
  | zero =>
    intro l hl _ _
    rw [List.length_eq_zero.mp (Nat.le_zero.mp hl), rangesGo_nil]
    exact List.chain'_nil
  | succ n ih =>
    intro l hl hch hpos
    cases l with
    | nil =>
      rw [rangesGo_nil]
      exact List.chain'_nil
    | cons g rest =>
      have hlrest : rest.length ≤ n := by
        simp only [List.length_cons] at hl
        omega
      rw [rangesGo_cons]
      by_cases hemp : g.empty = true
      · rw [if_pos hemp]
        exact ih rest hlrest (List.chain'_cons'.mp hch).2
          (fun x hx => hpos x (by simp [hx]))
      · rw [if_neg hemp]
        have hsplit : g :: rest =
            (g :: rest.takeWhile (fun t => !t.empty)) ++
              rest.dropWhile (fun t => !t.empty) := by
          rw [List.cons_append, List.takeWhile_append_dropWhile]
        have hch2 : List.Chain' adjOk
            ((g :: rest.takeWhile (fun t => !t.empty)) ++
              rest.dropWhile (fun t => !t.empty)) := by
          rw [← hsplit]
          exact hch
        obtain ⟨hchRun, hchAfter, hlink⟩ := List.chain'_append.mp hch2
        have hposAfter : ∀ x ∈ rest.dropWhile (fun t => !t.empty),
            x.eof = false → x.start < x.stop := by
          intro x hx hxe
          refine hpos x ?_ hxe
          rw [hsplit]
          exact List.mem_append_right _ hx
        rw [List.chain'_cons']
        refine ⟨?_, ih (rest.dropWhile (fun t => !t.empty))
          (le_trans (List.dropWhile_sublist _).length_le hlrest)
          hchAfter hposAfter⟩
        intro y hy
        cases hafter : rest.dropWhile (fun t => !t.empty) with
        | nil =>
          rw [hafter, rangesGo_nil] at hy
          simp at hy
        | cons e0 rest' =>
          have he0 : e0.empty = true := by
            have := @head?_dropWhile_false (fun t => !t.empty) rest e0
              (by rw [hafter]; rfl)
            simpa using this
          have hlink' : adjOk
              ((g :: rest.takeWhile (fun t => !t.empty)).getLast (by simp))
              e0 := by
            apply hlink
            · rw [List.getLast?_eq_getLast _ (by simp)]
              rfl
            · rw [hafter]
              rfl
          have hchA : List.Chain' adjOk (e0 :: rest') := by
            rw [hafter] at hchAfter
            exact hchAfter
          by_cases heof : e0.eof = true
          · have hrest' : rest' = [] := by
              cases rest' with
              | nil => rfl
              | cons r1 rs =>
                have hadj := (List.chain'_cons.mp hchA).1
                have hfalse := hadj.2
                rw [heof] at hfalse
                cases hfalse
            rw [hafter, hrest', rangesGo_cons, if_pos he0, rangesGo_nil]
              at hy
            simp at hy
          · have hpose0 : e0.start < e0.stop := by
              apply hposAfter e0 ?_ (by simpa using heof)
              rw [hafter]
              simp
            rw [hafter, rangesGo_cons, if_pos he0] at hy
            cases rest' with
            | nil =>
              rw [rangesGo_nil] at hy
              simp at hy
            | cons g1 rs' =>
              have hadj01 : adjOk e0 g1 := (List.chain'_cons.mp hchA).1
              have hlb := rangesGo_head_lb (g1 :: rs').length (g1 :: rs')
                (Nat.le_refl _) (List.chain'_cons'.mp hchA).2
                (fun x hx hxe => hposAfter x (by rw [hafter]; simp [hx]) hxe)
                y hy g1 (by simp)
              have h1 := hlink'.1
              have h2 := hadj01.1
              dsimp only
              omega

/-- The union of the emitted pairs is exactly the set of offsets
covered by filled segments. -/
theorem rangesGo_cover : ∀ (n : Nat) (l : List Seg), l.length ≤ n →
    List.Chain' adjOk l →
    (∀ g ∈ l, g.eof = false → g.start < g.stop) →
    ∀ o : Nat,
      (∃ g ∈ l, g.empty = false ∧ g.start ≤ o ∧ o < g.stop) ↔
        ∃ pr ∈ rangesGo l, pr.1 ≤ o ∧ o < pr.2 := by
  intro n
  induction n with
  | zero =>
    intro l hl _ _ o
    rw [List.length_eq_zero.mp (Nat.le_zero.mp hl), rangesGo_nil]
    simp
  | succ n ih =>
    intro l hl hch hpos o
    cases l with
    | nil =>
      rw [rangesGo_nil]
      simp
    | cons g rest =>
      have hlrest : rest.length ≤ n := by
        simp only [List.length_cons] at hl
        omega
      rw [rangesGo_cons]
      by_cases hemp : g.empty = true
      · rw [if_pos hemp]
        rw [← ih rest hlrest (List.chain'_cons'.mp hch).2
          (fun x hx => hpos x (by simp [hx])) o]
        constructor
        · rintro ⟨x, hx, hxf, hxb⟩
          rcases List.mem_cons.mp hx with rfl | hx'
          · rw [hemp] at hxf
            cases hxf
          · exact ⟨x, hx', hxf, hxb⟩
        · rintro ⟨x, hx, hxf, hxb⟩
          exact ⟨x, by simp [hx], hxf, hxb⟩
      · rw [if_neg hemp]
        have hsplit : g :: rest =
            (g :: rest.takeWhile (fun t => !t.empty)) ++
              rest.dropWhile (fun t => !t.empty) := by
          rw [List.cons_append, List.takeWhile_append_dropWhile]
        have hch2 : List.Chain' adjOk
            ((g :: rest.takeWhile (fun t => !t.empty)) ++
              rest.dropWhile (fun t => !t.empty)) := by
          rw [← hsplit]
          exact hch
        obtain ⟨hchRun, hchAfter, hlink⟩ := List.chain'_append.mp hch2
        have hrunFilled : ∀ x ∈ g :: rest.takeWhile (fun t => !t.empty),
            x.empty = false := by
          intro x hx
          rcases List.mem_cons.mp hx with rfl | hx'
          · simpa using hemp
          · simpa using List.mem_takeWhile_imp hx'
        have hrunPos : ∀ x ∈ g :: rest.takeWhile (fun t => !t.empty),
            x.start < x.stop := by
          intro x hx
          refine hpos x ?_ (Seg.eof_false_of_filled (hrunFilled x hx))
          rw [hsplit]
          exact List.mem_append_left _ hx
        have hIH := ih (rest.dropWhile (fun t => !t.empty))
          (le_trans (List.dropWhile_sublist _).length_le hlrest)
          hchAfter
          (fun x hx hxe => hpos x
            (by rw [hsplit]; exact List.mem_append_right _ hx) hxe) o
        constructor
        · rintro ⟨x, hx, hxf, hxb1, hxb2⟩
          have hx' : x ∈ (g :: rest.takeWhile (fun t => !t.empty)) ++
              rest.dropWhile (fun t => !t.empty) := by
            rw [← hsplit]
            exact hx
          rcases List.mem_append.mp hx' with hxr | hxa
          · have hb := run_bounds g (rest.takeWhile (fun t => !t.empty))
              hchRun hrunPos x hxr
            refine ⟨(g.start,
              ((g :: rest.takeWhile (fun t => !t.empty)).getLast
                (by simp)).stop), by simp, ?_, ?_⟩
            · dsimp only
              omega
            · dsimp only
              omega
          · obtain ⟨pr, hpr, hprb⟩ := hIH.mp ⟨x, hxa, hxf, hxb1, hxb2⟩
            exact ⟨pr, by simp [hpr], hprb⟩
        · rintro ⟨pr, hpr, hprb1, hprb2⟩
          rcases List.mem_cons.mp hpr with rfl | hpr'
          · dsimp only at hprb1 hprb2
            obtain ⟨s, hs, hs1, hs2⟩ := run_cover g
              (rest.takeWhile (fun t => !t.empty)) hchRun hrunPos o
              hprb1 hprb2
            refine ⟨s, ?_, hrunFilled s hs, hs1, hs2⟩
            rw [hsplit]
            exact List.mem_append_left _ hs
          · obtain ⟨x, hx, hxf, hxb⟩ := hIH.mpr ⟨pr, hpr', hprb1, hprb2⟩
            refine ⟨x, ?_, hxf, hxb⟩
            rw [hsplit]
            exact List.mem_append_right _ hx

/-! ## StreamFile-level lemmas -/

/-- With a non-null read cursor `bytesReadable` always returns a
value. -/
theorem bytesReadable_isSome {p : Pool} {ci : Nat}
    (hrc : p.readCursor = some ci) (m : Int) :
    ∃ v, p.bytesReadable (some m) = some v := by
  rw [bytesReadable_eq hrc]
  cases (List.takeWhile
      (fun g => !g.empty &&
        decide ((g.start : Int) ≤ (p.readOffset : Int) + m))
      (p.segs.drop ci)).getLast? with
  | none => exact ⟨0, rfl⟩
  | some lastg => exact ⟨_, rfl⟩

/-- Characterisation of `bytesReadable` with an infinite bound. -/
theorem bytesReadable_none_eq {p : Pool} {ci : Nat}
    (hrc : p.readCursor = some ci) :
    p.bytesReadable none =
      match (List.takeWhile (fun g => (!g.empty && true))
          (p.segs.drop ci)).getLast? with
      | none => some 0
      | some lastg => some ((lastg.stop : Int) - (p.readOffset : Int)) := by
  unfold Pool.bytesReadable
  rw [hrc]

/-- `x | 0` leaves a nonnegative int32 unchanged. -/
theorem toInt32_eq_self {x : Int} (h1 : 0 ≤ x) (h2 : x < 2147483648) :
    toInt32 x = x := by
  unfold toInt32
  omega

/-- `x | 0` is always below `2^31`. -/
theorem toInt32_lt (x : Int) : toInt32 x < 2147483648 := by
  unfold toInt32
  omega

/-- Seeking to the exact known length (an int32): validations pass,
both cache cursors land on the segment containing `length`, the reader
is at EOF with zero bytes available; seeking past the length throws
`seek past end of file` for an int32 offset, and `invalid input` for an
offset of `2^31` or more (the `offset !== (offset | 0)` guard). -/
theorem seek_to_length {sf : SF}
    (hld : sf.loaded = true) (hbf : sf.buffering = false)
    (hsk : sf.seeking = false) (hsa : sf.seekable = true)
    (hlen : 0 ≤ sf.length) (hlen32 : sf.length < 2147483648)
    (hWF : WF sf.cache)
    (hbound : ∀ g ∈ sf.cache.segs, g.empty = false →
      (g.stop : Int) ≤ sf.length) :
    (∃ sf2 fl, sf.seek sf.length = .ok (sf2, fl) ∧
      (sf2.offset : Int) = sf.length ∧ sf2.eof = true ∧
      sf2.bytesAvailable none = some 0) ∧
    (∀ off : Int, sf.length < off →
      sf.seek off = .error (if off < 2147483648 then SErr.seekPastEnd
                            else SErr.invalidInput)) := by
  have hcab : sf.abort.cache = sf.cache := by
    unfold SF.abort
    split <;> rfl
  have hlab : sf.abort.length = sf.length := by
    unfold SF.abort
    split <;> rfl
  obtain ⟨i, hi, hfi, hcon⟩ := hWF.segs.firstIdx_spec sf.length.toNat
  have hcast : (sf.length.toNat : Int) = sf.length := Int.toNat_of_nonneg hlen
  have hgi : (sf.cache.segs.get ⟨i, hi⟩).empty = true := by
    by_contra hne
    have hfil : (sf.cache.segs.get ⟨i, hi⟩).empty = false := by
      simpa using hne
    have hb := hbound _ (List.get_mem _ _ _) hfil
    have heof := Seg.eof_false_of_filled hfil
    rcases (Seg.contains_iff.mp hcon).2 with hlt | hlt
    · have : ((sf.cache.segs.get ⟨i, hi⟩).stop : Int) ≤ sf.length := hb
      omega
    · rw [heof] at hlt
      exact absurd hlt (by simp)
  constructor
  · unfold SF.seek
    rw [if_neg (by simp [hld, hbf, hsk])]
    rw [if_neg (by
      rw [not_or]
      exact ⟨by rw [toInt32_eq_self hlen hlen32]; simp, by omega⟩)]
    rw [if_neg (by simp)]
    rw [if_neg (by simp [hsa])]
    have hsr : sf.abort.cache.seekRead sf.length.toNat =
        some { sf.cache with
                 readOffset := sf.length.toNat
                 readCursor := some i } := by
      rw [hcab]
      unfold Pool.seekRead
      rw [hfi]
      rfl
    dsimp only
    rw [hsr]
    dsimp only
    have hsw : ({ sf.cache with
        readOffset := sf.length.toNat
        readCursor := some i } : Pool).seekWrite sf.length.toNat =
        some { sf.cache with
                 readOffset := sf.length.toNat
                 readCursor := some i
                 writeOffset := sf.length.toNat
                 writeCursor := some i } := by
      unfold Pool.seekWrite
      rw [show firstIdx ({ sf.cache with
        readOffset := sf.length.toNat
        readCursor := some i } : Pool).segs sf.length.toNat = some i
        from hfi]
      rfl
    rw [hsw]
    dsimp only
    refine ⟨_, _, rfl, ?_, ?_, ?_⟩
    · exact hcast
    · unfold SF.eof SF.offset
      dsimp only
      rw [hlab, hcast]
      simp
    · unfold SF.bytesAvailable
      dsimp only
      rw [@bytesReadable_none_eq _ i rfl]
      have hdrop : ({ sf.cache with
          readOffset := sf.length.toNat
          readCursor := some i
          writeOffset := sf.length.toNat
          writeCursor := some i } : Pool).segs.drop i =
          sf.cache.segs.get ⟨i, hi⟩ :: sf.cache.segs.drop (i + 1) := by
        dsimp only
        rw [List.drop_eq_getElem_cons hi]
        simp
      rw [hdrop]
      have hgi2 : sf.cache.segs[i].empty = true := by
        simpa [List.get_eq_getElem] using hgi
      rw [List.takeWhile_cons, if_neg (by simp [hgi2])]
      rfl
  · intro off hoff
    unfold SF.seek
    rw [if_neg (by simp [hld, hbf, hsk])]
    by_cases h32 : off < 2147483648
    · rw [if_neg (by
        rw [not_or]
        exact ⟨by rw [toInt32_eq_self (by omega) h32]; simp, by omega⟩)]
      rw [if_pos (by simp only [Bool.and_eq_true, decide_eq_true_eq]
                     exact ⟨hlen, hoff⟩)]
      rw [if_pos h32]
    · rw [if_pos (Or.inl (by
        have := toInt32_lt off
        omega))]
      rw [if_neg h32]

/-- `buffer(n)` on an idle loaded stream with a well-formed cache:
either the bytes are already there and the promise resolves at once —
with no value — or the stream enters the buffering state. -/
theorem buffer_outcome {sf : SF} {n : Int}
    (hld : sf.loaded = true) (hbf : sf.buffering = false)
    (hsk : sf.seeking = false) (hn : 0 ≤ n) (hn32 : n < 2147483648)
    (hWF : WF sf.cache) :
    ∃ res, sf.buffer n = .ok res ∧
      (res = (sf, .resolved none) ∨
       res = ({ sf with buffering := true }, .pending)) := by
  obtain ⟨i, hi, hfi, hcon⟩ := hWF.segs.firstIdx_spec sf.cache.readOffset
  have hrc : sf.cache.readCursor = some i := by rw [hWF.rc, hfi]
  obtain ⟨v, hv⟩ := bytesReadable_isSome hrc
    (sf.clampToLength ((sf.offset : Int) + n) - (sf.offset : Int))
  unfold SF.buffer
  rw [if_neg (by simp [hld, hbf, hsk])]
  rw [if_neg (by
    rw [not_or]
    exact ⟨by rw [toInt32_eq_self hn hn32]; simp, by omega⟩)]
  dsimp only
  rw [show sf.bytesAvailable
      (some (sf.clampToLength ((sf.offset : Int) + n) - (sf.offset : Int))) =
    some v from hv]
  dsimp only
  by_cases hle : sf.clampToLength ((sf.offset : Int) + n) -
      (sf.offset : Int) ≤ v
  · rw [if_pos hle]
    exact ⟨(sf, .resolved none), rfl, Or.inl rfl⟩
  · rw [if_neg hle]
    exact ⟨({ sf with buffering := true }, .pending), rfl, Or.inr rfl⟩

/-! ## The zero-length write at EOF (C1 with an empty second buffer) -/

/-- With the read head at 0, `gc` has no candidates and is the
identity. -/
theorem gc_of_ro_zero {p : Pool} (hro : p.readOffset = 0) :
    p.gc = some p := by
  apply gc_no_candidates
  rw [List.filter_eq_nil_iff]
  intro g hg
  simp [hro]

/-- Writing a zero-length byte buffer at the EOF terminator of a
well-formed pool with the read head at 0: both guards pass, the EOF is
split into a zero-length empty and a relocated EOF, and the final
splice then replaces the EOF with a zero-length filled item — the call
succeeds but the EOF terminator is lost. -/
theorem write_empty_at_eof {p : Pool} {F : List Seg} {e : Nat}
    (hWF : WF p) (hsegs : p.segs = F ++ [Seg.eofSeg e])
    (hwo : p.writeOffset = e) (hro : p.readOffset = 0) :
    ∃ q, p.write (.bytes []) = .ok q ∧
      q.segs = F ++ [Seg.emp e e, Seg.filled e [] p.clock] ∧
      q.readOffset = 0 ∧ q.writeOffset = e ∧
      q.readCursor = firstIdx q.segs 0 ∧
      q.cacheSize = p.cacheSize ∧ q.clock = p.clock + 1 := by
  have hstop : (Seg.filled e ([] : List Nat) p.clock).stop = e := by simp
  have hsegs' : p.segs = F ++ Seg.eofSeg e :: [] := by simpa using hsegs
  have hget : p.segs[F.length]? = some (Seg.eofSeg e) := by
    rw [hsegs']
    exact getElem?_append_cons F (Seg.eofSeg e) []
  have hwcF : p.writeCursor = some F.length := by
    rw [hWF.wc, hwo]
    exact firstIdx_of_getElem? hWF.segs hget (by simp [Seg.contains])
  have hFnone : F.findIdx? (fun g => g.contains e) = none := by
    have hfi : firstIdx p.segs e = some F.length := by
      rw [← hwo, ← hWF.wc]
      exact hwcF
    rw [firstIdx_eq_findIdx?, hsegs, List.findIdx?_append] at hfi
    cases hF : F.findIdx? (fun g => g.contains e) with
    | none => rfl
    | some j =>
      obtain ⟨hj, -, -⟩ := List.findIdx?_eq_some_iff_getElem.mp hF
      rw [hF] at hfi
      simp only [Option.or, Option.some.injEq] at hfi
      omega
  have hfx : ∀ L : List Seg, firstIdx (F ++ L) e =
      (L.findIdx? (fun g => g.contains e)).map (fun i => i + F.length) := by
    intro L
    rw [firstIdx_eq_findIdx?, List.findIdx?_append, hFnone, Option.none_or]
  have hsplit : (Seg.eofSeg e).split
      ((Seg.filled e ([] : List Nat) p.clock).stop) =
      some (Seg.emp e e, Seg.eofSeg e) := by
    rw [hstop]
    unfold Seg.split
    rw [if_pos (by simp [Seg.contains])]
    simp [Seg.splitRight]
  have hw : p.write (.bytes []) =
      p.writeSnd (Seg.filled e [] p.clock) := by
    unfold Pool.write
    rw [show p.bufferItem (.bytes []) =
      some (.filled p.writeOffset [] p.clock) from rfl]
    dsimp only
    rw [hwcF]
    dsimp only
    rw [hget]
    dsimp only
    rw [if_neg (by simp)]
    rw [hwo]
    rw [if_neg (by simp [Seg.contains])]
    rw [if_neg (by simp)]
  have hsnd : p.writeSnd (Seg.filled e [] p.clock) =
      Pool.writeInstall
        { p with
            segs := F ++ Seg.emp e e :: Seg.eofSeg e :: []
            readCursor := firstIdx (F ++ Seg.emp e e :: Seg.eofSeg e :: [])
              p.readOffset
            writeCursor := firstIdx (F ++ Seg.emp e e :: Seg.eofSeg e :: [])
              p.writeOffset }
        (Seg.filled e [] p.clock) := by
    unfold Pool.writeSnd
    rw [hwcF]
    dsimp only
    rw [hget]
    dsimp only
    rw [if_pos (by simp)]
    rw [split_eq hsegs' hsplit]
  have hwc1 : firstIdx (F ++ Seg.emp e e :: Seg.eofSeg e :: [])
      p.writeOffset = some (F.length + 1) := by
    rw [hwo, hfx]
    simp only [List.findIdx?_cons, List.findIdx?_nil]
    rw [if_neg (by simp [Seg.contains])]
    rw [if_pos (by simp [Seg.contains])]
    simp [Nat.add_comm]
  have hsegs1 : ({ p with
      segs := F ++ Seg.emp e e :: Seg.eofSeg e :: []
      readCursor := firstIdx (F ++ Seg.emp e e :: Seg.eofSeg e :: [])
        p.readOffset
      writeCursor := firstIdx (F ++ Seg.emp e e :: Seg.eofSeg e :: [])
        p.writeOffset } : Pool).segs =
      (F ++ [Seg.emp e e]) ++ [Seg.eofSeg e] ++ [] := by
    simp
  have hsp := @splice_eq
    { p with
        segs := F ++ Seg.emp e e :: Seg.eofSeg e :: []
        readCursor := firstIdx (F ++ Seg.emp e e :: Seg.eofSeg e :: [])
          p.readOffset
        writeCursor := firstIdx (F ++ Seg.emp e e :: Seg.eofSeg e :: [])
          p.writeOffset }
    (F ++ [Seg.emp e e]) [Seg.eofSeg e] []
    [Seg.filled e [] p.clock] (Seg.eofSeg e) (Seg.eofSeg e)
    (Seg.filled e [] p.clock) (Seg.filled e [] p.clock)
    hsegs1 (by simp) (by simp) (by simp) (by simp)
    (by simp) (Or.inl (by simp))
  simp only [List.length_append, List.length_singleton,
    Nat.add_sub_cancel] at hsp
  have hfinal : p.write (.bytes []) = .ok
      { segs := F ++ [Seg.emp e e] ++ [Seg.filled e [] p.clock] ++ []
        readOffset := p.readOffset
        readCursor := firstIdx
          (F ++ [Seg.emp e e] ++ [Seg.filled e [] p.clock] ++ [])
          p.readOffset
        writeOffset := (Seg.filled e [] p.clock).stop
        writeCursor := if F.length + 1 + 1 <
            (F ++ [Seg.emp e e] ++ [Seg.filled e [] p.clock] ++ []).length
          then some (F.length + 1 + 1) else none
        cacheSize := p.cacheSize
        clock := p.clock + 1 } := by
    rw [hwc1] at hsp
    rw [hw, hsnd]
    unfold Pool.writeInstall
    dsimp only
    rw [hwc1]
    dsimp only
    rw [hsp]
    dsimp only
    rw [gc_of_ro_zero]
    exact hro
  refine ⟨_, hfinal, ?_, ?_, ?_, ?_, ?_, ?_⟩
  · simp
  · exact hro
  · exact hstop
  · rw [hro]
  · rfl
  · rfl

/-- The C1 pipeline with an empty second buffer: `write([])` at the
write head sitting on the EOF terminator succeeds (installing a
zero-length filled item there), and the read still returns `b1`. -/
theorem c1_empty_second (b1 : List Nat) (h1 : b1 ≠ []) :
    c1Run b1 [] = some (b1, b1.length) := by
  have hn1 : 0 < b1.length := List.length_pos.mpr h1
  have hWF0 : WF (Pool.fresh 0) := by decide
  obtain ⟨p1, hw1, hsegs1, hro1, hwo1, hrc1, hwc1, hcs1, hck1, hWF1⟩ :=
    @write_append (Pool.fresh 0) [] 0 b1 hWF0 rfl rfl rfl h1
  have hck1' : p1.clock = 1 := by simpa using hck1
  have hsegs1' : p1.segs = [Seg.filled 0 b1 0] ++ [Seg.eofSeg b1.length] := by
    simpa using hsegs1
  have hwo1' : p1.writeOffset = b1.length := by simpa using hwo1
  obtain ⟨q, hwq, hsegsq, hroq, hwoq, hrcq, hcsq, hckq⟩ :=
    @write_empty_at_eof p1 [Seg.filled 0 b1 0] b1.length
      hWF1 hsegs1' hwo1' hro1
  have hsegsq' : q.segs = [Seg.filled 0 b1 0,
      Seg.emp b1.length b1.length, Seg.filled b1.length [] 1] := by
    rw [hsegsq, hck1']
    rfl
  have hfi : firstIdx q.segs 0 = some 0 := by
    rw [firstIdx_eq_findIdx?, hsegsq']
    rw [List.findIdx?_cons]
    rw [if_pos (by simp [Seg.contains, hn1])]
  have hseek : q.seekRead 0 =
      some { q with readOffset := 0, readCursor := some 0 } := by
    unfold Pool.seekRead
    rw [hfi]
    rfl
  set p3 := { q with readOffset := 0, readCursor := some 0 } with hp3
  have hrc3 : p3.readCursor = some 0 := rfl
  have hsegs3 : p3.segs = [Seg.filled 0 b1 0,
      Seg.emp b1.length b1.length, Seg.filled b1.length [] 1] := hsegsq'
  have hbr := bytesReadable_one b1 0 (Seg.emp b1.length b1.length)
      [Seg.filled b1.length [] 1] (p := p3) hsegs3 rfl rfl rfl
  have hread := @readBytes_compute p3 0 b1.length _ hrc3 hbr
  rw [Int.toNat_natCast] at hread
  rw [show p3.readOffset = 0 from rfl] at hread
  rw [Nat.zero_add, hsegs3] at hread
  rw [readLoop_one b1 0 (Seg.emp b1.length b1.length)
      [Seg.filled b1.length [] 1] p3.clock h1 rfl] at hread
  simp only [Nat.sub_self, List.replicate_zero, List.append_nil] at hread
  unfold c1Run
  rw [hw1]
  dsimp only
  rw [hwq]
  dsimp only
  rw [hseek]
  rw [Option.some_bind]
  simp only [List.length_nil, Nat.add_zero]
  rw [hread]
  simp

/-! ## Claims -/

/-- C1 (corrected: the FIRST buffer must be nonempty — a zero-length
first buffer corrupts the pool and the pipeline throws; an empty second
buffer is fine).  From a fresh cache, `write(b1); write(b2);
seek_read(0)` followed by reading `|b1| + |b2|` bytes returns exactly
`b1 ++ b2`, and the read offset ends at `|b1| + |b2|`. -/
theorem C1_roundtrip {b1 b2 : List Nat} (h1 : b1 ≠ []) :
    c1Run b1 b2 = some (b1 ++ b2, b1.length + b2.length) := by
  rcases eq_or_ne b2 [] with rfl | h2
  · simpa using c1_empty_second b1 h1
  · exact c1_core b1 b2 h1 h2

theorem C1_roundtrip_witness :
    ([1, 2] : List Nat) ≠ [] ∧
      c1Run [1, 2] [3] = some ([1, 2, 3], 3) :=
  ⟨by decide, @C1_roundtrip [1, 2] [3] (by decide)⟩

/-- C1 counterexample: with `b1 = []` (a legal zero-length
`ArrayBuffer`) the first write corrupts the cache — the EOF terminator
is lost — and the second write throws on a null cursor, so the pipeline
does not return `[] ++ [5]`. -/
theorem C1_cex : c1Run [] [5] = none := by decide

/-- C2 (corrected: I4 — no two adjacent Empty/Eof segments — fails
after GC eviction; I1, I2, I3 and I5 do hold).  After any sequence of
seeks and nonempty writes on a fresh cache the segment list starts at
0 and is contiguous, ends in the EOF item, has no zero-length filled
segments, and the EOF contains every offset at or after it. -/
theorem C2_invariants {p : Pool} (hr : Reach p) :
    I1 p.segs ∧ I2 p.segs ∧ I3 p.segs ∧ I5 p.segs := by
  have hWF := Reach_wf hr
  obtain ⟨hne, hh0, hchain, hlast, hpos⟩ := hWF.segs
  refine ⟨⟨hne, hh0, hchain.imp (fun a b h => h.1)⟩, hlast, ?_, ?_⟩
  · intro g hg hgemp
    exact hpos g hg (Seg.eof_false_of_filled hgemp)
  · intro g hg hge o ho
    cases g with
    | eofSeg s =>
      simp only [Seg.start_eofSeg] at ho
      simp [Seg.contains, ho]
    | emp s e => simp at hge
    | filled s bs t => simp at hge

theorem C2_invariants_witness :
    Reach (Pool.fresh 0) ∧
      (I1 (Pool.fresh 0).segs ∧ I2 (Pool.fresh 0).segs ∧
        I3 (Pool.fresh 0).segs ∧ I5 (Pool.fresh 0).segs) :=
  ⟨⟨0, [], by simp, rfl⟩, C2_invariants ⟨0, [], by simp, rfl⟩⟩

/-- C2 counterexample: four valid operations make the cache evict both
filled segments, leaving the plain empty `[0,10)` directly adjacent to
the EOF at 10 — I4 fails. -/
theorem C2_cex :
    (∀ op ∈ [Op.writeB [9, 9, 9, 9, 9], Op.seekR 25, Op.seekW 5,
      Op.writeB [8, 8, 8, 8, 8]], opValid op) ∧
    runOps (Pool.fresh 0) [Op.writeB [9, 9, 9, 9, 9], Op.seekR 25,
      Op.seekW 5, Op.writeB [8, 8, 8, 8, 8]] =
      some ⟨[Seg.emp 0 10, Seg.eofSeg 10], 25, some 1, 10, some 1, 0, 2⟩ ∧
    ¬ I4 [Seg.emp 0 10, Seg.eofSeg 10] := by
  exact ⟨by decide, by decide, by decide⟩

/-- C3: on a well-formed segment list, `ranges()` returns nonempty
intervals, sorted with a gap between consecutive ones (hence disjoint),
whose union is exactly the set of offsets covered by filled
segments. -/
theorem C3_ranges {p : Pool} (hWFs : WFs p.segs) :
    (∀ pr ∈ p.ranges, pr.1 < pr.2) ∧
    List.Chain' (fun x y : Nat × Nat => x.2 < y.1) p.ranges ∧
    (∀ o : Nat,
      (∃ g ∈ p.segs, g.empty = false ∧ g.start ≤ o ∧ o < g.stop) ↔
        ∃ pr ∈ p.ranges, pr.1 ≤ o ∧ o < pr.2) :=
  ⟨rangesGo_pos p.segs.length p.segs (Nat.le_refl _) hWFs.chain hWFs.pos,
   rangesGo_chain p.segs.length p.segs (Nat.le_refl _) hWFs.chain hWFs.pos,
   rangesGo_cover p.segs.length p.segs (Nat.le_refl _) hWFs.chain hWFs.pos⟩

theorem C3_ranges_witness :
    WFs (⟨[Seg.filled 0 [5] 0, Seg.emp 1 2, Seg.filled 2 [7] 0,
        Seg.eofSeg 3], 0, some 0, 0, some 0, 0, 0⟩ : Pool).segs ∧
    ((∀ pr ∈ (⟨[Seg.filled 0 [5] 0, Seg.emp 1 2, Seg.filled 2 [7] 0,
        Seg.eofSeg 3], 0, some 0, 0, some 0, 0, 0⟩ : Pool).ranges,
        pr.1 < pr.2) ∧
      List.Chain' (fun x y : Nat × Nat => x.2 < y.1)
        (⟨[Seg.filled 0 [5] 0, Seg.emp 1 2, Seg.filled 2 [7] 0,
          Seg.eofSeg 3], 0, some 0, 0, some 0, 0, 0⟩ : Pool).ranges ∧
      (∀ o : Nat,
        (∃ g ∈ (⟨[Seg.filled 0 [5] 0, Seg.emp 1 2, Seg.filled 2 [7] 0,
            Seg.eofSeg 3], 0, some 0, 0, some 0, 0, 0⟩ : Pool).segs,
          g.empty = false ∧ g.start ≤ o ∧ o < g.stop) ↔
          ∃ pr ∈ (⟨[Seg.filled 0 [5] 0, Seg.emp 1 2, Seg.filled 2 [7] 0,
            Seg.eofSeg 3], 0, some 0, 0, some 0, 0, 0⟩ : Pool).ranges,
            pr.1 ≤ o ∧ o < pr.2)) :=
  ⟨by decide, C3_ranges (by decide)⟩

/-- C4 (corrected: `abort()` only aborts and drops the backend — it
does NOT clear the `loading`/`buffering`/`seeking` flags). -/
theorem C4_abort (sf : SF) :
    sf.abort.backend = none ∧ sf.abort.loading = sf.loading ∧
    sf.abort.buffering = sf.buffering ∧ sf.abort.seeking = sf.seeking ∧
    sf.abort.loaded = sf.loaded ∧ sf.abort.seekable = sf.seekable ∧
    sf.abort.length = sf.length ∧ sf.abort.cache = sf.cache := by
  unfold SF.abort
  cases hb : sf.backend with
  | none => simp [hb]
  | some u => simp [hb]

/-- C4 counterexample: aborting a stream whose `loading`, `buffering`
and `seeking` flags are set drops the backend but leaves all three
flags set, contradicting the claim that they are cleared. -/
theorem C4_cex :
    ((⟨10, true, true, true, true, true, Pool.fresh 0, some ()⟩ :
      SF).abort).loading = true ∧
    ((⟨10, true, true, true, true, true, Pool.fresh 0, some ()⟩ :
      SF).abort).buffering = true ∧
    ((⟨10, true, true, true, true, true, Pool.fresh 0, some ()⟩ :
      SF).abort).seeking = true ∧
    ((⟨10, true, true, true, true, true, Pool.fresh 0, some ()⟩ :
      SF).abort).backend = none := by
  exact ⟨by decide, by decide, by decide, by decide⟩

/-- C5 (corrected: `cache_size = 0` does not mean unbounded — the GC
run evicts exactly the filled segments that end before the read head;
filled segments at or past the read head survive). -/
theorem C5_gc_zero {p : Pool} (hWF : WF p) (hcz : p.cacheSize = 0) :
    ∃ p', p.gc = some p' ∧
      p'.readOffset = p.readOffset ∧ p'.writeOffset = p.writeOffset ∧
      filledOf p'.segs = (filledOf p.segs).filter
        (fun g => !decide (g.stop < p.readOffset)) := by
  obtain ⟨p', h1, _, h3, h4, _, _, h7⟩ := gc_zero hWF hcz
  exact ⟨p', h1, h3, h4, h7⟩

theorem C5_gc_zero_witness :
    WF (⟨[Seg.filled 0 [1, 2, 3] 0, Seg.emp 3 9, Seg.eofSeg 9], 9, some 2,
      9, some 2, 0, 1⟩ : Pool) ∧
    (⟨[Seg.filled 0 [1, 2, 3] 0, Seg.emp 3 9, Seg.eofSeg 9], 9, some 2, 9,
      some 2, 0, 1⟩ : Pool).cacheSize = 0 ∧
    (∃ p', (⟨[Seg.filled 0 [1, 2, 3] 0, Seg.emp 3 9, Seg.eofSeg 9], 9,
        some 2, 9, some 2, 0, 1⟩ : Pool).gc = some p' ∧
      p'.readOffset = (⟨[Seg.filled 0 [1, 2, 3] 0, Seg.emp 3 9,
        Seg.eofSeg 9], 9, some 2, 9, some 2, 0, 1⟩ : Pool).readOffset ∧
      p'.writeOffset = (⟨[Seg.filled 0 [1, 2, 3] 0, Seg.emp 3 9,
        Seg.eofSeg 9], 9, some 2, 9, some 2, 0, 1⟩ : Pool).writeOffset ∧
      filledOf p'.segs =
        (filledOf (⟨[Seg.filled 0 [1, 2, 3] 0, Seg.emp 3 9, Seg.eofSeg 9],
          9, some 2, 9, some 2, 0, 1⟩ : Pool).segs).filter
          (fun g => !decide (g.stop < (⟨[Seg.filled 0 [1, 2, 3] 0,
            Seg.emp 3 9, Seg.eofSeg 9], 9, some 2, 9, some 2, 0, 1⟩ :
              Pool).readOffset))) :=
  ⟨by decide, rfl, C5_gc_zero (by decide) rfl⟩

/-- C5 counterexample: with `cache_size = 0` the first write caches a
filled segment; after the read head moves past it, the GC run of the
next write evicts it (and the new one), so filled data present before
the run is gone after it. -/
theorem C5_cex :
    (runOps (Pool.fresh 0) [Op.writeB [1, 2, 3, 4, 5]]).map
      (fun p => filledOf p.segs) = some [Seg.filled 0 [1, 2, 3, 4, 5] 0] ∧
    (runOps (Pool.fresh 0) [Op.writeB [1, 2, 3, 4, 5], Op.seekR 25,
      Op.seekW 5, Op.writeB [6, 7, 8, 9, 10]]).map
      (fun p => filledOf p.segs) = some [] := by
  exact ⟨by decide, by decide⟩

/-- C6 (corrected: seek offsets must also pass the int32 guard
`offset !== (offset | 0)`, so the known length must be below `2^31`;
for larger offsets — including `seek(length)` on a file of 2 GiB or
more — the call throws `invalid input`).  On a loaded, seekable, idle
stream with known length in `[0, 2^31)` and all cached data within that
length, `seek(length)` succeeds and positions the reader at EOF with
zero bytes available, while `seek(offset)` with `offset > length` is
rejected: with `seek past end of file` for an int32 offset, and with
`invalid input` from `2^31` on. -/
theorem C6_seek {sf : SF}
    (hld : sf.loaded = true) (hbf : sf.buffering = false)
    (hsk : sf.seeking = false) (hsa : sf.seekable = true)
    (hlen : 0 ≤ sf.length) (hlen32 : sf.length < 2147483648)
    (hWF : WF sf.cache)
    (hbound : ∀ g ∈ sf.cache.segs, g.empty = false →
      (g.stop : Int) ≤ sf.length) :
    (∃ sf2 fl, sf.seek sf.length = .ok (sf2, fl) ∧
      (sf2.offset : Int) = sf.length ∧ sf2.eof = true ∧
      sf2.bytesAvailable none = some 0) ∧
    (∀ off : Int, sf.length < off →
      sf.seek off = .error (if off < 2147483648 then SErr.seekPastEnd
                            else SErr.invalidInput)) :=
  seek_to_length hld hbf hsk hsa hlen hlen32 hWF hbound

theorem C6_seek_witness :
    ((⟨10, true, false, true, false, false,
      ⟨[Seg.filled 0 [0, 1, 2, 3, 4, 5, 6, 7, 8, 9] 0, Seg.eofSeg 10], 0,
        some 0, 10, some 1, 0, 1⟩, none⟩ : SF).loaded = true ∧
     (⟨10, true, false, true, false, false,
      ⟨[Seg.filled 0 [0, 1, 2, 3, 4, 5, 6, 7, 8, 9] 0, Seg.eofSeg 10], 0,
        some 0, 10, some 1, 0, 1⟩, none⟩ : SF).buffering = false ∧
     WF (⟨10, true, false, true, false, false,
      ⟨[Seg.filled 0 [0, 1, 2, 3, 4, 5, 6, 7, 8, 9] 0, Seg.eofSeg 10], 0,
        some 0, 10, some 1, 0, 1⟩, none⟩ : SF).cache) ∧
    ((∃ sf2 fl, (⟨10, true, false, true, false, false,
      ⟨[Seg.filled 0 [0, 1, 2, 3, 4, 5, 6, 7, 8, 9] 0, Seg.eofSeg 10], 0,
        some 0, 10, some 1, 0, 1⟩, none⟩ : SF).seek 10 = .ok (sf2, fl) ∧
      (sf2.offset : Int) = 10 ∧ sf2.eof = true ∧
      sf2.bytesAvailable none = some 0) ∧
     (∀ off : Int, 10 < off → (⟨10, true, false, true, false, false,
      ⟨[Seg.filled 0 [0, 1, 2, 3, 4, 5, 6, 7, 8, 9] 0, Seg.eofSeg 10], 0,
        some 0, 10, some 1, 0, 1⟩, none⟩ : SF).seek off =
          .error (if off < 2147483648 then SErr.seekPastEnd
                  else SErr.invalidInput))) :=
  ⟨⟨rfl, rfl, by decide⟩,
    C6_seek rfl rfl rfl rfl (by decide) (by decide) (by decide)
      (by decide)⟩

/-- C6 counterexample: on a loaded seekable stream whose known length
is `2^31` (a 2 GiB file), even `seek(length)` throws `invalid input` —
the int32 guard fires before any other validation of the offset. -/
theorem C6_cex :
    (⟨2147483648, true, false, true, false, false, Pool.fresh 0, none⟩ :
      SF).seek 2147483648 = .error .invalidInput := by
  rfl

/-- C7 (corrected: the fit test is against the single cursor segment
only — the span may not run across a following empty segment even when
the whole empty run would hold it; the exact-fill and EOF cases do
succeed). -/
theorem C7_write_fit {p : Pool} {bs : List Nat} {ci : Nat} {c : Seg}
    (hWF : WF p) (hbs : bs ≠ [])
    (hwc : p.writeCursor = some ci) (hc : p.segs[ci]? = some c) :
    (∃ q, p.write (.bytes bs) = .ok q) ↔
      (c.empty = true ∧
        (p.writeOffset + bs.length ≤ c.stop ∨ c.eof = true)) := by
  constructor
  · rintro ⟨q, hq⟩
    by_cases hemp : c.empty = true
    · refine ⟨hemp, ?_⟩
      by_contra hfit
      push_neg at hfit
      rw [write_err_of_not_fit hwc hc hemp (by simpa using hfit.2)
        (by omega)] at hq
      cases hq
    · rw [write_err_of_not_empty hwc hc (by simpa using hemp)] at hq
      cases hq
  · rintro ⟨hemp, hfit⟩
    obtain ⟨A, c', B, hsegs, hAlen, hcon, hget⟩ := cursor_decomp hWF hwc
    have hcc : c' = c := by
      rw [hget] at hc
      simpa using hc
    subst hcc
    obtain ⟨p4, heq, _, _, _, _, _, hWF4⟩ :=
      write_eq hWF hsegs (by rw [hwc, hAlen]) hbs hemp hfit
    obtain ⟨p5, hgc, _⟩ := gc_wf hWF4
    exact ⟨p5, by rw [heq, hgc]⟩

theorem C7_write_fit_witness :
    WF (Pool.fresh 0) ∧ ([1] : List Nat) ≠ [] ∧
      (Pool.fresh 0).writeCursor = some 0 ∧
      (Pool.fresh 0).segs[0]? = some (Seg.eofSeg 0) ∧
      ((∃ q, (Pool.fresh 0).write (.bytes [1]) = .ok q) ↔
        ((Seg.eofSeg 0).empty = true ∧
          ((Pool.fresh 0).writeOffset + [1].length ≤ (Seg.eofSeg 0).stop ∨
            (Seg.eofSeg 0).eof = true))) :=
  ⟨by decide, by decide, rfl, rfl,
    C7_write_fit (by decide) (by decide) rfl rfl⟩

/-- C7 counterexample: a reachable cache whose empty run from the write
head is unbounded (`spanFitsRun` holds for a 20-byte span), yet `write`
throws `write cursor too small` because the single cursor segment stops
at 10. -/
theorem C7_cex :
    runOps (Pool.fresh 0) [Op.writeB [9, 9, 9, 9, 9], Op.seekR 25,
      Op.seekW 5, Op.writeB [8, 8, 8, 8, 8], Op.seekW 0] =
      some ⟨[Seg.emp 0 10, Seg.eofSeg 10], 25, some 1, 0, some 0, 0, 2⟩ ∧
    spanFitsRun
      ⟨[Seg.emp 0 10, Seg.eofSeg 10], 25, some 1, 0, some 0, 0, 2⟩ 20 ∧
    (⟨[Seg.emp 0 10, Seg.eofSeg 10], 25, some 1, 0, some 0, 0, 2⟩ :
      Pool).write (.bytes (List.replicate 20 7)) =
      .err .tooSmall
        ⟨[Seg.emp 0 10, Seg.eofSeg 10], 25, some 1, 0, some 0, 0, 2⟩ := by
  refine ⟨by decide, ⟨0, rfl, ?_⟩, by decide⟩
  exact trivial

/-- C8 (corrected: `buffer` resolves with no value — every resolution
site is a bare `resolve()`; the byte count is never returned).  On a
loaded idle stream with a well-formed cache, `buffer(n)` either
resolves immediately with no value or enters the buffering state. -/
theorem C8_buffer {sf : SF} {n : Int}
    (hld : sf.loaded = true) (hbf : sf.buffering = false)
    (hsk : sf.seeking = false) (hn : 0 ≤ n) (hn32 : n < 2147483648)
    (hWF : WF sf.cache) :
    (∃ res, sf.buffer n = .ok res ∧
      (res = (sf, .resolved none) ∨
       res = ({ sf with buffering := true }, .pending))) ∧
    (∀ m : Int, 2147483648 ≤ m → sf.buffer m = .error .invalidInput) := by
  refine ⟨buffer_outcome hld hbf hsk hn hn32 hWF, ?_⟩
  intro m hm
  unfold SF.buffer
  rw [if_neg (by simp [hld, hbf, hsk])]
  rw [if_pos (Or.inl (by
    have := toInt32_lt m
    omega))]

theorem C8_buffer_witness :
    ((⟨10, true, false, true, false, false,
      ⟨[Seg.filled 0 [0, 1, 2, 3, 4, 5, 6, 7, 8, 9] 0, Seg.eofSeg 10], 0,
        some 0, 10, some 1, 0, 1⟩, none⟩ : SF).loaded = true ∧
     (0 : Int) ≤ 3 ∧
     WF (⟨10, true, false, true, false, false,
      ⟨[Seg.filled 0 [0, 1, 2, 3, 4, 5, 6, 7, 8, 9] 0, Seg.eofSeg 10], 0,
        some 0, 10, some 1, 0, 1⟩, none⟩ : SF).cache) ∧
    ((∃ res, (⟨10, true, false, true, false, false,
      ⟨[Seg.filled 0 [0, 1, 2, 3, 4, 5, 6, 7, 8, 9] 0, Seg.eofSeg 10], 0,
        some 0, 10, some 1, 0, 1⟩, none⟩ : SF).buffer 3 = .ok res ∧
      (res = ((⟨10, true, false, true, false, false,
        ⟨[Seg.filled 0 [0, 1, 2, 3, 4, 5, 6, 7, 8, 9] 0, Seg.eofSeg 10],
          0, some 0, 10, some 1, 0, 1⟩, none⟩ : SF), .resolved none) ∨
       res = ({ (⟨10, true, false, true, false, false,
        ⟨[Seg.filled 0 [0, 1, 2, 3, 4, 5, 6, 7, 8, 9] 0, Seg.eofSeg 10],
          0, some 0, 10, some 1, 0, 1⟩, none⟩ : SF) with
            buffering := true }, .pending))) ∧
     (∀ m : Int, 2147483648 ≤ m →
       (⟨10, true, false, true, false, false,
        ⟨[Seg.filled 0 [0, 1, 2, 3, 4, 5, 6, 7, 8, 9] 0, Seg.eofSeg 10],
          0, some 0, 10, some 1, 0, 1⟩, none⟩ : SF).buffer m =
         .error .invalidInput)) :=
  ⟨⟨rfl, by decide, by decide⟩,
    C8_buffer rfl rfl rfl (by decide) (by decide) (by decide)⟩

/-- C8 counterexample: 10 bytes are cached, 3 are requested — the call
resolves immediately, but with no value (`resolve()`), not with the
byte count 3. -/
theorem C8_cex :
    (⟨10, true, false, true, false, false,
      ⟨[Seg.filled 0 [0, 1, 2, 3, 4, 5, 6, 7, 8, 9] 0, Seg.eofSeg 10], 0,
        some 0, 10, some 1, 0, 1⟩, none⟩ : SF).buffer 3 =
      .ok (⟨10, true, false, true, false, false,
        ⟨[Seg.filled 0 [0, 1, 2, 3, 4, 5, 6, 7, 8, 9] 0, Seg.eofSeg 10],
          0, some 0, 10, some 1, 0, 1⟩, none⟩, .resolved none) := by
  rfl

/-- C9 (corrected: the three guard failures — invalid input, cursor not
empty, span too small — throw before any mutation and leave the cache
exactly as it was; but a failure inside the final splice, reachable
with a zero-length buffer, happens after the cursor segment was already
split and leaves the list changed). -/
theorem C9_guard_frame {p : Pool} {inp : WInput} {e : WErr} {q : Pool}
    (h : p.write inp = .err e q)
    (he : e = .badInput ∨ e = .notEmptyCursor ∨ e = .tooSmall) : q = p :=
  write_guard_frame h he

theorem C9_guard_frame_witness :
    (Pool.fresh 0).write .invalid = .err .badInput (Pool.fresh 0) ∧
      Pool.fresh 0 = Pool.fresh 0 :=
  ⟨by decide,
    @C9_guard_frame (Pool.fresh 0) WInput.invalid WErr.badInput
      (Pool.fresh 0) (by decide) (Or.inl rfl)⟩

/-- C9 counterexample: writing a zero-length buffer at offset 5, inside
the empty segment `[0,32)` of a reachable cache, throws
`invalid splice tail` — and the failing call has already split the
cursor segment twice, so the segment list after the throw differs from
the one before the call. -/
theorem C9_cex :
    runOps (Pool.fresh 0) [Op.seekW 32, Op.writeB [1, 2, 3, 4, 5, 6, 7],
      Op.seekW 5] = some ⟨[Seg.emp 0 32,
        Seg.filled 32 [1, 2, 3, 4, 5, 6, 7] 0, Seg.eofSeg 39], 0, some 0,
        5, some 0, 0, 1⟩ ∧
    (⟨[Seg.emp 0 32, Seg.filled 32 [1, 2, 3, 4, 5, 6, 7] 0,
      Seg.eofSeg 39], 0, some 0, 5, some 0, 0, 1⟩ : Pool).write
        (.bytes []) =
      .err .spliceFail ⟨[Seg.emp 0 5, Seg.emp 5 5, Seg.emp 5 32,
        Seg.filled 32 [1, 2, 3, 4, 5, 6, 7] 0, Seg.eofSeg 39], 0, some 0,
        5, some 2, 0, 1⟩ ∧
    ([Seg.emp 0 5, Seg.emp 5 5, Seg.emp 5 32,
      Seg.filled 32 [1, 2, 3, 4, 5, 6, 7] 0, Seg.eofSeg 39] :
        List Seg) ≠
      [Seg.emp 0 32, Seg.filled 32 [1, 2, 3, 4, 5, 6, 7] 0,
        Seg.eofSeg 39] := by
  exact ⟨by decide, by decide, by decide⟩

/-- C10: on every reachable cache, `seekRead(offset)` succeeds for any
offset, changes only the read offset and read cursor, sets the read
offset to `offset`, and lands the read cursor on the segment containing
`offset`. -/
theorem C10_seekRead_frame {p : Pool} (hr : Reach p) (o : Nat) :
    ∃ q, p.seekRead o = some q ∧ q.segs = p.segs ∧
      q.writeOffset = p.writeOffset ∧ q.writeCursor = p.writeCursor ∧
      q.cacheSize = p.cacheSize ∧ q.clock = p.clock ∧
      q.readOffset = o ∧
      ∃ i g, q.readCursor = some i ∧ p.segs[i]? = some g ∧
        g.contains o = true := by
  have hWF := Reach_wf hr
  obtain ⟨i, hi, hfi, hcon⟩ := hWF.segs.firstIdx_spec o
  refine ⟨{ p with readOffset := o, readCursor := some i }, ?_, rfl, rfl,
    rfl, rfl, rfl, rfl, i, p.segs.get ⟨i, hi⟩, rfl, ?_, hcon⟩
  · unfold Pool.seekRead
    rw [hfi]
    rfl
  · rw [List.getElem?_eq_getElem hi]
    simp

theorem C10_seekRead_frame_witness :
    Reach (Pool.fresh 0) ∧
    (∃ q, (Pool.fresh 0).seekRead 3 = some q ∧
      q.segs = (Pool.fresh 0).segs ∧
      q.writeOffset = (Pool.fresh 0).writeOffset ∧
      q.writeCursor = (Pool.fresh 0).writeCursor ∧
      q.cacheSize = (Pool.fresh 0).cacheSize ∧
      q.clock = (Pool.fresh 0).clock ∧
      q.readOffset = 3 ∧
      ∃ i g, q.readCursor = some i ∧ (Pool.fresh 0).segs[i]? = some g ∧
        g.contains 3 = true) :=
  ⟨⟨0, [], by simp, rfl⟩,
    C10_seekRead_frame ⟨0, [], by simp, rfl⟩ 3⟩

end StreamFileSpec
